import Mathlib

/-!
Verification of the affine-operation subsystem and related IR utilities of the
MLIR repository, against its natural-language specification.

The development shallowly embeds the relevant source functions of
`lib/AffineOps/AffineOps.cpp`, `lib/IR/Operation.cpp` and
`include/mlir/Transforms/FoldUtils.h`.  The affine expression/map data model
and its primitive algebra (`AffineExpr`, `AffineMap`, `replaceDimsAndSymbols`,
`compose`, `simplifyAffineMap`, expression evaluation), whose implementation
files are not part of the analysed sources, are modelled from the
specification, as noted on each such definition.
-/

set_option maxHeartbeats 1000000

namespace MLIR

/-- Modelled from the spec (§3 "Affine Expression"): an immutable tree over
opcodes dimension(i), symbol(i), constant(k), add, mul, floordiv, ceildiv,
mod, with dimensions and symbols referenced purely by position. -/
inductive AffineExpr where
  | dim (i : Nat)
  | sym (i : Nat)
  | const (c : Int)
  | add (a b : AffineExpr)
  | mul (a b : AffineExpr)
  | floordiv (a b : AffineExpr)
  | ceildiv (a b : AffineExpr)
  | mod (a b : AffineExpr)
deriving DecidableEq, Repr

/-- Ceiling division on integers, expressed through floor division. -/
def intCeilDiv (a b : Int) : Int := -(Int.fdiv (-a) b)

/-- Modelled from the spec (§4.6): evaluation of an affine expression on
concrete integer values for the dimension and symbol positions. -/
def AffineExpr.eval (d s : Nat → Int) : AffineExpr → Int
  | .dim i => d i
  | .sym i => s i
  | .const c => c
  | .add a b => a.eval d s + b.eval d s
  | .mul a b => a.eval d s * b.eval d s
  | .floordiv a b => Int.fdiv (a.eval d s) (b.eval d s)
  | .ceildiv a b => intCeilDiv (a.eval d s) (b.eval d s)
  | .mod a b => Int.fmod (a.eval d s) (b.eval d s)

/-- Dimension and symbol positions of an expression lie below the given
bounds (the invariant of §3 "Affine Map"). -/
def AffineExpr.inBounds (nd ns : Nat) : AffineExpr → Bool
  | .dim i => decide (i < nd)
  | .sym i => decide (i < ns)
  | .const _ => true
  | .add a b => a.inBounds nd ns && b.inBounds nd ns
  | .mul a b => a.inBounds nd ns && b.inBounds nd ns
  | .floordiv a b => a.inBounds nd ns && b.inBounds nd ns
  | .ceildiv a b => a.inBounds nd ns && b.inBounds nd ns
  | .mod a b => a.inBounds nd ns && b.inBounds nd ns

/-- Whether the expression references dimension position `i`
(the check performed with `walkExprs` in `canonicalizeMapAndOperands`). -/
def AffineExpr.usesDim (i : Nat) : AffineExpr → Bool
  | .dim j => decide (j = i)
  | .sym _ => false
  | .const _ => false
  | .add a b => a.usesDim i || b.usesDim i
  | .mul a b => a.usesDim i || b.usesDim i
  | .floordiv a b => a.usesDim i || b.usesDim i
  | .ceildiv a b => a.usesDim i || b.usesDim i
  | .mod a b => a.usesDim i || b.usesDim i

/-- Whether the expression references symbol position `i`. -/
def AffineExpr.usesSym (i : Nat) : AffineExpr → Bool
  | .dim _ => false
  | .sym j => decide (j = i)
  | .const _ => false
  | .add a b => a.usesSym i || b.usesSym i
  | .mul a b => a.usesSym i || b.usesSym i
  | .floordiv a b => a.usesSym i || b.usesSym i
  | .ceildiv a b => a.usesSym i || b.usesSym i
  | .mod a b => a.usesSym i || b.usesSym i

/-- Modelled from the spec (and `AffineExpr::replaceDimsAndSymbols`, whose
implementation file is outside the analysed sources): substitute dimension
position `i` by `dimReplacements[i]` and symbol position `j` by
`symReplacements[j]`; positions beyond the replacement lists are kept
unchanged. -/
def AffineExpr.replaceDimsAndSymbols (dr sr : List AffineExpr) : AffineExpr → AffineExpr
  | .dim i => dr.getD i (.dim i)
  | .sym i => sr.getD i (.sym i)
  | .const c => .const c
  | .add a b => .add (a.replaceDimsAndSymbols dr sr) (b.replaceDimsAndSymbols dr sr)
  | .mul a b => .mul (a.replaceDimsAndSymbols dr sr) (b.replaceDimsAndSymbols dr sr)
  | .floordiv a b => .floordiv (a.replaceDimsAndSymbols dr sr) (b.replaceDimsAndSymbols dr sr)
  | .ceildiv a b => .ceildiv (a.replaceDimsAndSymbols dr sr) (b.replaceDimsAndSymbols dr sr)
  | .mod a b => .mod (a.replaceDimsAndSymbols dr sr) (b.replaceDimsAndSymbols dr sr)

/-- Modelled from the spec (§3 "Affine Map"): an immutable tuple of a
dimension count, a symbol count and an ordered list of result expressions. -/
structure AffineMap where
  numDims : Nat
  numSymbols : Nat
  results : List AffineExpr
deriving DecidableEq, Repr

/-- Total number of map inputs: dimensions followed by symbols. -/
def AffineMap.numInputs (m : AffineMap) : Nat := m.numDims + m.numSymbols

/-- All result expressions reference only in-range dimension and symbol
positions. -/
def AffineMap.inBounds (m : AffineMap) : Bool :=
  m.results.all (AffineExpr.inBounds m.numDims m.numSymbols)

/-- Modelled from the spec: `AffineMap::replaceDimsAndSymbols`, applying the
expression-level substitution to every result and installing the given
counts. -/
def AffineMap.replaceDimsAndSymbols (m : AffineMap) (dr sr : List AffineExpr)
    (nd ns : Nat) : AffineMap :=
  ⟨nd, ns, m.results.map (AffineExpr.replaceDimsAndSymbols dr sr)⟩

/-- Modelled from the spec (§4.7 step 5, mathematical composition of the outer
map with the auxiliary map): `f.compose g` substitutes `f`'s dimension `i` by
`g`'s result `i`; the composed map keeps `f`'s symbols at positions
`0..f.numSymbols-1` and appends `g`'s symbols after them. -/
def AffineMap.compose (f g : AffineMap) : AffineMap :=
  let shiftedG : List AffineExpr :=
    g.results.map (AffineExpr.replaceDimsAndSymbols
      ((List.range g.numDims).map AffineExpr.dim)
      ((List.range g.numSymbols).map (fun i => AffineExpr.sym (f.numSymbols + i))))
  ⟨g.numDims, f.numSymbols + g.numSymbols,
    f.results.map (AffineExpr.replaceDimsAndSymbols shiftedG
      ((List.range f.numSymbols).map AffineExpr.sym))⟩

/-- Modelled from the spec (§4.6): evaluation of every result expression of a
map on a concrete argument list, the first `numDims` entries binding the
dimensions and the remaining ones the symbols. -/
def AffineMap.evalAt (m : AffineMap) (args : List Int) : List Int :=
  m.results.map (AffineExpr.eval (fun i => args.getD i 0)
    (fun j => args.getD (m.numDims + j) 0))

theorem AffineExpr.eval_replace (dr sr : List AffineExpr) (d s : Nat → Int)
    (e : AffineExpr) :
    (e.replaceDimsAndSymbols dr sr).eval d s =
      e.eval (fun i => (dr.getD i (.dim i)).eval d s)
        (fun j => (sr.getD j (.sym j)).eval d s) := by
  induction e <;> simp [AffineExpr.replaceDimsAndSymbols, AffineExpr.eval, *]

theorem AffineExpr.eval_congr {nd ns : Nat} {d1 d2 s1 s2 : Nat → Int}
    (e : AffineExpr) (hb : e.inBounds nd ns = true)
    (hd : ∀ i < nd, d1 i = d2 i) (hs : ∀ j < ns, s1 j = s2 j) :
    e.eval d1 s1 = e.eval d2 s2 := by
  induction e <;> simp_all [AffineExpr.inBounds, AffineExpr.eval]

theorem AffineExpr.inBounds_replace {nd ns : Nat} (dr sr : List AffineExpr)
    (e : AffineExpr) (hb : e.inBounds dr.length sr.length = true)
    (hdr : ∀ x ∈ dr, x.inBounds nd ns = true)
    (hsr : ∀ x ∈ sr, x.inBounds nd ns = true) :
    (e.replaceDimsAndSymbols dr sr).inBounds nd ns = true := by
  induction e with
  | dim i =>
    simp only [AffineExpr.inBounds, decide_eq_true_eq] at hb
    have : dr.getD i (.dim i) ∈ dr := by
      rw [List.getD_eq_getElem dr (.dim i) hb]
      exact List.getElem_mem hb
    simpa [AffineExpr.replaceDimsAndSymbols] using hdr _ this
  | sym i =>
    simp only [AffineExpr.inBounds, decide_eq_true_eq] at hb
    have : sr.getD i (.sym i) ∈ sr := by
      rw [List.getD_eq_getElem sr (.sym i) hb]
      exact List.getElem_mem hb
    simpa [AffineExpr.replaceDimsAndSymbols] using hsr _ this
  | const c => simp [AffineExpr.replaceDimsAndSymbols, AffineExpr.inBounds]
  | add a b iha ihb =>
    simp only [AffineExpr.inBounds, Bool.and_eq_true] at hb
    simp [AffineExpr.replaceDimsAndSymbols, AffineExpr.inBounds,
      iha hb.1, ihb hb.2]
  | mul a b iha ihb =>
    simp only [AffineExpr.inBounds, Bool.and_eq_true] at hb
    simp [AffineExpr.replaceDimsAndSymbols, AffineExpr.inBounds,
      iha hb.1, ihb hb.2]
  | floordiv a b iha ihb =>
    simp only [AffineExpr.inBounds, Bool.and_eq_true] at hb
    simp [AffineExpr.replaceDimsAndSymbols, AffineExpr.inBounds,
      iha hb.1, ihb hb.2]
  | ceildiv a b iha ihb =>
    simp only [AffineExpr.inBounds, Bool.and_eq_true] at hb
    simp [AffineExpr.replaceDimsAndSymbols, AffineExpr.inBounds,
      iha hb.1, ihb hb.2]
  | mod a b iha ihb =>
    simp only [AffineExpr.inBounds, Bool.and_eq_true] at hb
    simp [AffineExpr.replaceDimsAndSymbols, AffineExpr.inBounds,
      iha hb.1, ihb hb.2]

theorem AffineExpr.eval_congr_used {d1 d2 s1 s2 : Nat → Int} (e : AffineExpr)
    (hd : ∀ i, e.usesDim i = true → d1 i = d2 i)
    (hs : ∀ j, e.usesSym j = true → s1 j = s2 j) :
    e.eval d1 s1 = e.eval d2 s2 := by
  induction e with
  | dim i => exact hd i (by simp [AffineExpr.usesDim])
  | sym i => exact hs i (by simp [AffineExpr.usesSym])
  | const c => rfl
  | add a b iha ihb =>
    simp only [AffineExpr.eval]
    rw [iha (fun i h => hd i (by simp [AffineExpr.usesDim, h]))
        (fun j h => hs j (by simp [AffineExpr.usesSym, h])),
      ihb (fun i h => hd i (by simp [AffineExpr.usesDim, h]))
        (fun j h => hs j (by simp [AffineExpr.usesSym, h]))]
  | mul a b iha ihb =>
    simp only [AffineExpr.eval]
    rw [iha (fun i h => hd i (by simp [AffineExpr.usesDim, h]))
        (fun j h => hs j (by simp [AffineExpr.usesSym, h])),
      ihb (fun i h => hd i (by simp [AffineExpr.usesDim, h]))
        (fun j h => hs j (by simp [AffineExpr.usesSym, h]))]
  | floordiv a b iha ihb =>
    simp only [AffineExpr.eval]
    rw [iha (fun i h => hd i (by simp [AffineExpr.usesDim, h]))
        (fun j h => hs j (by simp [AffineExpr.usesSym, h])),
      ihb (fun i h => hd i (by simp [AffineExpr.usesDim, h]))
        (fun j h => hs j (by simp [AffineExpr.usesSym, h]))]
  | ceildiv a b iha ihb =>
    simp only [AffineExpr.eval]
    rw [iha (fun i h => hd i (by simp [AffineExpr.usesDim, h]))
        (fun j h => hs j (by simp [AffineExpr.usesSym, h])),
      ihb (fun i h => hd i (by simp [AffineExpr.usesDim, h]))
        (fun j h => hs j (by simp [AffineExpr.usesSym, h]))]
  | mod a b iha ihb =>
    simp only [AffineExpr.eval]
    rw [iha (fun i h => hd i (by simp [AffineExpr.usesDim, h]))
        (fun j h => hs j (by simp [AffineExpr.usesSym, h])),
      ihb (fun i h => hd i (by simp [AffineExpr.usesDim, h]))
        (fun j h => hs j (by simp [AffineExpr.usesSym, h]))]

/-- Vector of `n` zero coefficients. -/
def zeroVec (n : Nat) : List Int := List.replicate n 0

/-- Pointwise sum of two coefficient vectors. -/
def addVec (v w : List Int) : List Int := List.zipWith (fun a b => a + b) v w

/-- Scaling of a coefficient vector. -/
def scaleVec (c : Int) (v : List Int) : List Int := v.map (fun a => c * a)

/-- Dot product of a coefficient vector with the values `f i, f (i+1), ...`. -/
def dotVec (v : List Int) (f : Nat → Int) (i : Nat) : Int :=
  match v with
  | [] => 0
  | c :: rest => c * f i + dotVec rest f (i + 1)

/-- Modelled from the spec (§4.7 step 5, "expression-level algebraic
simplification: constant folding, identity elimination"): attempt to flatten
an expression into an affine-linear combination of its dimensions and
symbols.  Expressions involving floordiv, ceildiv or mod, or non-linear
products, are left alone. -/
def AffineExpr.linearize (nd ns : Nat) : AffineExpr → Option (List Int × List Int × Int)
  | .dim i => if i < nd then some ((zeroVec nd).set i 1, zeroVec ns, 0) else none
  | .sym j => if j < ns then some (zeroVec nd, (zeroVec ns).set j 1, 0) else none
  | .const c => some (zeroVec nd, zeroVec ns, c)
  | .add a b =>
    match a.linearize nd ns, b.linearize nd ns with
    | some (da, sa, ca), some (db, sb, cb) => some (addVec da db, addVec sa sb, ca + cb)
    | _, _ => none
  | .mul a b =>
    match a.linearize nd ns, b.linearize nd ns with
    | some (da, sa, ca), some (db, sb, cb) =>
      if da.all (fun x => x = 0) && sa.all (fun x => x = 0) then
        some (scaleVec ca db, scaleVec ca sb, ca * cb)
      else if db.all (fun x => x = 0) && sb.all (fun x => x = 0) then
        some (scaleVec cb da, scaleVec cb sa, cb * ca)
      else none
    | _, _ => none
  | .floordiv _ _ => none
  | .ceildiv _ _ => none
  | .mod _ _ => none

/-- Single linear term `coeff * e`, eliminating the unit coefficient. -/
def linearTerm (coeff : Int) (e : AffineExpr) : AffineExpr :=
  if coeff = 1 then e else .mul e (.const coeff)

/-- Terms of a linear combination, one per nonzero coefficient, positions
numbered from `i` upward. -/
def coeffTerms (mk : Nat → AffineExpr) : List Int → Nat → List AffineExpr
  | [], _ => []
  | c :: rest, i =>
    (if c = 0 then [] else [linearTerm c (mk i)]) ++ coeffTerms mk rest (i + 1)

/-- Left-associated sum of a list of expressions (empty sum is the zero
constant). -/
def sumExprs : List AffineExpr → AffineExpr
  | [] => .const 0
  | e :: rest => rest.foldl AffineExpr.add e

/-- Modelled from the spec: `simplifyAffineExpr`, rebuilding a flattenable
expression as a canonical linear combination and leaving other expressions
unchanged. -/
def simplifyAffineExpr (nd ns : Nat) (e : AffineExpr) : AffineExpr :=
  match e.linearize nd ns with
  | some (dv, sv, c) =>
    sumExprs (coeffTerms AffineExpr.dim dv 0 ++ coeffTerms AffineExpr.sym sv 0 ++
      (if c = 0 then [] else [.const c]))
  | none => e

/-- Modelled from the spec: `simplifyAffineMap` simplifies every result
expression. -/
def simplifyAffineMap (m : AffineMap) : AffineMap :=
  ⟨m.numDims, m.numSymbols, m.results.map (simplifyAffineExpr m.numDims m.numSymbols)⟩

theorem dotVec_replicate_zero (n : Nat) (f : Nat → Int) (i : Nat) :
    dotVec (List.replicate n 0) f i = 0 := by
  induction n generalizing i with
  | zero => rfl
  | succ n ih =>
    rw [List.replicate_succ]
    show (0 : Int) * f i + dotVec (List.replicate n 0) f (i + 1) = 0
    rw [ih (i + 1)]
    ring

theorem dotVec_zeroVec (n : Nat) (f : Nat → Int) (i : Nat) :
    dotVec (zeroVec n) f i = 0 := dotVec_replicate_zero n f i

theorem dotVec_set_one (n : Nat) (f : Nat → Int) (i k : Nat) (hk : k < n) :
    dotVec ((zeroVec n).set k 1) f i = f (i + k) := by
  induction n generalizing i k with
  | zero => omega
  | succ n ih =>
    cases k with
    | zero =>
      simp only [zeroVec, List.replicate_succ, List.set]
      show (1 : Int) * f i + dotVec (List.replicate n 0) f (i + 1) = f (i + 0)
      rw [dotVec_replicate_zero]
      ring_nf
    | succ k =>
      simp only [zeroVec, List.replicate_succ, List.set]
      show (0 : Int) * f i + dotVec ((List.replicate n 0).set k 1) f (i + 1) = f (i + (k + 1))
      have := ih (i + 1) k (by omega)
      simp only [zeroVec] at this
      rw [this]
      ring_nf

theorem dotVec_addVec (v w : List Int) (f : Nat → Int) (i : Nat)
    (hlen : v.length = w.length) :
    dotVec (addVec v w) f i = dotVec v f i + dotVec w f i := by
  induction v generalizing w i with
  | nil =>
    cases w with
    | nil => simp [addVec, dotVec]
    | cons b bs => simp at hlen
  | cons a as ih =>
    cases w with
    | nil => simp at hlen
    | cons b bs =>
      show dotVec ((a + b) :: addVec as bs) f i = _
      simp only [dotVec]
      rw [ih bs (i + 1) (by simpa using hlen)]
      ring

theorem dotVec_scaleVec (c : Int) (v : List Int) (f : Nat → Int) (i : Nat) :
    dotVec (scaleVec c v) f i = c * dotVec v f i := by
  induction v generalizing i with
  | nil => simp [scaleVec, dotVec]
  | cons a as ih =>
    show dotVec ((c * a) :: scaleVec c as) f i = _
    simp only [dotVec]
    rw [ih (i + 1)]
    ring

theorem dotVec_all_zero (v : List Int) (f : Nat → Int) (i : Nat)
    (h : v.all (fun x => x = 0) = true) : dotVec v f i = 0 := by
  induction v generalizing i with
  | nil => rfl
  | cons a as ih =>
    simp only [List.all_cons, Bool.and_eq_true, decide_eq_true_eq] at h
    simp [dotVec, h.1, ih _ h.2]

theorem length_scaleVec (c : Int) (v : List Int) : (scaleVec c v).length = v.length := by
  simp [scaleVec]

theorem length_addVec (v w : List Int) (h : v.length = w.length) :
    (addVec v w).length = v.length := by
  simp [addVec]
  omega

theorem linearize_length {nd ns : Nat} {e : AffineExpr} {dv sv : List Int} {c : Int}
    (h : e.linearize nd ns = some (dv, sv, c)) :
    dv.length = nd ∧ sv.length = ns := by
  induction e generalizing dv sv c with
  | dim i =>
    simp only [AffineExpr.linearize] at h
    split at h
    · simp only [Option.some.injEq, Prod.mk.injEq] at h
      obtain ⟨h1, h2, _⟩ := h
      subst h1; subst h2
      simp [zeroVec]
    · exact absurd h (by simp)
  | sym j =>
    simp only [AffineExpr.linearize] at h
    split at h
    · simp only [Option.some.injEq, Prod.mk.injEq] at h
      obtain ⟨h1, h2, _⟩ := h
      subst h1; subst h2
      simp [zeroVec]
    · exact absurd h (by simp)
  | const k =>
    simp only [AffineExpr.linearize, Option.some.injEq, Prod.mk.injEq] at h
    obtain ⟨h1, h2, _⟩ := h
    subst h1; subst h2
    simp [zeroVec]
  | add a b iha ihb =>
    simp only [AffineExpr.linearize] at h
    cases ha : a.linearize nd ns with
    | none => rw [ha] at h; exact absurd h (by simp)
    | some pa =>
      cases hb : b.linearize nd ns with
      | none => rw [ha, hb] at h; exact absurd h (by simp)
      | some pb =>
        obtain ⟨da, sa, ca⟩ := pa
        obtain ⟨db, sb, cb⟩ := pb
        rw [ha, hb] at h
        simp only [Option.some.injEq, Prod.mk.injEq] at h
        obtain ⟨h1, h2, _⟩ := h
        subst h1; subst h2
        obtain ⟨la1, la2⟩ := iha ha
        obtain ⟨lb1, lb2⟩ := ihb hb
        exact ⟨by rw [length_addVec da db (by omega)]; exact la1,
          by rw [length_addVec sa sb (by omega)]; exact la2⟩
  | mul a b iha ihb =>
    simp only [AffineExpr.linearize] at h
    cases ha : a.linearize nd ns with
    | none => rw [ha] at h; exact absurd h (by simp)
    | some pa =>
      cases hb : b.linearize nd ns with
      | none => rw [ha, hb] at h; exact absurd h (by simp)
      | some pb =>
        obtain ⟨da, sa, ca⟩ := pa
        obtain ⟨db, sb, cb⟩ := pb
        rw [ha, hb] at h
        dsimp only at h
        obtain ⟨la1, la2⟩ := iha ha
        obtain ⟨lb1, lb2⟩ := ihb hb
        by_cases hza : ((da.all fun x => decide (x = 0)) && (sa.all fun x => decide (x = 0))) = true
        · rw [if_pos hza] at h
          simp only [Option.some.injEq, Prod.mk.injEq] at h
          obtain ⟨h1, h2, _⟩ := h
          subst h1; subst h2
          exact ⟨by rw [length_scaleVec]; exact lb1, by rw [length_scaleVec]; exact lb2⟩
        · rw [if_neg hza] at h
          by_cases hzb : ((db.all fun x => decide (x = 0)) && (sb.all fun x => decide (x = 0))) = true
          · rw [if_pos hzb] at h
            simp only [Option.some.injEq, Prod.mk.injEq] at h
            obtain ⟨h1, h2, _⟩ := h
            subst h1; subst h2
            exact ⟨by rw [length_scaleVec]; exact la1, by rw [length_scaleVec]; exact la2⟩
          · rw [if_neg hzb] at h
            exact absurd h (by simp)
  | floordiv a b iha ihb => exact absurd h (by simp [AffineExpr.linearize])
  | ceildiv a b iha ihb => exact absurd h (by simp [AffineExpr.linearize])
  | mod a b iha ihb => exact absurd h (by simp [AffineExpr.linearize])

theorem linearize_eval {nd ns : Nat} {e : AffineExpr} {dv sv : List Int} {c : Int}
    (h : e.linearize nd ns = some (dv, sv, c)) (d s : Nat → Int) :
    e.eval d s = dotVec dv d 0 + dotVec sv s 0 + c := by
  induction e generalizing dv sv c with
  | dim i =>
    simp only [AffineExpr.linearize] at h
    split at h
    · simp only [Option.some.injEq, Prod.mk.injEq] at h
      obtain ⟨h1, h2, h3⟩ := h
      subst h1; subst h2; subst h3
      rename_i hi
      simp [AffineExpr.eval, dotVec_set_one nd d 0 i hi, dotVec_zeroVec]
    · exact absurd h (by simp)
  | sym j =>
    simp only [AffineExpr.linearize] at h
    split at h
    · simp only [Option.some.injEq, Prod.mk.injEq] at h
      obtain ⟨h1, h2, h3⟩ := h
      subst h1; subst h2; subst h3
      rename_i hj
      simp [AffineExpr.eval, dotVec_set_one ns s 0 j hj, dotVec_zeroVec]
    · exact absurd h (by simp)
  | const k =>
    simp only [AffineExpr.linearize, Option.some.injEq, Prod.mk.injEq] at h
    obtain ⟨h1, h2, h3⟩ := h
    subst h1; subst h2; subst h3
    simp [AffineExpr.eval, dotVec_zeroVec]
  | add a b iha ihb =>
    simp only [AffineExpr.linearize] at h
    cases ha : a.linearize nd ns with
    | none => rw [ha] at h; exact absurd h (by simp)
    | some pa =>
      cases hb : b.linearize nd ns with
      | none => rw [ha, hb] at h; exact absurd h (by simp)
      | some pb =>
        obtain ⟨da, sa, ca⟩ := pa
        obtain ⟨db, sb, cb⟩ := pb
        rw [ha, hb] at h
        simp only [Option.some.injEq, Prod.mk.injEq] at h
        obtain ⟨h1, h2, h3⟩ := h
        subst h1; subst h2; subst h3
        obtain ⟨la1, la2⟩ := linearize_length ha
        obtain ⟨lb1, lb2⟩ := linearize_length hb
        show a.eval d s + b.eval d s = _
        rw [iha ha, ihb hb, dotVec_addVec da db d 0 (by omega),
          dotVec_addVec sa sb s 0 (by omega)]
        ring
  | mul a b iha ihb =>
    simp only [AffineExpr.linearize] at h
    cases ha : a.linearize nd ns with
    | none => rw [ha] at h; exact absurd h (by simp)
    | some pa =>
      cases hb : b.linearize nd ns with
      | none => rw [ha, hb] at h; exact absurd h (by simp)
      | some pb =>
        obtain ⟨da, sa, ca⟩ := pa
        obtain ⟨db, sb, cb⟩ := pb
        rw [ha, hb] at h
        dsimp only at h
        by_cases hza : ((da.all fun x => decide (x = 0)) && (sa.all fun x => decide (x = 0))) = true
        · rw [if_pos hza] at h
          simp only [Bool.and_eq_true] at hza
          simp only [Option.some.injEq, Prod.mk.injEq] at h
          obtain ⟨h1, h2, h3⟩ := h
          subst h1; subst h2; subst h3
          show a.eval d s * b.eval d s = _
          rw [iha ha, ihb hb, dotVec_scaleVec, dotVec_scaleVec,
            dotVec_all_zero da d 0 hza.1, dotVec_all_zero sa s 0 hza.2]
          ring
        · rw [if_neg hza] at h
          by_cases hzb : ((db.all fun x => decide (x = 0)) && (sb.all fun x => decide (x = 0))) = true
          · rw [if_pos hzb] at h
            simp only [Bool.and_eq_true] at hzb
            simp only [Option.some.injEq, Prod.mk.injEq] at h
            obtain ⟨h1, h2, h3⟩ := h
            subst h1; subst h2; subst h3
            show a.eval d s * b.eval d s = _
            rw [iha ha, ihb hb, dotVec_scaleVec, dotVec_scaleVec,
              dotVec_all_zero db d 0 hzb.1, dotVec_all_zero sb s 0 hzb.2]
            ring
          · rw [if_neg hzb] at h
            exact absurd h (by simp)
  | floordiv a b iha ihb => exact absurd h (by simp [AffineExpr.linearize])
  | ceildiv a b iha ihb => exact absurd h (by simp [AffineExpr.linearize])
  | mod a b iha ihb => exact absurd h (by simp [AffineExpr.linearize])

theorem sumExprs_eval (l : List AffineExpr) (d s : Nat → Int) :
    (sumExprs l).eval d s = (l.map (AffineExpr.eval d s)).sum := by
  cases l with
  | nil => simp [sumExprs, AffineExpr.eval]
  | cons e rest =>
    show (rest.foldl AffineExpr.add e).eval d s = _
    induction rest generalizing e with
    | nil => simp
    | cons f fs ih =>
      show ((f :: fs).foldl AffineExpr.add e).eval d s = _
      rw [List.foldl_cons]
      rw [ih (AffineExpr.add e f)]
      show e.eval d s + f.eval d s + (fs.map (AffineExpr.eval d s)).sum = _
      simp only [List.map, List.sum_cons]
      ring

theorem coeffTerms_eval (mk : Nat → AffineExpr) (v : List Int) (i : Nat)
    (d s : Nat → Int) :
    ((coeffTerms mk v i).map (AffineExpr.eval d s)).sum =
      dotVec v (fun k => (mk k).eval d s) i := by
  induction v generalizing i with
  | nil => simp [coeffTerms, dotVec]
  | cons c rest ih =>
    simp only [coeffTerms, dotVec]
    by_cases hc : c = 0
    · subst hc
      simp [ih]
    · rw [if_neg hc]
      simp only [List.map_append, List.sum_append, List.map, List.sum_cons,
        List.sum_nil, List.cons_append, List.nil_append, List.append]
      rw [ih]
      simp only [linearTerm]
      by_cases h1 : c = 1
      · subst h1; simp
      · rw [if_neg h1]
        simp only [AffineExpr.eval]
        ring

theorem simplifyAffineExpr_eval (nd ns : Nat) (e : AffineExpr) (d s : Nat → Int) :
    (simplifyAffineExpr nd ns e).eval d s = e.eval d s := by
  unfold simplifyAffineExpr
  cases h : e.linearize nd ns with
  | none => rfl
  | some p =>
    obtain ⟨dv, sv, c⟩ := p
    rw [linearize_eval h d s]
    rw [sumExprs_eval]
    simp only [List.map_append, List.sum_append, coeffTerms_eval]
    by_cases hc : c = 0 <;> simp [hc, AffineExpr.eval]

theorem coeffTerms_mem (mk : Nat → AffineExpr) (v : List Int) (i : Nat) :
    ∀ e ∈ coeffTerms mk v i, ∃ k c, i ≤ k ∧ k < i + v.length ∧ e = linearTerm c (mk k) := by
  induction v generalizing i with
  | nil => intro e he; exact absurd he (by simp [coeffTerms])
  | cons c rest ih =>
    intro e he
    simp only [coeffTerms] at he
    rcases List.mem_append.mp he with h | h
    · by_cases hc : c = 0
      · rw [if_pos hc] at h; exact absurd h (by simp)
      · rw [if_neg hc] at h
        simp only [List.mem_singleton] at h
        exact ⟨i, c, le_rfl, by simp, h⟩
    · obtain ⟨k, c', hk1, hk2, he'⟩ := ih (i + 1) e h
      exact ⟨k, c', by omega, by simp; omega, he'⟩

theorem inBounds_linearTerm {nd ns : Nat} {e : AffineExpr} (c : Int)
    (h : e.inBounds nd ns = true) : (linearTerm c e).inBounds nd ns = true := by
  unfold linearTerm
  split
  · exact h
  · simp [AffineExpr.inBounds, h]

theorem inBounds_sumExprs {nd ns : Nat} (l : List AffineExpr)
    (h : ∀ e ∈ l, e.inBounds nd ns = true) : (sumExprs l).inBounds nd ns = true := by
  cases l with
  | nil => simp [sumExprs, AffineExpr.inBounds]
  | cons e rest =>
    show (rest.foldl AffineExpr.add e).inBounds nd ns = true
    induction rest generalizing e with
    | nil => exact h e (by simp)
    | cons f fs ih =>
      rw [List.foldl_cons]
      apply ih (AffineExpr.add e f)
      intro x hx
      rcases List.mem_cons.mp hx with hx | hx
      · subst hx
        simp only [AffineExpr.inBounds, Bool.and_eq_true]
        exact ⟨h e (by simp), h f (by simp)⟩
      · exact h x (by simp [hx])

theorem simplifyAffineExpr_inBounds {nd ns : Nat} (e : AffineExpr)
    (h : e.inBounds nd ns = true) :
    (simplifyAffineExpr nd ns e).inBounds nd ns = true := by
  unfold simplifyAffineExpr
  cases hl : e.linearize nd ns with
  | none => exact h
  | some p =>
    obtain ⟨dv, sv, c⟩ := p
    obtain ⟨l1, l2⟩ := linearize_length hl
    apply inBounds_sumExprs
    intro x hx
    rcases List.mem_append.mp hx with hx | hx
    · rcases List.mem_append.mp hx with hx | hx
      · obtain ⟨k, c', _, hk2, he⟩ := coeffTerms_mem AffineExpr.dim dv 0 x hx
        subst he
        apply inBounds_linearTerm
        simp only [AffineExpr.inBounds, decide_eq_true_eq]
        omega
      · obtain ⟨k, c', _, hk2, he⟩ := coeffTerms_mem AffineExpr.sym sv 0 x hx
        subst he
        apply inBounds_linearTerm
        simp only [AffineExpr.inBounds, decide_eq_true_eq]
        omega
    · by_cases hc : c = 0
      · rw [if_pos hc] at hx; exact absurd hx (by simp)
      · rw [if_neg hc] at hx
        simp only [List.mem_singleton] at hx
        subst hx
        simp [AffineExpr.inBounds]

theorem simplifyAffineMap_evalAt (m : AffineMap) (args : List Int) :
    (simplifyAffineMap m).evalAt args = m.evalAt args := by
  simp only [simplifyAffineMap, AffineMap.evalAt, List.map_map]
  apply List.map_congr_left
  intro e _
  exact simplifyAffineExpr_eval m.numDims m.numSymbols e _ _

theorem simplifyAffineMap_inBounds (m : AffineMap) (h : m.inBounds = true) :
    (simplifyAffineMap m).inBounds = true := by
  simp only [simplifyAffineMap, AffineMap.inBounds, List.all_eq_true, List.mem_map] at h ⊢
  rintro x ⟨e, he, rfl⟩
  exact simplifyAffineExpr_inBounds e (h e he)

/-- Model of the SSA `Value` graph relevant to the affine subsystem
(`mlir::Value`): a value is a block argument or the result of an operation.
`topLevel` records whether the owning block's region (for a block argument)
or the defining operation's containing region (for a result) is a
function region, `isIndexTy` whether the value's type is the `index` type.
A `constantRes` is the result of a `ConstantOp`, an `applyRes` the single
result of an `AffineApplyOp` carrying its map and operand list, a `dimRes`
the result of a `DimOp` applied to `memref`, and `otherRes` any other
operation result.  Distinct `id`s model distinct SSA values. -/
inductive Val where
  | blockArg (id : Nat) (isIndexTy : Bool) (topLevel : Bool)
  | constantRes (id : Nat) (isIndexTy : Bool) (topLevel : Bool)
  | applyRes (id : Nat) (isIndexTy : Bool) (topLevel : Bool) (map : AffineMap) (operands : List Val)
  | dimRes (id : Nat) (isIndexTy : Bool) (topLevel : Bool) (memref : Val)
  | otherRes (id : Nat) (isIndexTy : Bool) (topLevel : Bool)
deriving Repr

mutual

/-- Structural (pointer-identity) equality test on values. -/
def Val.beq : Val → Val → Bool
  | .blockArg i x t, .blockArg i' x' t' => i == i' && x == x' && t == t'
  | .constantRes i x t, .constantRes i' x' t' => i == i' && x == x' && t == t'
  | .applyRes i x t m o, .applyRes i' x' t' m' o' =>
      i == i' && x == x' && t == t' && m == m' && Val.beqList o o'
  | .dimRes i x t mr, .dimRes i' x' t' mr' => i == i' && x == x' && t == t' && Val.beq mr mr'
  | .otherRes i x t, .otherRes i' x' t' => i == i' && x == x' && t == t'
  | _, _ => false

/-- Pointwise equality test on value lists. -/
def Val.beqList : List Val → List Val → Bool
  | [], [] => true
  | a :: as, b :: bs => Val.beq a b && Val.beqList as bs
  | _, _ => false

end

theorem Val.beq_iff_eq_aux : ∀ n : Nat,
    (∀ a b : Val, sizeOf a ≤ n → (Val.beq a b = true ↔ a = b)) ∧
    (∀ l l' : List Val, sizeOf l ≤ n → (Val.beqList l l' = true ↔ l = l')) := by
  intro n
  induction n using Nat.strong_induction_on with
  | _ n ih =>
    constructor
    · intro a b ha
      cases a <;> cases b <;> simp [Val.beq, and_assoc]
      case applyRes.applyRes i x t m o i' x' t' m' o' =>
        have hsz : sizeOf o < n := by
          have := Val.applyRes.sizeOf_spec i x t m o
          omega
        rw [(ih (sizeOf o) hsz).2 o o' le_rfl]
        intros; rfl
      case dimRes.dimRes i x t mr i' x' t' mr' =>
        have hsz : sizeOf mr < n := by
          have := Val.dimRes.sizeOf_spec i x t mr
          omega
        rw [(ih (sizeOf mr) hsz).1 mr mr' le_rfl]
        intros; rfl
    · intro l l' hl
      cases l <;> cases l' <;> simp [Val.beqList]
      case cons.cons a as b bs =>
        have h1 : sizeOf a < n := by
          have : sizeOf (a :: as) = 1 + sizeOf a + sizeOf as := rfl
          omega
        have h2 : sizeOf as < n := by
          have : sizeOf (a :: as) = 1 + sizeOf a + sizeOf as := rfl
          omega
        rw [(ih (sizeOf a) h1).1 a b le_rfl, (ih (sizeOf as) h2).2 as bs le_rfl]

theorem Val.beq_iff_eq (a b : Val) : Val.beq a b = true ↔ a = b :=
  (Val.beq_iff_eq_aux (sizeOf a)).1 a b le_rfl

instance : DecidableEq Val := fun a b =>
  decidable_of_iff (Val.beq a b = true) (Val.beq_iff_eq a b)

instance : Inhabited Val := ⟨.blockArg 0 false false⟩

/-- SSA identifier of the value (used to bind concrete integers to leaves). -/
def Val.vid : Val → Nat
  | .blockArg i _ _ => i
  | .constantRes i _ _ => i
  | .applyRes i _ _ _ _ => i
  | .dimRes i _ _ _ => i
  | .otherRes i _ _ => i

/-- Whether the value's type is the `index` type. -/
def Val.indexTyped : Val → Bool
  | .blockArg _ ix _ => ix
  | .constantRes _ ix _ => ix
  | .applyRes _ ix _ _ _ => ix
  | .dimRes _ ix _ _ => ix
  | .otherRes _ ix _ => ix

/-- Whether the value is the result of an `AffineApplyOp`
(`isa_and_nonnull<AffineApplyOp>(v->getDefiningOp())`). -/
def Val.isApplyRes : Val → Bool
  | .applyRes _ _ _ _ _ => true
  | _ => false

/-- Embeds `mlir::isTopLevelSymbol` (AffineOps.cpp): a block argument is a
top-level symbol when its owner block's region is a function region,
any other value when its defining operation's containing region is. -/
def isTopLevelSymbol : Val → Bool
  | .blockArg _ _ tl => tl
  | .constantRes _ _ tl => tl
  | .applyRes _ _ tl _ _ => tl
  | .dimRes _ _ tl _ => tl
  | .otherRes _ _ tl => tl

mutual

/-- Embeds `mlir::isValidDim` (AffineOps.cpp): the value must have index
type; a value with a defining operation is a valid dimension when the
operation is at top level or is a constant, when it is an affine apply whose
operands are all valid dimensions (`AffineApplyOp::isValidDim`), or when it
is a dim operation whose memref operand is a top-level symbol; any block
argument is a valid dimension. -/
def isValidDim : Val → Bool
  | .blockArg _ ix _ => ix
  | .constantRes _ ix _ => ix
  | .applyRes _ ix tl _ ops => ix && (tl || allValidDim ops)
  | .dimRes _ ix tl memref => ix && (tl || isTopLevelSymbol memref)
  | .otherRes _ ix tl => ix && tl

/-- All operands are valid dimensions (`llvm::all_of` in
`AffineApplyOp::isValidDim`). -/
def allValidDim : List Val → Bool
  | [] => true
  | v :: rest => isValidDim v && allValidDim rest

end

mutual

/-- Embeds `mlir::isValidSymbol` (AffineOps.cpp): the value must have index
type; a value with a defining operation is a valid symbol when the operation
is at top level or is a constant, when it is an affine apply whose operands
are all valid symbols (`AffineApplyOp::isValidSymbol`), or when it is a dim
operation whose memref operand is a top-level symbol; a block argument is a
valid symbol exactly when it is a top-level symbol. -/
def isValidSymbol : Val → Bool
  | .blockArg _ ix tl => ix && tl
  | .constantRes _ ix _ => ix
  | .applyRes _ ix tl _ ops => ix && (tl || allValidSymbol ops)
  | .dimRes _ ix tl memref => ix && (tl || isTopLevelSymbol memref)
  | .otherRes _ ix tl => ix && tl

/-- All operands are valid symbols (`llvm::all_of` in
`AffineApplyOp::isValidSymbol`). -/
def allValidSymbol : List Val → Bool
  | [] => true
  | v :: rest => isValidSymbol v && allValidSymbol rest

end

mutual

/-- Semantics of a value for a fixed environment of concrete integers: a
leaf value denotes the environment's integer at its identifier, while the
result of a map application denotes the (single) result of evaluating its
map on the meanings of its operands. -/
def evalVal (env : Nat → Int) : Val → Int
  | .blockArg i _ _ => env i
  | .constantRes i _ _ => env i
  | .applyRes _ _ _ m ops => (m.evalAt (evalValList env ops)).headD 0
  | .dimRes i _ _ _ => env i
  | .otherRes i _ _ => env i

/-- Pointwise value semantics of an operand list. -/
def evalValList (env : Nat → Int) : List Val → List Int
  | [] => []
  | v :: rest => evalVal env v :: evalValList env rest

end

theorem evalValList_eq_map (env : Nat → Int) (l : List Val) :
    evalValList env l = l.map (evalVal env) := by
  induction l with
  | nil => rfl
  | cons v rest ih => simp [evalValList, ih]

mutual

/-- Nesting depth of map-application chains below a value: leaves have depth
zero, a map-application result is one deeper than its deepest operand. -/
def Val.depth : Val → Nat
  | .applyRes _ _ _ _ ops => 1 + depthList ops
  | _ => 0

/-- Maximum nesting depth over a list of values. -/
def depthList : List Val → Nat
  | [] => 0
  | v :: rest => max v.depth (depthList rest)

end

theorem allValidDim_eq_all (l : List Val) : allValidDim l = l.all isValidDim := by
  induction l with
  | nil => rfl
  | cons v rest ih => simp [allValidDim, ih]

theorem allValidSymbol_eq_all (l : List Val) : allValidSymbol l = l.all isValidSymbol := by
  induction l with
  | nil => rfl
  | cons v rest ih => simp [allValidSymbol, ih]

/-- State of an `AffineApplyNormalizer`: the ordered dimension values
(`reorderedDims`, whose positions realize `dimValueToPosition`) and the
concatenated symbol values (`concatenatedSymbols`). -/
structure NormState where
  reorderedDims : List Val
  concatenatedSymbols : List Val
deriving Repr, DecidableEq

/-- Position of the first occurrence of a value in a list (the lookup of
`dimValueToPosition`). -/
def posOf (l : List Val) (v : Val) : Option Nat :=
  match l with
  | [] => none
  | w :: rest => if w = v then some 0 else (posOf rest v).map (fun i => i + 1)

/-- Embeds `AffineApplyNormalizer::renumberOneDim`: look the value up in the
current coordinate system, appending it as a fresh trailing dimension when
absent, and return the corresponding dimension expression. -/
def renumberOneDim (st : NormState) (v : Val) : AffineExpr × NormState :=
  match posOf st.reorderedDims v with
  | some i => (.dim i, st)
  | none => (.dim st.reorderedDims.length,
      { st with reorderedDims := st.reorderedDims ++ [v] })

/-- Renumbers the other normalizer's dimension values in order into the
current state (the `dimRemapping` loop of `AffineApplyNormalizer::renumber`). -/
def renumberDims (st : NormState) : List Val → List AffineExpr × NormState
  | [] => ([], st)
  | v :: rest =>
    let p := renumberOneDim st v
    let q := renumberDims p.2 rest
    (p.1 :: q.1, q.2)

/-- Embeds `AffineApplyNormalizer::renumber`: renumber the other normalizer's
dimensions into the current state, shift its symbols after the current
concatenated symbols, append those symbols, and rewrite its map
accordingly. -/
def renumber (st : NormState) (otherMap : AffineMap) (otherDims otherSyms : List Val) :
    AffineMap × NormState :=
  let p := renumberDims st otherDims
  let symRemapping := (List.range otherSyms.length).map
    (fun i => AffineExpr.sym (p.2.concatenatedSymbols.length + i))
  ((otherMap.replaceDimsAndSymbols p.1 symRemapping p.1.length symRemapping.length),
    { p.2 with concatenatedSymbols := p.2.concatenatedSymbols ++ otherSyms })

/-- Builds the symbol replacement list of `promoteComposedSymbolsAsDims`:
symbols produced by an affine apply become fresh trailing dimensions (in
increasing position order), all others are renumbered as symbols; also
returns the final counts of new dimensions and remaining symbols. -/
def promoteRepl (numDims : Nat) : List Val → Nat → Nat → List AffineExpr × Nat × Nat
  | [], nNewDims, nNewSyms => ([], nNewDims, nNewSyms)
  | v :: rest, nNewDims, nNewSyms =>
    if v.isApplyRes then
      let q := promoteRepl numDims rest (nNewDims + 1) nNewSyms
      (AffineExpr.dim (numDims + nNewDims) :: q.1, q.2)
    else
      let q := promoteRepl numDims rest nNewDims (nNewSyms + 1)
      (AffineExpr.sym nNewSyms :: q.1, q.2)

/-- Embeds `promoteComposedSymbolsAsDims` (AffineOps.cpp): rewrite every
symbol whose bound operand comes from an affine apply into a trailing
dimension, keeping operand order unchanged; maps with no symbols, or whose
symbol operands contain no apply results, are returned unchanged. -/
def promoteComposedSymbolsAsDims (map : AffineMap) (symbols : List Val) : AffineMap :=
  if symbols.isEmpty then map
  else if symbols.any Val.isApplyRes then
    let q := promoteRepl map.numDims symbols 0 0
    map.replaceDimsAndSymbols [] q.1 (map.numDims + q.2.1) q.2.2
  else map

/-- Recursion-depth cap of the normalizer
(`AffineApplyNormalizer::kMaxAffineApplyDepth`). -/
def kMaxAffineApplyDepth : Nat := 1

mutual

/-- Operand-dispatch loop of the `AffineApplyNormalizer` constructor.  With
`further` set (recursion depth within the cap), an operand produced by an
affine apply is recursively normalized and renumbered into the current
state, other operands are dispatched as dimensions (`i < ndBefore`) or
appended to the concatenated symbols; without `further`, operands are
dispatched purely positionally against the rewritten map's dimension
count. -/
def composeLoop (depth ndBefore mapNumDims : Nat) (further : Bool) (i : Nat) :
    List Val → List AffineExpr → NormState → List AffineExpr × NormState
  | [], aux, st => (aux, st)
  | t :: rest, aux, st =>
    if further then
      match t with
      | .applyRes _ _ _ m subOps =>
        let sub := normalize (depth + 1) m subOps
        let r := renumber st sub.1 sub.2.reorderedDims sub.2.concatenatedSymbols
        composeLoop depth ndBefore mapNumDims further (i + 1) rest
          (aux ++ [r.1.results.headD (.const 0)]) r.2
      | t' =>
        if i < ndBefore then
          let p := renumberOneDim st t'
          composeLoop depth ndBefore mapNumDims further (i + 1) rest (aux ++ [p.1]) p.2
        else
          composeLoop depth ndBefore mapNumDims further (i + 1) rest aux
            { st with concatenatedSymbols := st.concatenatedSymbols ++ [t'] }
    else
      if i < mapNumDims then
        let p := renumberOneDim st t
        composeLoop depth ndBefore mapNumDims further (i + 1) rest (aux ++ [p.1]) p.2
      else
        composeLoop depth ndBefore mapNumDims further (i + 1) rest aux
          { st with concatenatedSymbols := st.concatenatedSymbols ++ [t] }
termination_by ops _ _ => sizeOf ops
decreasing_by
  all_goals simp_wf
  all_goals omega

/-- Embeds the `AffineApplyNormalizer` constructor: promote apply-produced
symbols to dimensions, dispatch the operands, and — unless the auxiliary
expression list is empty — compose the rewritten map with the auxiliary map
and simplify.  The recursion depth is threaded explicitly (the source uses a
scoped thread-local counter, already incremented upon entry, so the
top-level call runs at depth 1). -/
def normalize (depth : Nat) (map0 : AffineMap) (operands : List Val) :
    AffineMap × NormState :=
  let ndBefore := map0.numDims
  let map := promoteComposedSymbolsAsDims map0 (operands.drop ndBefore)
  let further := decide (depth ≤ kMaxAffineApplyDepth)
  let q := composeLoop depth ndBefore map.numDims further 0 operands [] ⟨[], []⟩
  if q.1.isEmpty then (map, q.2)
  else
    let auxiliaryMap : AffineMap :=
      ⟨q.2.reorderedDims.length, q.2.concatenatedSymbols.length - map.numSymbols, q.1⟩
    (simplifyAffineMap (map.compose auxiliaryMap), q.2)
termination_by sizeOf operands + 1

end

/-- Dimension-scanning loop of `canonicalizePromotedSymbols`: dimension
operands that are valid symbols are remapped to fresh symbols after the old
ones (collected in the third component), the remaining dimensions are
renumbered consecutively (collected in the second component); the first
component is the dimension replacement list and the final two are the
`nextDim`/`nextSym` counters. -/
def canonPromoteLoop (oldNumSyms : Nat) :
    List Val → Nat → Nat → List AffineExpr × List Val × List Val × Nat × Nat
  | [], nextDim, nextSym => ([], [], [], nextDim, nextSym)
  | v :: rest, nextDim, nextSym =>
    if isValidSymbol v then
      let q := canonPromoteLoop oldNumSyms rest nextDim (nextSym + 1)
      (AffineExpr.sym (oldNumSyms + nextSym) :: q.1, q.2.1, v :: q.2.2.1, q.2.2.2)
    else
      let q := canonPromoteLoop oldNumSyms rest (nextDim + 1) nextSym
      (AffineExpr.dim nextDim :: q.1, v :: q.2.1, q.2.2.1, q.2.2.2)

/-- Embeds `canonicalizePromotedSymbols` (AffineOps.cpp): dimensions bound
to operands that are valid symbols are folded into actual symbols placed
after the existing ones; the operand list becomes the kept dimension
operands, then the old symbol operands, then the remapped symbol operands. -/
def canonicalizePromotedSymbols (map : AffineMap) (operands : List Val) :
    AffineMap × List Val :=
  if operands.isEmpty then (map, operands)
  else
    let dims := operands.take map.numDims
    let syms := operands.drop map.numDims
    let q := canonPromoteLoop map.numSymbols dims 0 0
    (map.replaceDimsAndSymbols q.1 [] q.2.2.2.1 (map.numSymbols + q.2.2.2.2),
      q.2.1 ++ syms ++ q.2.2.1)

/-- First-match lookup in the association list modelling the `seenDims` and
`seenSymbols` maps. -/
def assocLookup (seen : List (Val × AffineExpr)) (v : Val) : Option AffineExpr :=
  match seen with
  | [] => none
  | (w, e) :: rest => if w = v then some e else assocLookup rest v

/-- Position-dropping and deduplicating loop of `canonicalizeMapAndOperands`
(run once for dimensions and once for symbols): positions not referenced by
any result expression are dropped, and among the used ones each distinct
value is assigned one fresh position at its first occurrence, later
occurrences being remapped to it.  Returns the replacement list, the kept
operands and the final counter. -/
def canonRemapLoop (usedF : Nat → Bool) (mk : Nat → AffineExpr) :
    List Val → Nat → Nat → List (Val × AffineExpr) →
    List AffineExpr × List Val × Nat
  | [], _, next, _ => ([], [], next)
  | v :: rest, i, next, seen =>
    if usedF i then
      match assocLookup seen v with
      | some e =>
        let q := canonRemapLoop usedF mk rest (i + 1) next seen
        (e :: q.1, q.2)
      | none =>
        let q := canonRemapLoop usedF mk rest (i + 1) (next + 1) ((v, mk next) :: seen)
        (mk next :: q.1, v :: q.2.1, q.2.2)
    else
      let q := canonRemapLoop usedF mk rest (i + 1) next seen
      (AffineExpr.sym 999999 :: q.1, q.2)

/-- Embeds `mlir::canonicalizeMapAndOperands` (AffineOps.cpp): after folding
promoted symbols back, compute which dimension and symbol positions are
referenced by the result expressions, drop the unreferenced ones, and
deduplicate the remaining dimension operands and (separately) symbol
operands, remapping every reference to the first occurrence. -/
def canonicalizeMapAndOperands (map : AffineMap) (operands : List Val) :
    AffineMap × List Val :=
  if operands.isEmpty then (map, operands)
  else
    let p := canonicalizePromotedSymbols map operands
    let map1 := p.1
    let ops1 := p.2
    let usedDim := fun i => map1.results.any (fun e => e.usesDim i)
    let usedSym := fun j => map1.results.any (fun e => e.usesSym j)
    let qd := canonRemapLoop usedDim AffineExpr.dim (ops1.take map1.numDims) 0 0 []
    let qs := canonRemapLoop usedSym AffineExpr.sym (ops1.drop map1.numDims) 0 0 []
    (map1.replaceDimsAndSymbols qd.1 qs.1 qd.2.2 qs.2.2, qd.2.1 ++ qs.2.1)

/-- Embeds the static `composeAffineMapAndOperands` (AffineOps.cpp): run the
normalizer on the map and operands (at top-level depth), read off the
normalized map and operand list, and canonicalize the pair. -/
def composeAffineMapAndOperands (map : AffineMap) (operands : List Val) :
    AffineMap × List Val :=
  let n := normalize 1 map operands
  canonicalizeMapAndOperands n.1 (n.2.reorderedDims ++ n.2.concatenatedSymbols)

/-- Number of operands currently produced by an affine apply (the quantity
the specification's termination argument speaks about). -/
def countApplyOperands (operands : List Val) : Nat :=
  operands.countP (fun v => v.isApplyRes)

/-- Second operand-installation loop of `Operation::create` (Operation.cpp):
after the first sentinel, a null operand starts a new successor operand
bucket (initialized to zero) and a non-null operand is installed into the
operand storage while bumping the current bucket.  Returns the installed
operand storage and the per-successor operand counts. -/
def installRest : List (Option Val) → List Val → List Nat → List Val × List Nat
  | [], acc, counts => (acc, counts)
  | none :: rest, acc, counts => installRest rest acc (counts ++ [0])
  | some v :: rest, acc, counts =>
      installRest rest (acc ++ [v]) (counts.dropLast ++ [(counts.getLast?.getD 0) + 1])

/-- Embeds the operand handling of `Operation::create` (Operation.cpp):
normal operands are installed until the first null sentinel, then the
remaining operands are partitioned into per-successor groups. -/
def createOperandStorage (operands : List (Option Val)) : List Val × List Nat :=
  installRest (operands.dropWhile Option.isSome)
    ((operands.takeWhile Option.isSome).filterMap id) []

/-- Number of operands reported by the created operation: the size of its
operand storage. -/
def createdNumOperands (operands : List (Option Val)) : Nat :=
  (createOperandStorage operands).1.length

/-- Use records installed by `Operation::create`: constructing each
`OpOperand` in slot order inserts one Use (value, slot) into the value's
use list. -/
def buildUseRecords : List Val → Nat → List (Val × Nat)
  | [], _ => []
  | v :: rest, i => (v, i) :: buildUseRecords rest (i + 1)

/-- Operation as seen by the folding engine: its result count and result
values. -/
structure FoldableOp where
  numResults : Nat
  resultVals : List Val
deriving Repr, DecidableEq

/-- Modelled from the spec (§4.5) and the documented contract of
`OperationFolder::tryToFold` (FoldUtils.h), whose implementation file is
outside the analysed sources: folding an operation either fails, or
succeeds, producing one folded value per result and replacing every use of
the operation's results with those values. -/
inductive FoldOutcome where
  | failure
  | success (foldedResults : List Val)
deriving Repr, DecidableEq

/-- Outcome of `OperationFolder::create`: the result values handed to the
caller and whether the original operation was erased. -/
structure FolderCreateResult where
  results : List Val
  erased : Bool
deriving Repr, DecidableEq

/-- Embeds the generic `OperationFolder::create` template (FoldUtils.h): on
fold failure the results are the operation's own results and the operation
is kept; on success the results are the folded values and the operation is
erased exactly when it has a nonzero number of results. -/
def folderCreate (op : FoldableOp) (outcome : FoldOutcome) : FolderCreateResult :=
  match outcome with
  | .failure => ⟨op.resultVals, false⟩
  | .success folded => ⟨folded, decide (op.numResults ≠ 0)⟩

/-- Embeds the zero-result overload of `OperationFolder::create`
(FoldUtils.h): `tryToFold` is attempted, its outcome discarded, and the
operation itself is always returned to the caller. -/
def folderCreateZeroResult (op : FoldableOp) (_ : FoldOutcome) : FoldableOp := op

/-- Operand types relevant to `AffineDmaStartOp::verify`: a memref type with
its memory space, the index type, or any other type. -/
inductive TypeM where
  | memref (memorySpace : Nat)
  | index
  | other
deriving DecidableEq, Repr

/-- Whether the type is a memref type (`isa<MemRefType>`). -/
def TypeM.isMemRef : TypeM → Bool
  | .memref _ => true
  | _ => false

/-- Memory space of a memref type (`MemRefType::getMemorySpace`). -/
def TypeM.memorySpace : TypeM → Nat
  | .memref ms => ms
  | _ => 0

/-- Model of an `affine.dma_start` operation: its operand types in order and
its three affine map attributes. -/
structure AffineDmaStartOpM where
  operandTypes : List TypeM
  srcMap : AffineMap
  dstMap : AffineMap
  tagMap : AffineMap
deriving Repr, DecidableEq

/-- Result of an operation verifier: success, or failure carrying the
diagnostic emitted through `emitOpError`. -/
inductive VerifyResult where
  | success
  | opError (msg : String)
deriving DecidableEq, Repr

/-- Operand index of the source memref (`getSrcMemRefOperandIndex`). -/
def AffineDmaStartOpM.getSrcMemRefOperandIndex (_ : AffineDmaStartOpM) : Nat := 0

/-- Operand index of the destination memref (`getDstMemRefOperandIndex`). -/
def AffineDmaStartOpM.getDstMemRefOperandIndex (op : AffineDmaStartOpM) : Nat :=
  op.getSrcMemRefOperandIndex + 1 + op.srcMap.numInputs

/-- Operand index of the tag memref (`getTagMemRefOperandIndex`). -/
def AffineDmaStartOpM.getTagMemRefOperandIndex (op : AffineDmaStartOpM) : Nat :=
  op.getDstMemRefOperandIndex + 1 + op.dstMap.numInputs

/-- Type of the operand at a given index. -/
def AffineDmaStartOpM.operandType (op : AffineDmaStartOpM) (i : Nat) : TypeM :=
  op.operandTypes.getD i .other

/-- Memory space of the source memref (`getSrcMemorySpace`). -/
def AffineDmaStartOpM.getSrcMemorySpace (op : AffineDmaStartOpM) : Nat :=
  (op.operandType op.getSrcMemRefOperandIndex).memorySpace

/-- Memory space of the destination memref (`getDstMemorySpace`). -/
def AffineDmaStartOpM.getDstMemorySpace (op : AffineDmaStartOpM) : Nat :=
  (op.operandType op.getDstMemRefOperandIndex).memorySpace

/-- Embeds `AffineDmaStartOp::verify` (AffineOps.cpp): source, destination
and tag operands must be memrefs, the source and destination memory spaces
must differ, and the operand count must match the map inputs plus the three
memrefs and the element count, optionally plus the two stride operands. -/
def AffineDmaStartOpM.verify (op : AffineDmaStartOpM) : VerifyResult :=
  if ¬ (op.operandType op.getSrcMemRefOperandIndex).isMemRef then
    .opError "expected DMA source to be of memref type"
  else if ¬ (op.operandType op.getDstMemRefOperandIndex).isMemRef then
    .opError "expected DMA destination to be of memref type"
  else if ¬ (op.operandType op.getTagMemRefOperandIndex).isMemRef then
    .opError "expected DMA tag to be of memref type"
  else if op.getSrcMemorySpace = op.getDstMemorySpace then
    .opError "DMA should be between different memory spaces"
  else if op.operandTypes.length ≠
      op.srcMap.numInputs + op.dstMap.numInputs + op.tagMap.numInputs + 3 + 1 ∧
    op.operandTypes.length ≠
      op.srcMap.numInputs + op.dstMap.numInputs + op.tagMap.numInputs + 3 + 1 + 2 then
    .opError "incorrect number of operands"
  else .success

mutual

/-- Claim C5's characterization of a valid symbol, formalized from its
words: the value is defined at block-scope top level, or is an integer
constant, or is the single result of a map application whose own operands
are all such valid symbols. -/
def specValidSymbolC5 : Val → Bool
  | .constantRes _ _ _ => true
  | .applyRes _ _ tl _ ops => tl || specAllValidSymbolC5 ops
  | v => isTopLevelSymbol v

/-- All operands satisfy claim C5's symbol characterization. -/
def specAllValidSymbolC5 : List Val → Bool
  | [] => true
  | v :: rest => specValidSymbolC5 v && specAllValidSymbolC5 rest

end

/-- Whether the value is the result of a constant operation. -/
def Val.isConstantRes : Val → Bool
  | .constantRes _ _ _ => true
  | _ => false

/-- Whether the value is a block argument (it has no defining operation). -/
def Val.isBlockArg : Val → Bool
  | .blockArg _ _ _ => true
  | _ => false

/-- Whether the value is the result of a dim operation whose memref operand
is a top-level symbol. -/
def Val.isDimResOfTopLevel : Val → Bool
  | .dimRes _ _ _ mr => isTopLevelSymbol mr
  | _ => false

/-- Operand list of a map-application result (empty for other values). -/
def Val.applyOperands : Val → List Val
  | .applyRes _ _ _ _ ops => ops
  | _ => []

/-- Amended characterization of a valid symbol: the value has index type
and is at top level, or is a constant result, or is an apply result all of
whose operands are valid symbols, or is a dim-operation result over a
top-level memref. -/
def specValidSymbolAmended (v : Val) : Bool :=
  v.indexTyped && (isTopLevelSymbol v || v.isConstantRes ||
    (v.isApplyRes && v.applyOperands.all isValidSymbol) || v.isDimResOfTopLevel)

/-- Amended characterization of a valid dimension: the value has index type
and is any block argument (loop induction variables included), or is at top
level, or is a constant result, or is an apply result all of whose operands
are valid dimensions, or is a dim-operation result over a top-level
memref. -/
def specValidDimAmended (v : Val) : Bool :=
  v.indexTyped && (v.isBlockArg || isTopLevelSymbol v || v.isConstantRes ||
    (v.isApplyRes && v.applyOperands.all isValidDim) || v.isDimResOfTopLevel)

/-- Claim C5 (corrected): the code's classification differs from the
claim's on dim-operation results: `isValidSymbol` also accepts the result
of a dim operation whose memref is defined at the top level, which is none
of the claim's three cases. -/
theorem claim_C5_counterexample :
    isValidSymbol (Val.dimRes 5 true false (Val.blockArg 6 false true)) = true ∧
    specValidSymbolC5 (Val.dimRes 5 true false (Val.blockArg 6 false true)) = false := by
  exact ⟨rfl, rfl⟩

/-- Claim C5 (amended): `isValidSymbol` holds exactly for index-typed values
that are top level, constant results, apply results with all-valid-symbol
operands, or dim-operation results over a top-level memref; `isValidDim`
holds exactly for index-typed values that are block arguments (any block
argument, loop induction variables included), top level, constant results,
apply results with all-valid-dimension operands, or dim-operation results
over a top-level memref. -/
theorem claim_C5_amended (v : Val) :
    isValidSymbol v = specValidSymbolAmended v ∧
    isValidDim v = specValidDimAmended v := by
  constructor
  · cases v <;> simp [isValidSymbol, specValidSymbolAmended, Val.indexTyped,
      isTopLevelSymbol, Val.isConstantRes, Val.isApplyRes, Val.applyOperands,
      Val.isDimResOfTopLevel, allValidSymbol_eq_all, Val.isBlockArg]
  · cases v <;> simp [isValidDim, specValidDimAmended, Val.indexTyped,
      isTopLevelSymbol, Val.isConstantRes, Val.isApplyRes, Val.applyOperands,
      Val.isDimResOfTopLevel, allValidDim_eq_all, Val.isBlockArg]

/-- Claim C9 (confirmed): for a value whose type is not the index type both
`isValidDim` and `isValidSymbol` return false — index type is a necessary
condition, even for top-level values and constants. -/
theorem claim_C9_nonIndex_invalid (v : Val) (h : v.indexTyped = false) :
    isValidDim v = false ∧ isValidSymbol v = false := by
  cases v <;> simp_all [Val.indexTyped, isValidDim, isValidSymbol]

/-- Witness for claim C9 at a concrete non-index top-level value. -/
theorem claim_C9_witness :
    (Val.blockArg 0 false true).indexTyped = false ∧
    isValidDim (Val.blockArg 0 false true) = false ∧
    isValidSymbol (Val.blockArg 0 false true) = false :=
  ⟨rfl, (claim_C9_nonIndex_invalid (Val.blockArg 0 false true) rfl).1,
    (claim_C9_nonIndex_invalid (Val.blockArg 0 false true) rfl).2⟩

/-- Claim C8 (confirmed): when folding succeeds, the caller receives exactly
the folded values, the operation is erased exactly when it has at least one
result, and a zero-result operation is kept and returned to the caller. -/
theorem claim_C8_fold_erasure (op : FoldableOp) (outcome : FoldOutcome)
    (folded : List Val) (h : outcome = .success folded) :
    (folderCreate op outcome).results = folded ∧
    ((folderCreate op outcome).erased = true ↔ 1 ≤ op.numResults) ∧
    (op.numResults = 0 →
      (folderCreate op outcome).erased = false ∧
      folderCreateZeroResult op outcome = op) := by
  subst h
  refine ⟨rfl, ?_, ?_⟩
  · simp [folderCreate]
    omega
  · intro hz
    exact ⟨by simp [folderCreate, hz], rfl⟩

/-- Witness for claim C8 at a zero-result operation that folds. -/
theorem claim_C8_witness :
    (folderCreate ⟨0, []⟩ (.success [])).results = [] ∧
    ((folderCreate ⟨0, []⟩ (.success [])).erased = true ↔ 1 ≤ (0 : Nat)) ∧
    ((0 : Nat) = 0 → (folderCreate ⟨0, []⟩ (.success [])).erased = false ∧
      folderCreateZeroResult ⟨0, []⟩ (.success []) = ⟨0, []⟩) :=
  claim_C8_fold_erasure ⟨0, []⟩ (.success []) [] rfl

/-- Claim C10 (corrected): when the source and destination operands are
memrefs with equal memory spaces, verification fails — with the claimed
diagnostic provided the tag operand is also a memref (otherwise the tag
diagnostic fires first); and any operation passing verification has
distinct source and destination memory spaces. -/
theorem claim_C10_amended (op : AffineDmaStartOpM)
    (hs : (op.operandType op.getSrcMemRefOperandIndex).isMemRef = true)
    (hd : (op.operandType op.getDstMemRefOperandIndex).isMemRef = true)
    (ht : (op.operandType op.getTagMemRefOperandIndex).isMemRef = true) :
    (op.getSrcMemorySpace = op.getDstMemorySpace →
      op.verify = .opError "DMA should be between different memory spaces") ∧
    (op.verify = .success → op.getSrcMemorySpace ≠ op.getDstMemorySpace) := by
  constructor
  · intro heq
    simp [AffineDmaStartOpM.verify, hs, hd, ht, heq]
  · intro hsucc heq
    simp [AffineDmaStartOpM.verify, hs, hd, ht, heq] at hsucc

/-- Claim C10 (counterexample to the unconditional reading): with equal
source and destination memory spaces but a non-memref tag operand,
verification fails with the tag diagnostic, not the memory-space one. -/
theorem claim_C10_counterexample :
    (AffineDmaStartOpM.mk [.memref 0, .memref 0, .index] ⟨0, 0, []⟩ ⟨0, 0, []⟩
      ⟨0, 0, []⟩).getSrcMemorySpace =
      (AffineDmaStartOpM.mk [.memref 0, .memref 0, .index] ⟨0, 0, []⟩ ⟨0, 0, []⟩
        ⟨0, 0, []⟩).getDstMemorySpace ∧
    (AffineDmaStartOpM.mk [.memref 0, .memref 0, .index] ⟨0, 0, []⟩ ⟨0, 0, []⟩
      ⟨0, 0, []⟩).verify = .opError "expected DMA tag to be of memref type" := by
  exact ⟨rfl, rfl⟩

/-- Witness for claim C10 at a concrete operation with equal spaces and all
memref operands, and at one with distinct spaces. -/
theorem claim_C10_witness :
    ((AffineDmaStartOpM.mk [.memref 0, .memref 0, .memref 0, .index] ⟨0, 0, []⟩
        ⟨0, 0, []⟩ ⟨0, 0, []⟩).verify =
      .opError "DMA should be between different memory spaces") := by
  have h := claim_C10_amended (AffineDmaStartOpM.mk
    [.memref 0, .memref 0, .memref 0, .index] ⟨0, 0, []⟩ ⟨0, 0, []⟩ ⟨0, 0, []⟩)
    rfl rfl rfl
  exact h.1 rfl

theorem installRest_length (rest : List (Option Val)) (acc : List Val)
    (counts : List Nat) :
    (installRest rest acc counts).1.length =
      acc.length + rest.countP (fun o => o.isSome) := by
  induction rest generalizing acc counts with
  | nil => simp [installRest]
  | cons o rest ih =>
    cases o with
    | none => simp [installRest, ih, List.countP_cons, Option.isSome]
    | some v =>
      simp [installRest, ih, List.countP_cons, Option.isSome]
      omega

theorem filterMap_id_length_of_all_some (l : List (Option Val))
    (h : ∀ o ∈ l, o.isSome = true) : (l.filterMap id).length = l.length := by
  induction l with
  | nil => rfl
  | cons o rest ih =>
    cases o with
    | none => exact absurd (h none (by simp)) (by simp)
    | some v =>
      simp only [List.filterMap_cons, id, List.length_cons]
      rw [ih (fun o ho => h o (by simp [ho]))]

theorem countP_isSome_add_isNone (l : List (Option Val)) :
    l.countP (fun o => o.isSome) + l.countP (fun o => o.isNone) = l.length := by
  induction l with
  | nil => rfl
  | cons o rest ih =>
    rw [List.countP_cons, List.countP_cons, List.length_cons]
    cases o
    · simp only [Option.isSome_none, Option.isNone_none]
      norm_num
      omega
    · simp only [Option.isSome_some, Option.isNone_some]
      norm_num
      omega

theorem createOperandStorage_length (operands : List (Option Val)) :
    (createOperandStorage operands).1.length =
      operands.length - operands.countP (fun o => o.isNone) := by
  unfold createOperandStorage
  rw [installRest_length]
  rw [filterMap_id_length_of_all_some _ (fun o ho => List.mem_takeWhile_imp ho)]
  have hsplit := List.takeWhile_append_dropWhile (p := Option.isSome) (l := operands)
  have hlen : (operands.takeWhile Option.isSome).length +
      (operands.dropWhile Option.isSome).length = operands.length := by
    rw [← List.length_append, hsplit]
  have htake : (operands.takeWhile Option.isSome).countP (fun o => o.isNone) = 0 := by
    rw [List.countP_eq_zero]
    intro o ho
    have hso := List.mem_takeWhile_imp ho
    cases o
    · exact absurd hso (by simp)
    · simp
  have hcount : (operands.takeWhile Option.isSome).countP (fun o => o.isNone) +
      (operands.dropWhile Option.isSome).countP (fun o => o.isNone) =
      operands.countP (fun o => o.isNone) := by
    rw [← List.countP_append, hsplit]
  have h2 := countP_isSome_add_isNone (operands.dropWhile Option.isSome)
  omega

theorem buildUseRecords_slot_ge (stored : List Val) (b : Nat) :
    ∀ p ∈ buildUseRecords stored b, b ≤ p.2 := by
  induction stored generalizing b with
  | nil => intro p hp; exact absurd hp (by simp [buildUseRecords])
  | cons w rest ih =>
    intro p hp
    rcases List.mem_cons.mp hp with h | h
    · subst h; exact le_rfl
    · have := ih (b + 1) p h
      omega

theorem buildUseRecords_count_one (stored : List Val) (b : Nat) (i : Nat)
    (h : i < stored.length) :
    (buildUseRecords stored b).count (stored.getD i default, b + i) = 1 := by
  induction stored generalizing b i with
  | nil => simp at h
  | cons w rest ih =>
    cases i with
    | zero =>
      simp only [List.getD_cons_zero, Nat.add_zero]
      show ((w, b) :: buildUseRecords rest (b + 1)).count (w, b) = 1
      rw [List.count_cons_self]
      have hz : (buildUseRecords rest (b + 1)).count (w, b) = 0 := by
        apply List.count_eq_zero_of_not_mem
        intro hmem
        have hge := buildUseRecords_slot_ge rest (b + 1) _ hmem
        have hge2 : b + 1 ≤ b := hge
        omega
      rw [hz]
    | succ j =>
      simp only [List.getD_cons_succ]
      show ((w, b) :: buildUseRecords rest (b + 1)).count (rest.getD j default, b + (j + 1)) = 1
      rw [List.count_cons_of_ne ?hne]
      case hne =>
        intro hc
        have : b + (j + 1) = b := congrArg Prod.snd hc
        omega
      have harith : b + (j + 1) = (b + 1) + j := by omega
      rw [harith]
      exact ih (b + 1) j (by simpa using h)

/-- Claim C6 (counterexample): with a successor present, the operand list
passed to `Operation::create` contains a null sentinel which is not stored,
so the created operation reports one operand fewer than the length of the
list passed in. -/
theorem claim_C6_counterexample :
    ([some (Val.blockArg 0 true false), none,
      some (Val.blockArg 1 true false)] : List (Option Val)).countP
        (fun o => o.isNone) = 1 ∧
    createdNumOperands
      [some (Val.blockArg 0 true false), none, some (Val.blockArg 1 true false)] = 2 ∧
    ([some (Val.blockArg 0 true false), none,
      some (Val.blockArg 1 true false)] : List (Option Val)).length = 3 := by
  exact ⟨rfl, rfl, rfl⟩

/-- Claim C6 (amended): when the operand list carries exactly one null
sentinel per successor, the created operation's operand count equals the
length of the passed list minus the number of successors, and for each
stored operand slot the Use pairing its value with that slot is installed
exactly once among the created operation's Use records. -/
theorem claim_C6_amended (operands : List (Option Val)) (numSuccessors : Nat)
    (hsent : operands.countP (fun o => o.isNone) = numSuccessors) :
    createdNumOperands operands = operands.length - numSuccessors ∧
    (∀ i : Nat, i < createdNumOperands operands →
      (buildUseRecords (createOperandStorage operands).1 0).count
        ((createOperandStorage operands).1.getD i default, i) = 1) := by
  constructor
  · rw [createdNumOperands, createOperandStorage_length, hsent]
  · intro i hi
    have := buildUseRecords_count_one (createOperandStorage operands).1 0 i hi
    simpa using this

/-- Witness for claim C6 at a concrete operand list with one successor
sentinel. -/
theorem claim_C6_witness :
    createdNumOperands
        [some (Val.blockArg 0 true false), none, some (Val.blockArg 1 true false)] =
      3 - 1 ∧
    (buildUseRecords (createOperandStorage [some (Val.blockArg 0 true false), none,
        some (Val.blockArg 1 true false)]).1 0).count
      ((createOperandStorage [some (Val.blockArg 0 true false), none,
        some (Val.blockArg 1 true false)]).1.getD 0 default, 0) = 1 := by
  have h := claim_C6_amended
    [some (Val.blockArg 0 true false), none, some (Val.blockArg 1 true false)] 1 rfl
  exact ⟨h.1, h.2 0 (by decide)⟩

/-- Claim C7 (confirmed): applying the map `(d0, d1) -> (d0 - d1)` (the
difference being encoded as `d0 + d1 * (-1)`) to the operand pair `(x, x)`
bound twice to the same value and canonicalizing yields the constant map
`() -> (0)` with an empty operand list. -/
theorem claim_C7_dedup_collapse :
    composeAffineMapAndOperands
        ⟨2, 0, [.add (.dim 0) (.mul (.dim 1) (.const (-1)))]⟩
        [Val.blockArg 0 true false, Val.blockArg 0 true false] =
      (⟨0, 0, [.const 0]⟩, ([] : List Val)) := by
  simp [composeAffineMapAndOperands, normalize, composeLoop, renumberOneDim, renumber,
    renumberDims, promoteComposedSymbolsAsDims, canonicalizeMapAndOperands,
    canonicalizePromotedSymbols, canonPromoteLoop, canonRemapLoop, kMaxAffineApplyDepth,
    simplifyAffineMap, simplifyAffineExpr, AffineExpr.linearize, AffineMap.compose,
    AffineMap.replaceDimsAndSymbols, AffineExpr.replaceDimsAndSymbols, zeroVec, addVec,
    scaleVec, sumExprs, coeffTerms, linearTerm, isValidSymbol, Val.isApplyRes,
    posOf, assocLookup, AffineMap.numInputs, AffineExpr.usesDim, AffineExpr.usesSym]

mutual

/-- Well-formedness of the map-application chain below a value, together
with the restriction that every map attached to a nested affine apply is
symbol-free: each apply's map has no symbols, as many dimensions as the
apply has operands, and in-range positions. -/
def Val.wfSymFree : Val → Bool
  | .applyRes _ _ _ m ops =>
    decide (m.numSymbols = 0) && decide (m.numDims = ops.length) &&
      m.inBounds && wfSymFreeList ops
  | _ => true

/-- All values of the list satisfy `Val.wfSymFree`. -/
def wfSymFreeList : List Val → Bool
  | [] => true
  | v :: rest => v.wfSymFree && wfSymFreeList rest

end

/-- Fuel-driven unfolding of the fixed-point loop of
`fullyComposeAffineMapAndOperands`: while an operand is an affine apply
result, run one composition pass. -/
def fullyComposeAux : Nat → AffineMap → List Val → AffineMap × List Val
  | 0, map, operands => (map, operands)
  | fuel + 1, map, operands =>
    if operands.any Val.isApplyRes then
      let p := composeAffineMapAndOperands map operands
      fullyComposeAux fuel p.1 p.2
    else (map, operands)

/-- Embeds `mlir::fullyComposeAffineMapAndOperands` (AffineOps.cpp): iterate
the single-level composition pass while any operand is an affine apply
result.  The maximal nesting depth of the operands bounds the number of
passes (established by the termination theorems below), so it serves as the
fuel of the loop model. -/
def fullyComposeAffineMapAndOperands (map : AffineMap) (operands : List Val) :
    AffineMap × List Val :=
  fullyComposeAux (depthList operands) map operands

/-- Values dispatched by the normalizer's operand loop into the auxiliary
expressions, starting at operand index `i`: those satisfying the dispatch
condition, in order. -/
def dispatchAux (cond : Nat → Val → Bool) : Nat → List Val → List Val
  | _, [] => []
  | i, t :: rest =>
    if cond i t then t :: dispatchAux cond (i + 1) rest
    else dispatchAux cond (i + 1) rest

/-- Kept operands of the deduplicating canonicalization loop: among the used
positions, the first occurrence of each distinct value not seen before. -/
def keptSpec (usedF : Nat → Bool) : List Val → Nat → List Val → List Val
  | [], _, _ => []
  | v :: rest, i, seenVals =>
    if usedF i then
      if v ∈ seenVals then keptSpec usedF rest (i + 1) seenVals
      else v :: keptSpec usedF rest (i + 1) (v :: seenVals)
    else keptSpec usedF rest (i + 1) seenVals

theorem renumberOneDim_mem (st : NormState) (v : Val) :
    (∀ x ∈ (renumberOneDim st v).2.reorderedDims, x ∈ st.reorderedDims ∨ x = v) ∧
    (renumberOneDim st v).2.concatenatedSymbols = st.concatenatedSymbols := by
  unfold renumberOneDim
  cases h : posOf st.reorderedDims v with
  | some i => exact ⟨fun x hx => Or.inl hx, rfl⟩
  | none =>
    refine ⟨fun x hx => ?_, rfl⟩
    rcases List.mem_append.mp hx with h1 | h1
    · exact Or.inl h1
    · exact Or.inr (List.mem_singleton.mp h1)

theorem renumberDims_mem (st : NormState) (vs : List Val) :
    (∀ x ∈ (renumberDims st vs).2.reorderedDims,
      x ∈ st.reorderedDims ∨ x ∈ vs) ∧
    (renumberDims st vs).2.concatenatedSymbols = st.concatenatedSymbols := by
  induction vs generalizing st with
  | nil => exact ⟨fun x hx => Or.inl hx, rfl⟩
  | cons v rest ih =>
    simp only [renumberDims]
    obtain ⟨hm, hc⟩ := renumberOneDim_mem st v
    obtain ⟨hm2, hc2⟩ := ih (renumberOneDim st v).2
    constructor
    · intro x hx
      rcases hm2 x hx with h1 | h1
      · rcases hm x h1 with h2 | h2
        · exact Or.inl h2
        · exact Or.inr (by simp [h2])
      · exact Or.inr (by simp [h1])
    · rw [hc2, hc]

theorem renumber_mem (st : NormState) (om : AffineMap) (ods oss : List Val) :
    (∀ x ∈ (renumber st om ods oss).2.reorderedDims,
      x ∈ st.reorderedDims ∨ x ∈ ods) ∧
    (∀ x ∈ (renumber st om ods oss).2.concatenatedSymbols,
      x ∈ st.concatenatedSymbols ∨ x ∈ oss) := by
  unfold renumber
  obtain ⟨hm, hc⟩ := renumberDims_mem st ods
  constructor
  · exact hm
  · intro x hx
    simp only at hx
    rcases List.mem_append.mp hx with h1 | h1
    · rw [hc] at h1
      exact Or.inl h1
    · exact Or.inr h1

theorem isApplyRes_iff (t : Val) :
    t.isApplyRes = true ↔
      ∃ i x l m o, t = Val.applyRes i x l m o := by
  cases t <;> simp [Val.isApplyRes]

theorem composeLoop_nil (d ndB mnd : Nat) (fur : Bool) (i : Nat)
    (aux : List AffineExpr) (st : NormState) :
    composeLoop d ndB mnd fur i [] aux st = (aux, st) := by
  simp [composeLoop]

theorem composeLoop_cons_false (d ndB mnd i : Nat) (t : Val) (rest : List Val)
    (aux : List AffineExpr) (st : NormState) :
    composeLoop d ndB mnd false i (t :: rest) aux st =
      if i < mnd then
        composeLoop d ndB mnd false (i + 1) rest
          (aux ++ [(renumberOneDim st t).1]) (renumberOneDim st t).2
      else
        composeLoop d ndB mnd false (i + 1) rest aux
          { st with concatenatedSymbols := st.concatenatedSymbols ++ [t] } := by
  cases t <;> simp [composeLoop]

theorem composeLoop_cons_true_nonapply (d ndB mnd i : Nat) (t : Val)
    (rest : List Val) (aux : List AffineExpr) (st : NormState)
    (h : t.isApplyRes = false) :
    composeLoop d ndB mnd true i (t :: rest) aux st =
      if i < ndB then
        composeLoop d ndB mnd true (i + 1) rest
          (aux ++ [(renumberOneDim st t).1]) (renumberOneDim st t).2
      else
        composeLoop d ndB mnd true (i + 1) rest aux
          { st with concatenatedSymbols := st.concatenatedSymbols ++ [t] } := by
  cases t <;> simp_all [composeLoop, Val.isApplyRes]

theorem composeLoop_cons_true_apply (d ndB mnd i : Nat) (vi : Nat) (vx vt : Bool)
    (m : AffineMap) (subOps : List Val) (rest : List Val)
    (aux : List AffineExpr) (st : NormState) :
    composeLoop d ndB mnd true i (Val.applyRes vi vx vt m subOps :: rest) aux st =
      composeLoop d ndB mnd true (i + 1) rest
        (aux ++ [(renumber st (normalize (d + 1) m subOps).1
          (normalize (d + 1) m subOps).2.reorderedDims
          (normalize (d + 1) m subOps).2.concatenatedSymbols).1.results.headD
            (.const 0)])
        (renumber st (normalize (d + 1) m subOps).1
          (normalize (d + 1) m subOps).2.reorderedDims
          (normalize (d + 1) m subOps).2.concatenatedSymbols).2 := by
  simp [composeLoop]

theorem composeLoopFalse_mem (d ndB mnd : Nat) (i : Nat) (ops : List Val)
    (aux : List AffineExpr) (st : NormState) :
    (∀ x ∈ (composeLoop d ndB mnd false i ops aux st).2.reorderedDims,
      x ∈ st.reorderedDims ∨ x ∈ ops) ∧
    (∀ x ∈ (composeLoop d ndB mnd false i ops aux st).2.concatenatedSymbols,
      x ∈ st.concatenatedSymbols ∨ x ∈ ops) := by
  induction ops generalizing i aux st with
  | nil =>
    rw [composeLoop_nil]
    exact ⟨fun x hx => Or.inl hx, fun x hx => Or.inl hx⟩
  | cons t rest ih =>
    rw [composeLoop_cons_false]
    by_cases hi : i < mnd
    · rw [if_pos hi]
      obtain ⟨h1, h2⟩ := ih (i + 1) (aux ++ [(renumberOneDim st t).1]) (renumberOneDim st t).2
      obtain ⟨hm, hc⟩ := renumberOneDim_mem st t
      constructor
      · intro x hx
        rcases h1 x hx with h | h
        · rcases hm x h with h' | h'
          · exact Or.inl h'
          · exact Or.inr (by simp [h'])
        · exact Or.inr (by simp [h])
      · intro x hx
        rcases h2 x hx with h | h
        · rw [hc] at h
          exact Or.inl h
        · exact Or.inr (by simp [h])
    · rw [if_neg hi]
      obtain ⟨h1, h2⟩ := ih (i + 1) aux
        { st with concatenatedSymbols := st.concatenatedSymbols ++ [t] }
      constructor
      · intro x hx
        rcases h1 x hx with h | h
        · exact Or.inl h
        · exact Or.inr (by simp [h])
      · intro x hx
        rcases h2 x hx with h | h
        · rcases List.mem_append.mp h with h' | h'
          · exact Or.inl h'
          · exact Or.inr (by simp [List.mem_singleton.mp h'])
        · exact Or.inr (by simp [h])

theorem normalize_snd (d : Nat) (m : AffineMap) (ops : List Val) :
    (normalize d m ops).2 = (composeLoop d m.numDims
      (promoteComposedSymbolsAsDims m (ops.drop m.numDims)).numDims
      (decide (d ≤ kMaxAffineApplyDepth)) 0 ops [] ⟨[], []⟩).2 := by
  unfold normalize
  by_cases h : (composeLoop d m.numDims
      (promoteComposedSymbolsAsDims m (ops.drop m.numDims)).numDims
      (decide (d ≤ kMaxAffineApplyDepth)) 0 ops [] ⟨[], []⟩).1.isEmpty
  · simp only [h, if_true]
  · simp only [h, Bool.false_eq_true, if_false]

theorem normalize_mem_deep (d : Nat) (hd : 2 ≤ d) (m : AffineMap) (ops : List Val) :
    (∀ x ∈ (normalize d m ops).2.reorderedDims, x ∈ ops) ∧
    (∀ x ∈ (normalize d m ops).2.concatenatedSymbols, x ∈ ops) := by
  have hfur : decide (d ≤ kMaxAffineApplyDepth) = false := by
    simp [kMaxAffineApplyDepth]
    omega
  have hsnd := normalize_snd d m ops
  rw [hfur] at hsnd
  obtain ⟨h1, h2⟩ := composeLoopFalse_mem d m.numDims
    (promoteComposedSymbolsAsDims m (ops.drop m.numDims)).numDims 0 ops [] ⟨[], []⟩
  rw [hsnd]
  constructor
  · intro x hx
    rcases h1 x hx with h | h
    · exact absurd h (by simp)
    · exact h
  · intro x hx
    rcases h2 x hx with h | h
    · exact absurd h (by simp)
    · exact h

/-- Source set of one composition pass: an operand itself, or an operand of
an operand that is an affine apply result. -/
def fromOneLevel (operands : List Val) (x : Val) : Prop :=
  (x ∈ operands ∧ x.isApplyRes = false) ∨ ∃ a ∈ operands, ∃ i ix tl m subOps,
    a = Val.applyRes i ix tl m subOps ∧ x ∈ subOps

theorem fromOneLevel_mono {operands : List Val} {t : Val} {x : Val}
    (h : fromOneLevel operands x) : fromOneLevel (t :: operands) x := by
  rcases h with ⟨h, hna⟩ | ⟨a, ha, i, ix, tl, m, subOps, rfl, hx⟩
  · exact Or.inl ⟨by simp [h], hna⟩
  · exact Or.inr ⟨_, by simp [ha], i, ix, tl, m, subOps, rfl, hx⟩

theorem composeLoopTrue_mem (ndB mnd : Nat) (i : Nat) (ops : List Val)
    (aux : List AffineExpr) (st : NormState) :
    (∀ x ∈ (composeLoop 1 ndB mnd true i ops aux st).2.reorderedDims,
      x ∈ st.reorderedDims ∨ fromOneLevel ops x) ∧
    (∀ x ∈ (composeLoop 1 ndB mnd true i ops aux st).2.concatenatedSymbols,
      x ∈ st.concatenatedSymbols ∨ fromOneLevel ops x) := by
  induction ops generalizing i aux st with
  | nil =>
    rw [composeLoop_nil]
    exact ⟨fun x hx => Or.inl hx, fun x hx => Or.inl hx⟩
  | cons t rest ih =>
    by_cases hap : t.isApplyRes = true
    · obtain ⟨vi, vx, vt, m, subOps, rfl⟩ := (isApplyRes_iff t).mp hap
      rw [composeLoop_cons_true_apply]
      obtain ⟨hs1, hs2⟩ := normalize_mem_deep 2 le_rfl m subOps
      obtain ⟨hr1, hr2⟩ := renumber_mem st (normalize 2 m subOps).1
        (normalize 2 m subOps).2.reorderedDims
        (normalize 2 m subOps).2.concatenatedSymbols
      obtain ⟨h1, h2⟩ := ih (i + 1)
        (aux ++ [(renumber st (normalize 2 m subOps).1
          (normalize 2 m subOps).2.reorderedDims
          (normalize 2 m subOps).2.concatenatedSymbols).1.results.headD (.const 0)])
        (renumber st (normalize 2 m subOps).1
          (normalize 2 m subOps).2.reorderedDims
          (normalize 2 m subOps).2.concatenatedSymbols).2
      constructor
      · intro x hx
        rcases h1 x hx with h | h
        · rcases hr1 x h with h' | h'
          · exact Or.inl h'
          · exact Or.inr (Or.inr ⟨_, by simp, vi, vx, vt, m, subOps, rfl, hs1 x h'⟩)
        · exact Or.inr (fromOneLevel_mono h)
      · intro x hx
        rcases h2 x hx with h | h
        · rcases hr2 x h with h' | h'
          · exact Or.inl h'
          · exact Or.inr (Or.inr ⟨_, by simp, vi, vx, vt, m, subOps, rfl, hs2 x h'⟩)
        · exact Or.inr (fromOneLevel_mono h)
    · rw [composeLoop_cons_true_nonapply _ _ _ _ _ _ _ _ (by simpa using hap)]
      by_cases hi : i < ndB
      · rw [if_pos hi]
        obtain ⟨h1, h2⟩ := ih (i + 1)
          (aux ++ [(renumberOneDim st t).1]) (renumberOneDim st t).2
        obtain ⟨hm, hc⟩ := renumberOneDim_mem st t
        constructor
        · intro x hx
          rcases h1 x hx with h | h
          · rcases hm x h with h' | h'
            · exact Or.inl h'
            · exact Or.inr (Or.inl ⟨by simp [h'], by rw [h']; simpa using hap⟩)
          · exact Or.inr (fromOneLevel_mono h)
        · intro x hx
          rcases h2 x hx with h | h
          · rw [hc] at h
            exact Or.inl h
          · exact Or.inr (fromOneLevel_mono h)
      · rw [if_neg hi]
        obtain ⟨h1, h2⟩ := ih (i + 1) aux
          { st with concatenatedSymbols := st.concatenatedSymbols ++ [t] }
        constructor
        · intro x hx
          rcases h1 x hx with h | h
          · exact Or.inl h
          · exact Or.inr (fromOneLevel_mono h)
        · intro x hx
          rcases h2 x hx with h | h
          · rcases List.mem_append.mp h with h' | h'
            · exact Or.inl h'
            · exact Or.inr (Or.inl ⟨by simp [List.mem_singleton.mp h'],
                by rw [List.mem_singleton.mp h']; simpa using hap⟩)
          · exact Or.inr (fromOneLevel_mono h)

theorem canonPromoteLoop_mem (ons : Nat) (l : List Val) (d0 s0 : Nat) :
    (∀ x ∈ (canonPromoteLoop ons l d0 s0).2.1, x ∈ l) ∧
    (∀ x ∈ (canonPromoteLoop ons l d0 s0).2.2.1, x ∈ l) := by
  induction l generalizing d0 s0 with
  | nil =>
    simp [canonPromoteLoop]
  | cons v rest ih =>
    simp only [canonPromoteLoop]
    by_cases hv : isValidSymbol v
    · rw [if_pos hv]
      obtain ⟨h1, h2⟩ := ih d0 (s0 + 1)
      refine ⟨fun x hx => by simp [h1 x hx], fun x hx => ?_⟩
      rcases List.mem_cons.mp hx with h | h
      · simp [h]
      · simp [h2 x h]
    · rw [if_neg hv]
      obtain ⟨h1, h2⟩ := ih (d0 + 1) s0
      refine ⟨fun x hx => ?_, fun x hx => by simp [h2 x hx]⟩
      rcases List.mem_cons.mp hx with h | h
      · simp [h]
      · simp [h1 x h]

theorem canonicalizePromotedSymbols_mem (map : AffineMap) (ops : List Val) :
    ∀ x ∈ (canonicalizePromotedSymbols map ops).2, x ∈ ops := by
  unfold canonicalizePromotedSymbols
  by_cases he : ops.isEmpty
  · rw [if_pos he]
    exact fun x hx => hx
  · rw [if_neg he]
    intro x hx
    simp only [List.mem_append] at hx
    obtain ⟨h1, h2⟩ := canonPromoteLoop_mem map.numSymbols (ops.take map.numDims) 0 0
    rcases hx with (h | h) | h
    · exact List.mem_of_mem_take (h1 x h)
    · exact List.mem_of_mem_drop h
    · exact List.mem_of_mem_take (h2 x h)

theorem canonRemapLoop_mem (usedF : Nat → Bool) (mk : Nat → AffineExpr)
    (l : List Val) (i0 next : Nat) (seen : List (Val × AffineExpr)) :
    ∀ x ∈ (canonRemapLoop usedF mk l i0 next seen).2.1, x ∈ l := by
  induction l generalizing i0 next seen with
  | nil => simp [canonRemapLoop]
  | cons v rest ih =>
    intro x hx
    simp only [canonRemapLoop] at hx
    by_cases hu : usedF i0
    · rw [if_pos hu] at hx
      cases hl : assocLookup seen v with
      | some e =>
        rw [hl] at hx
        simp only at hx
        exact List.mem_cons_of_mem v (ih (i0 + 1) next seen x hx)
      | none =>
        rw [hl] at hx
        simp only at hx
        rcases List.mem_cons.mp hx with h | h
        · simp [h]
        · exact List.mem_cons_of_mem v
            (ih (i0 + 1) (next + 1) ((v, mk next) :: seen) x h)
    · rw [if_neg hu] at hx
      simp only at hx
      exact List.mem_cons_of_mem v (ih (i0 + 1) next seen x hx)

theorem canonicalizeMapAndOperands_mem (map : AffineMap) (ops : List Val) :
    ∀ x ∈ (canonicalizeMapAndOperands map ops).2, x ∈ ops := by
  unfold canonicalizeMapAndOperands
  by_cases he : ops.isEmpty
  · rw [if_pos he]
    exact fun x hx => hx
  · rw [if_neg he]
    intro x hx
    simp only [List.mem_append] at hx
    have hp := canonicalizePromotedSymbols_mem map ops
    rcases hx with h | h
    · exact hp x (List.mem_of_mem_take (canonRemapLoop_mem _ _ _ _ _ _ x h))
    · exact hp x (List.mem_of_mem_drop (canonRemapLoop_mem _ _ _ _ _ _ x h))

theorem normalize_mem_top (m : AffineMap) (ops : List Val) :
    (∀ x ∈ (normalize 1 m ops).2.reorderedDims, fromOneLevel ops x) ∧
    (∀ x ∈ (normalize 1 m ops).2.concatenatedSymbols, fromOneLevel ops x) := by
  have hsnd := normalize_snd 1 m ops
  have hfur : decide (1 ≤ kMaxAffineApplyDepth) = true := by
    simp [kMaxAffineApplyDepth]
  rw [hfur] at hsnd
  obtain ⟨h1, h2⟩ := composeLoopTrue_mem m.numDims
    (promoteComposedSymbolsAsDims m (ops.drop m.numDims)).numDims 0 ops [] ⟨[], []⟩
  rw [hsnd]
  constructor
  · intro x hx
    rcases h1 x hx with h | h
    · exact absurd h (by simp)
    · exact h
  · intro x hx
    rcases h2 x hx with h | h
    · exact absurd h (by simp)
    · exact h

theorem composeAffineMapAndOperands_mem (map : AffineMap) (ops : List Val) :
    ∀ x ∈ (composeAffineMapAndOperands map ops).2, fromOneLevel ops x := by
  unfold composeAffineMapAndOperands
  intro x hx
  have h := canonicalizeMapAndOperands_mem (normalize 1 map ops).1
    ((normalize 1 map ops).2.reorderedDims ++
      (normalize 1 map ops).2.concatenatedSymbols) x hx
  obtain ⟨h1, h2⟩ := normalize_mem_top map ops
  rcases List.mem_append.mp h with h' | h'
  · exact h1 x h'
  · exact h2 x h'

theorem depth_eq_zero_of_not_apply {x : Val} (h : x.isApplyRes = false) :
    x.depth = 0 := by
  cases x <;> simp_all [Val.isApplyRes, Val.depth]

theorem depth_le_depthList {x : Val} {l : List Val} (h : x ∈ l) :
    x.depth ≤ depthList l := by
  induction l with
  | nil => exact absurd h (by simp)
  | cons w rest ih =>
    rcases List.mem_cons.mp h with h' | h'
    · subst h'
      simp [depthList, le_max_left]
    · exact le_trans (ih h') (by simp [depthList, le_max_right])

theorem depthList_pos_of_any_apply {l : List Val}
    (h : l.any Val.isApplyRes = true) : 1 ≤ depthList l := by
  rcases List.any_eq_true.mp h with ⟨a, ha, hap⟩
  obtain ⟨i, x, t, m, subOps, rfl⟩ := (isApplyRes_iff a).mp hap
  have := depth_le_depthList ha
  simp only [Val.depth] at this
  omega

theorem fromOneLevel_depth_lt {l : List Val} {x : Val}
    (hany : l.any Val.isApplyRes = true) (h : fromOneLevel l x) :
    x.depth < depthList l := by
  rcases h with ⟨hmem, hna⟩ | ⟨a, ha, i, ix, tl, m, subOps, rfl, hx⟩
  · rw [depth_eq_zero_of_not_apply hna]
    exact depthList_pos_of_any_apply hany
  · have h1 : x.depth ≤ depthList subOps := depth_le_depthList hx
    have h2 : (Val.applyRes i ix tl m subOps).depth ≤ depthList l :=
      depth_le_depthList ha
    simp only [Val.depth] at h2
    omega

theorem depthList_lt_of_forall {l : List Val} {D : Nat} (hD : 1 ≤ D)
    (h : ∀ x ∈ l, x.depth < D) : depthList l < D := by
  induction l with
  | nil => simpa [depthList] using hD
  | cons w rest ih =>
    simp only [depthList, max_lt_iff]
    exact ⟨h w (by simp), ih (fun x hx => h x (by simp [hx]))⟩

theorem onePass_depth_decreases (map : AffineMap) (ops : List Val)
    (h : ops.any Val.isApplyRes = true) :
    depthList (composeAffineMapAndOperands map ops).2 < depthList ops := by
  apply depthList_lt_of_forall (depthList_pos_of_any_apply h)
  intro x hx
  exact fromOneLevel_depth_lt h (composeAffineMapAndOperands_mem map ops x hx)

theorem depthList_zero_no_apply {l : List Val} (h : depthList l = 0) :
    l.any Val.isApplyRes = false := by
  by_cases ha : l.any Val.isApplyRes = true
  · have := depthList_pos_of_any_apply ha
    omega
  · simpa using ha

theorem fullyComposeAux_fixpoint (fuel : Nat) (map : AffineMap) (ops : List Val)
    (h : depthList ops ≤ fuel) :
    ((fullyComposeAux fuel map ops).2.any Val.isApplyRes) = false := by
  induction fuel generalizing map ops with
  | zero =>
    simp only [fullyComposeAux]
    exact depthList_zero_no_apply (by omega)
  | succ fuel ih =>
    simp only [fullyComposeAux]
    by_cases hany : ops.any Val.isApplyRes = true
    · rw [if_pos hany]
      apply ih
      have := onePass_depth_decreases map ops hany
      omega
    · rw [if_neg hany]
      simpa using hany

/-- Identity one-input map used by the termination counterexample. -/
def chainId : AffineMap := ⟨1, 0, [.dim 0]⟩

/-- Apply of the identity map to a loop-style block argument. -/
def chainB : Val := .applyRes 20 true false chainId [.blockArg 3 true false]

/-- Another apply of the identity map to a different block argument. -/
def chainC : Val := .applyRes 21 true false chainId [.blockArg 4 true false]

/-- Two-input sum map used by the termination counterexample. -/
def chainSum : AffineMap := ⟨2, 0, [.add (.dim 0) (.dim 1)]⟩

/-- Apply of the sum map whose two operands are themselves apply results. -/
def chainA : Val := .applyRes 22 true false chainSum [chainB, chainC]

/-- Claim C2 (counterexample): one composition pass does not always reduce
the number of operands that are map-application results — inlining one
apply whose own operands are two applies raises that count from one to
two. -/
theorem claim_C2_counterexample :
    countApplyOperands [chainA] = 1 ∧
    countApplyOperands (composeAffineMapAndOperands chainId [chainA]).2 = 2 := by
  constructor
  · rfl
  · simp [composeAffineMapAndOperands, normalize, composeLoop, renumberOneDim,
      renumber, renumberDims, promoteComposedSymbolsAsDims,
      canonicalizeMapAndOperands, canonicalizePromotedSymbols, canonPromoteLoop,
      canonRemapLoop, kMaxAffineApplyDepth, simplifyAffineMap, simplifyAffineExpr,
      AffineExpr.linearize, AffineMap.compose, AffineMap.replaceDimsAndSymbols,
      AffineExpr.replaceDimsAndSymbols, zeroVec, addVec, scaleVec, sumExprs,
      coeffTerms, linearTerm, isValidSymbol, allValidSymbol, isTopLevelSymbol,
      Val.isApplyRes, posOf, assocLookup, AffineMap.numInputs, AffineExpr.usesDim,
      AffineExpr.usesSym, chainA, chainB, chainC, chainId, chainSum,
      countApplyOperands, Val.beq]

/-- Claim C2 (amended): the fixed-point driver terminates, but the variant
is the maximal nesting depth of map-application chains among the operands —
strictly decreased by every pass run while an apply operand remains — not
the count of apply operands (which a pass can increase); consequently the
driver reaches a state in which no operand is a map-application result. -/
theorem claim_C2_amended (map : AffineMap) (operands : List Val)
    (h : operands.any Val.isApplyRes = true) :
    depthList (composeAffineMapAndOperands map operands).2 < depthList operands ∧
    ((fullyComposeAffineMapAndOperands map operands).2.any Val.isApplyRes) = false :=
  ⟨onePass_depth_decreases map operands h,
    fullyComposeAux_fixpoint (depthList operands) map operands le_rfl⟩

/-- Witness for claim C2 at the concrete two-level chain. -/
theorem claim_C2_witness :
    depthList (composeAffineMapAndOperands chainId [chainA]).2 < depthList [chainA] ∧
    ((fullyComposeAffineMapAndOperands chainId [chainA]).2.any Val.isApplyRes) =
      false :=
  claim_C2_amended chainId [chainA] rfl

theorem evalValList_length (env : Nat → Int) (l : List Val) :
    (evalValList env l).length = l.length := by
  rw [evalValList_eq_map]
  simp

theorem evalValList_getD (env : Nat → Int) (l : List Val) (p : Nat)
    (h : p < l.length) :
    (evalValList env l).getD p 0 = evalVal env (l.getD p default) := by
  rw [evalValList_eq_map]
  rw [List.getD_eq_getElem _ _ (by simpa using h), List.getD_eq_getElem _ _ h]
  simp

theorem headD_eq_getD (l : List AffineExpr) (d : AffineExpr) :
    l.headD d = l.getD 0 d := by
  cases l <;> rfl

theorem posOf_spec (l : List Val) (v : Val) :
    ∀ i, posOf l v = some i → i < l.length ∧ l.getD i default = v := by
  induction l with
  | nil => intro i h; exact absurd h (by simp [posOf])
  | cons w rest ih =>
    intro i h
    simp only [posOf] at h
    by_cases hw : w = v
    · rw [if_pos hw] at h
      simp only [Option.some.injEq] at h
      subst h
      exact ⟨by simp, by simpa using hw⟩
    · rw [if_neg hw] at h
      cases hp : posOf rest v with
      | none => rw [hp] at h; exact absurd h (by simp)
      | some j =>
        rw [hp] at h
        simp only [Option.map_some', Option.some.injEq] at h
        subst h
        obtain ⟨h1, h2⟩ := ih j hp
        exact ⟨by simpa using h1, by simpa using h2⟩

theorem getD_append_len {α : Type} (l : List α) (x : α) (d : α) :
    (l ++ [x]).getD l.length d = x := by
  induction l with
  | nil => rfl
  | cons a t ih => simp [ih]

theorem AffineExpr.inBounds_mono {nd ns nd' ns' : Nat} {e : AffineExpr}
    (h : e.inBounds nd ns = true) (hd : nd ≤ nd') (hs : ns ≤ ns') :
    e.inBounds nd' ns' = true := by
  induction e <;> simp_all [AffineExpr.inBounds] <;> omega

theorem renumberOneDim_spec (st : NormState) (v : Val) :
    ∃ p ext, (renumberOneDim st v).1 = .dim p ∧
      (renumberOneDim st v).2.reorderedDims = st.reorderedDims ++ ext ∧
      (renumberOneDim st v).2.concatenatedSymbols = st.concatenatedSymbols ∧
      p < (renumberOneDim st v).2.reorderedDims.length ∧
      (renumberOneDim st v).2.reorderedDims.getD p default = v := by
  cases hp : posOf st.reorderedDims v with
  | some i =>
    obtain ⟨h1, h2⟩ := posOf_spec st.reorderedDims v i hp
    have hr : renumberOneDim st v = (.dim i, st) := by
      unfold renumberOneDim
      rw [hp]
    rw [hr]
    exact ⟨i, [], rfl, by simp, rfl, h1, h2⟩
  | none =>
    have hr : renumberOneDim st v =
        (.dim st.reorderedDims.length,
          { st with reorderedDims := st.reorderedDims ++ [v] }) := by
      unfold renumberOneDim
      rw [hp]
    rw [hr]
    refine ⟨st.reorderedDims.length, [v], rfl, rfl, rfl, by simp, ?_⟩
    exact getD_append_len st.reorderedDims v default

/-- Invariant of the operand-dispatch loops: every auxiliary expression is a
symbol-free expression over the current reordered dimensions, evaluating (in
the coordinate system realized by the state) to its recorded value. -/
def auxInv (env : Nat → Int) (st : NormState) (aux : List AffineExpr)
    (vals : List Int) : Prop :=
  aux.length = vals.length ∧
  (∀ j < aux.length,
    (aux.getD j (.const 0)).inBounds st.reorderedDims.length 0 = true) ∧
  (∀ j < aux.length, ∀ s : Nat → Int,
    (aux.getD j (.const 0)).eval
      (fun k => (evalValList env st.reorderedDims).getD k 0) s = vals.getD j 0)

theorem auxInv_nil (env : Nat → Int) (st : NormState) : auxInv env st [] [] :=
  ⟨rfl, by intro j hj; simp at hj, by intro j hj; simp at hj⟩

theorem auxInv_extend {env : Nat → Int} {st st' : NormState}
    {aux : List AffineExpr} {vals : List Int} (h : auxInv env st aux vals)
    (ext : List Val)
    (hre : st'.reorderedDims = st.reorderedDims ++ ext) :
    auxInv env st' aux vals := by
  obtain ⟨hlen, hb, he⟩ := h
  refine ⟨hlen, ?_, ?_⟩
  · intro j hj
    exact AffineExpr.inBounds_mono (hb j hj) (by rw [hre]; simp) le_rfl
  · intro j hj s
    rw [← he j hj s]
    apply AffineExpr.eval_congr _ (hb j hj)
    · intro i hi
      rw [hre, evalValList_eq_map, evalValList_eq_map, List.map_append,
        List.getD_append _ _ _ _ (by simpa using hi)]
    · intro jj hjj
      omega

theorem auxInv_push {env : Nat → Int} {st : NormState} {aux : List AffineExpr}
    {vals : List Int} (h : auxInv env st aux vals) (e : AffineExpr) (w : Int)
    (hb : e.inBounds st.reorderedDims.length 0 = true)
    (he : ∀ s : Nat → Int,
      e.eval (fun k => (evalValList env st.reorderedDims).getD k 0) s = w) :
    auxInv env st (aux ++ [e]) (vals ++ [w]) := by
  obtain ⟨hlen, hb0, he0⟩ := h
  refine ⟨by simp [hlen], ?_, ?_⟩
  · intro j hj
    simp only [List.length_append, List.length_singleton] at hj
    by_cases hjl : j < aux.length
    · rw [List.getD_append _ _ _ _ hjl]
      exact hb0 j hjl
    · have hj' : j = aux.length := by omega
      subst hj'
      rw [getD_append_len]
      exact hb
  · intro j hj s
    simp only [List.length_append, List.length_singleton] at hj
    by_cases hjl : j < aux.length
    · rw [List.getD_append _ _ _ _ hjl, List.getD_append _ _ _ _ (by omega)]
      exact he0 j hjl s
    · have hj' : j = aux.length := by omega
      subst hj'
      rw [getD_append_len]
      have hv : (vals ++ [w]).getD aux.length 0 = w := by
        rw [hlen]
        exact getD_append_len vals w 0
      rw [hv]
      exact he s

theorem getD_drop (l : List Int) (n k : Nat) :
    (l.drop n).getD k 0 = l.getD (n + k) 0 := by
  induction l generalizing n with
  | nil => simp
  | cons a t ih =>
    cases n with
    | zero => simp
    | succ m =>
      simp only [List.drop_succ_cons]
      rw [ih m]
      have h : m + 1 + k = (m + k) + 1 := by omega
      rw [h]
      simp

theorem compose_evalAt_symfree (f g : AffineMap) (args : List Int)
    (hf : f.inBounds = true) (hg : g.inBounds = true)
    (hgs : g.numSymbols = 0) (hfd : f.numDims = g.results.length) :
    (f.compose g).evalAt args =
      f.evalAt (g.evalAt args ++ args.drop g.numDims) := by
  have hgev : ∀ i, (hi : i < g.results.length) →
      (g.evalAt args).getD i 0 =
        AffineExpr.eval (fun q => args.getD q 0)
          (fun q => args.getD (g.numDims + q) 0) g.results[i] := by
    intro i hi
    rw [List.getD_eq_getElem _ _ (by simpa [AffineMap.evalAt] using hi)]
    simp [AffineMap.evalAt]
  have hglen : (g.evalAt args).length = g.results.length := by
    simp [AffineMap.evalAt]
  have hL : (f.compose g).evalAt args = f.results.map (fun e =>
      (e.replaceDimsAndSymbols
        (g.results.map (AffineExpr.replaceDimsAndSymbols
          ((List.range g.numDims).map AffineExpr.dim)
          ((List.range g.numSymbols).map (fun k => AffineExpr.sym (f.numSymbols + k)))))
        ((List.range f.numSymbols).map AffineExpr.sym)).eval
        (fun q => args.getD q 0) (fun q => args.getD (g.numDims + q) 0)) := by
    simp [AffineMap.compose, AffineMap.evalAt, List.map_map, Function.comp]
  have hR : f.evalAt (g.evalAt args ++ args.drop g.numDims) = f.results.map (fun e =>
      e.eval (fun q => (g.evalAt args ++ args.drop g.numDims).getD q 0)
        (fun q => (g.evalAt args ++ args.drop g.numDims).getD (f.numDims + q) 0)) := by
    simp [AffineMap.evalAt]
  rw [hL, hR]
  apply List.map_congr_left
  intro e he
  have hb : e.inBounds f.numDims f.numSymbols = true := List.all_eq_true.mp hf e he
  rw [AffineExpr.eval_replace]
  apply AffineExpr.eval_congr _ hb
  · intro i hi
    have hilen : i < (g.results.map (AffineExpr.replaceDimsAndSymbols
        ((List.range g.numDims).map AffineExpr.dim)
        ((List.range g.numSymbols).map (fun k => AffineExpr.sym (f.numSymbols + k))))).length := by
      simp
      omega
    rw [List.getD_eq_getElem _ _ hilen]
    rw [List.getElem_map]
    rw [AffineExpr.eval_replace]
    have hge : g.results[i].inBounds g.numDims g.numSymbols = true := by
      apply List.all_eq_true.mp hg
      exact List.getElem_mem _
    have hstep : AffineExpr.eval
        (fun k => (((List.range g.numDims).map AffineExpr.dim).getD k (.dim k)).eval
          (fun q => args.getD q 0) (fun q => args.getD (g.numDims + q) 0))
        (fun k => (((List.range g.numSymbols).map
          (fun q => AffineExpr.sym (f.numSymbols + q))).getD k
          (.sym k)).eval (fun q => args.getD q 0) (fun q => args.getD (g.numDims + q) 0))
        (g.results[i]) =
        AffineExpr.eval (fun q => args.getD q 0) (fun q => args.getD (g.numDims + q) 0)
          (g.results[i]) := by
      apply AffineExpr.eval_congr _ hge
      · intro q hq
        have hq2 : ((List.range g.numDims).map AffineExpr.dim).getD q (.dim q) = .dim q := by
          rw [List.getD_eq_getElem _ _ (by simpa using hq)]
          simp
        rw [hq2]
        rfl
      · intro q hq
        rw [hgs] at hq
        exact absurd hq (by omega)
    rw [hstep]
    rw [List.getD_append _ _ _ _ (by omega)]
    rw [hgev i (by omega)]
  · intro j hj
    have hjlen : j < ((List.range f.numSymbols).map AffineExpr.sym).length := by
      simpa using hj
    rw [List.getD_eq_getElem _ _ hjlen]
    simp only [List.getElem_map, List.getElem_range]
    show args.getD (g.numDims + j) 0 = _
    rw [List.getD_append_right]
    · rw [hglen, ← hfd]
      have harith : f.numDims + j - f.numDims = j := by omega
      rw [harith, getD_drop]
    · rw [hglen, ← hfd]
      omega

theorem compose_results_length (f g : AffineMap) :
    (f.compose g).results.length = f.results.length := by
  simp [AffineMap.compose]

theorem compose_inBounds (f g : AffineMap) (hf : f.inBounds = true)
    (hg : g.inBounds = true) (hfd : f.numDims ≤ g.results.length) :
    (f.compose g).inBounds = true := by
  unfold AffineMap.compose AffineMap.inBounds
  simp only [List.all_eq_true, List.mem_map]
  rintro x ⟨e, he, rfl⟩
  have hb : e.inBounds f.numDims f.numSymbols = true := List.all_eq_true.mp hf e he
  apply AffineExpr.inBounds_replace
  · apply AffineExpr.inBounds_mono hb
    · simpa using hfd
    · simp
  · intro x hx
    simp only [List.mem_map] at hx
    obtain ⟨e', he', rfl⟩ := hx
    have hb' : e'.inBounds g.numDims g.numSymbols = true := List.all_eq_true.mp hg e' he'
    apply AffineExpr.inBounds_replace
    · apply AffineExpr.inBounds_mono hb' <;> simp
    · intro y hy
      simp only [List.mem_map] at hy
      obtain ⟨k, hk, rfl⟩ := hy
      simp only [AffineExpr.inBounds, decide_eq_true_eq]
      simpa using hk
    · intro y hy
      simp only [List.mem_map] at hy
      obtain ⟨k, hk, rfl⟩ := hy
      simp only [AffineExpr.inBounds, decide_eq_true_eq]
      simp at hk
      omega
  · intro x hx
    simp only [List.mem_map] at hx
    obtain ⟨k, hk, rfl⟩ := hx
    simp only [AffineExpr.inBounds, decide_eq_true_eq]
    simp at hk
    omega

theorem simplifyAffineMap_numDims (m : AffineMap) :
    (simplifyAffineMap m).numDims = m.numDims := rfl

theorem simplifyAffineMap_numSymbols (m : AffineMap) :
    (simplifyAffineMap m).numSymbols = m.numSymbols := rfl

theorem simplifyAffineMap_results_length (m : AffineMap) :
    (simplifyAffineMap m).results.length = m.results.length := by
  simp [simplifyAffineMap]

theorem composeLoopFalse_sem (env : Nat → Int) (d ndB mnd : Nat)
    (ops : List Val) (i0 : Nat) (hall : i0 + ops.length ≤ mnd)
    (aux : List AffineExpr) (st : NormState) (vals : List Int)
    (hinv : auxInv env st aux vals) :
    (∃ ext, (composeLoop d ndB mnd false i0 ops aux st).2.reorderedDims =
      st.reorderedDims ++ ext) ∧
    (composeLoop d ndB mnd false i0 ops aux st).2.concatenatedSymbols =
      st.concatenatedSymbols ∧
    auxInv env (composeLoop d ndB mnd false i0 ops aux st).2
      (composeLoop d ndB mnd false i0 ops aux st).1
      (vals ++ evalValList env ops) := by
  induction ops generalizing i0 aux st vals with
  | nil =>
    rw [composeLoop_nil]
    exact ⟨⟨[], by simp⟩, rfl, by simpa [evalValList] using hinv⟩
  | cons t rest ih =>
    rw [composeLoop_cons_false, if_pos (by simp at hall; omega)]
    obtain ⟨p, ext1, he1, hre1, hco1, hp1, hg1⟩ := renumberOneDim_spec st t
    have hinv1 : auxInv env (renumberOneDim st t).2 (aux ++ [(renumberOneDim st t).1])
        (vals ++ [evalVal env t]) := by
      rw [he1]
      apply auxInv_push (auxInv_extend hinv ext1 hre1)
      · simp only [AffineExpr.inBounds, decide_eq_true_eq]
        exact hp1
      · intro s
        show (evalValList env (renumberOneDim st t).2.reorderedDims).getD p 0 = _
        rw [evalValList_getD env _ p hp1, hg1]
    obtain ⟨⟨ext2, hre2⟩, hco2, hinv2⟩ := ih (i0 + 1) (by simp at hall ⊢; omega)
      (aux ++ [(renumberOneDim st t).1]) (renumberOneDim st t).2
      (vals ++ [evalVal env t]) hinv1
    refine ⟨⟨ext1 ++ ext2, by rw [hre2, hre1, List.append_assoc]⟩, by rw [hco2, hco1], ?_⟩
    have hv : vals ++ [evalVal env t] ++ evalValList env rest =
        vals ++ evalValList env (t :: rest) := by
      simp [evalValList]
    rw [← hv]
    exact hinv2

theorem list_eq_of_getD (l1 l2 : List Int) (hlen : l1.length = l2.length)
    (h : ∀ i < l1.length, l1.getD i 0 = l2.getD i 0) : l1 = l2 := by
  apply List.ext_getElem hlen
  intro i h1 h2
  have hh := h i h1
  rwa [List.getD_eq_getElem _ _ h1, List.getD_eq_getElem _ _ h2] at hh

theorem evalAt_getD (g : AffineMap) (args : List Int) (j : Nat)
    (hj : j < g.results.length) :
    (g.evalAt args).getD j 0 =
      AffineExpr.eval (fun q => args.getD q 0)
        (fun q => args.getD (g.numDims + q) 0) (g.results.getD j (.const 0)) := by
  rw [List.getD_eq_getElem _ _ (by simpa [AffineMap.evalAt] using hj),
    List.getD_eq_getElem _ _ hj]
  simp [AffineMap.evalAt]

theorem normalize_deep_sem (env : Nat → Int) (d : Nat) (hd : 2 ≤ d)
    (m : AffineMap) (subOps : List Val)
    (harity : m.numDims = subOps.length) (hns : m.numSymbols = 0)
    (hb : m.inBounds = true) :
    (normalize d m subOps).2.concatenatedSymbols = [] ∧
    (normalize d m subOps).1.numDims =
      (normalize d m subOps).2.reorderedDims.length ∧
    (normalize d m subOps).1.numSymbols = 0 ∧
    (normalize d m subOps).1.inBounds = true ∧
    (normalize d m subOps).1.results.length = m.results.length ∧
    (normalize d m subOps).1.evalAt
        (evalValList env (normalize d m subOps).2.reorderedDims) =
      m.evalAt (evalValList env subOps) := by
  have hfur : decide (d ≤ kMaxAffineApplyDepth) = false := by
    simp [kMaxAffineApplyDepth]
    omega
  have hpro : promoteComposedSymbolsAsDims m (subOps.drop m.numDims) = m := by
    rw [harity, List.drop_length]
    rfl
  have hnorm : normalize d m subOps =
      if (composeLoop d m.numDims m.numDims false 0 subOps [] ⟨[], []⟩).1.isEmpty
      then (m, (composeLoop d m.numDims m.numDims false 0 subOps [] ⟨[], []⟩).2)
      else (simplifyAffineMap (m.compose
        ⟨(composeLoop d m.numDims m.numDims false 0 subOps []
            ⟨[], []⟩).2.reorderedDims.length,
          (composeLoop d m.numDims m.numDims false 0 subOps []
            ⟨[], []⟩).2.concatenatedSymbols.length - m.numSymbols,
          (composeLoop d m.numDims m.numDims false 0 subOps [] ⟨[], []⟩).1⟩),
        (composeLoop d m.numDims m.numDims false 0 subOps [] ⟨[], []⟩).2) := by
    unfold normalize
    simp only [hpro, hfur]
  obtain ⟨⟨ext, hre⟩, hco, hinv⟩ := composeLoopFalse_sem env d m.numDims m.numDims
    subOps 0 (by omega) [] ⟨[], []⟩ [] (auxInv_nil env ⟨[], []⟩)
  obtain ⟨hlen, hbnd, hev⟩ := hinv
  simp only [List.nil_append] at hlen hbnd hev hre
  have hq1len : (composeLoop d m.numDims m.numDims false 0 subOps []
      ⟨[], []⟩).1.length = subOps.length := by
    rw [hlen, evalValList_length]
  by_cases hemp : (composeLoop d m.numDims m.numDims false 0 subOps []
      ⟨[], []⟩).1.isEmpty
  · rw [hnorm, if_pos hemp]
    have hz : subOps.length = 0 := by
      rw [← hq1len]
      exact List.isEmpty_iff_length_eq_zero.mp hemp
    have hsub : subOps = [] := List.eq_nil_of_length_eq_zero hz
    subst hsub
    rw [composeLoop_nil] at hco hre ⊢
    refine ⟨hco, ?_, hns, hb, rfl, ?_⟩
    · simp only [hre]
      simp [harity]
    · simp [hre]
  · rw [hnorm, if_neg hemp]
    set q := composeLoop d m.numDims m.numDims false 0 subOps [] ⟨[], []⟩ with hq
    have hcl : q.2.concatenatedSymbols.length - m.numSymbols = 0 := by
      rw [hco, hns]
      rfl
    have hg : (⟨q.2.reorderedDims.length,
        q.2.concatenatedSymbols.length - m.numSymbols, q.1⟩ : AffineMap) =
        ⟨q.2.reorderedDims.length, 0, q.1⟩ := by
      rw [hcl]
    rw [hg]
    set g : AffineMap := ⟨q.2.reorderedDims.length, 0, q.1⟩ with hgdef
    have hginb : g.inBounds = true := by
      unfold AffineMap.inBounds
      rw [List.all_eq_true]
      intro e he
      obtain ⟨j, hj, rfl⟩ := List.mem_iff_getElem.mp he
      have := hbnd j hj
      rw [List.getD_eq_getElem _ _ hj] at this
      exact this
    have hfd : m.numDims = g.results.length := by
      show m.numDims = q.1.length
      omega
    refine ⟨hco, ?_, ?_, ?_, ?_, ?_⟩
    · show (simplifyAffineMap _).numDims = _
      rw [simplifyAffineMap_numDims]
      rfl
    · show (simplifyAffineMap _).numSymbols = _
      rw [simplifyAffineMap_numSymbols]
      show m.numSymbols + 0 = 0
      omega
    · exact simplifyAffineMap_inBounds _ (compose_inBounds m g hb hginb (le_of_eq hfd))
    · rw [simplifyAffineMap_results_length, compose_results_length]
    · rw [simplifyAffineMap_evalAt]
      rw [compose_evalAt_symfree m g _ hb hginb rfl hfd]
      have hdrop : (evalValList env q.2.reorderedDims).drop g.numDims = [] := by
        apply List.drop_of_length_le
        rw [evalValList_length]
      rw [hdrop, List.append_nil]
      congr 1
      apply list_eq_of_getD
      · show (g.evalAt _).length = _
        rw [evalValList_length, ← hq1len]
        simp [AffineMap.evalAt]
      · intro i hi
        have hi' : i < g.results.length := by
          simpa [AffineMap.evalAt] using hi
        rw [evalAt_getD g _ i hi']
        exact hev i hi' _

theorem getD_default_irrel {α : Type} (l : List α) (i : Nat) (hi : i < l.length)
    (d1 d2 : α) : l.getD i d1 = l.getD i d2 := by
  rw [List.getD_eq_getElem _ _ hi, List.getD_eq_getElem _ _ hi]

theorem renumberDims_spec (st : NormState) (vs : List Val) :
    (∃ ext, (renumberDims st vs).2.reorderedDims = st.reorderedDims ++ ext) ∧
    (renumberDims st vs).2.concatenatedSymbols = st.concatenatedSymbols ∧
    (renumberDims st vs).1.length = vs.length ∧
    (∀ j < vs.length, ∃ p,
      (renumberDims st vs).1.getD j (.const 0) = .dim p ∧
      p < (renumberDims st vs).2.reorderedDims.length ∧
      (renumberDims st vs).2.reorderedDims.getD p default = vs.getD j default) := by
  induction vs generalizing st with
  | nil =>
    exact ⟨⟨[], by simp [renumberDims]⟩, rfl, rfl, by intro j hj; simp at hj⟩
  | cons v rest ih =>
    obtain ⟨p0, ext0, he0, hre0, hco0, hp0, hg0⟩ := renumberOneDim_spec st v
    obtain ⟨⟨ext1, hre1⟩, hco1, hlen1, hspec1⟩ := ih (renumberOneDim st v).2
    have h1 : (renumberDims st (v :: rest)).1 =
        (renumberOneDim st v).1 :: (renumberDims (renumberOneDim st v).2 rest).1 := by
      simp [renumberDims]
    have h2 : (renumberDims st (v :: rest)).2 =
        (renumberDims (renumberOneDim st v).2 rest).2 := by
      simp [renumberDims]
    refine ⟨⟨ext0 ++ ext1, ?_⟩, ?_, ?_, ?_⟩
    · rw [h2, hre1, hre0, List.append_assoc]
    · rw [h2, hco1, hco0]
    · rw [h1]
      simp [hlen1]
    · intro j hj
      rw [h1, h2]
      cases j with
      | zero =>
        refine ⟨p0, by simpa using he0, ?_, ?_⟩
        · rw [hre1]
          simp only [List.length_append]
          omega
        · rw [hre1, List.getD_append _ _ _ _ hp0]
          simpa using hg0
      | succ j' =>
        have hj' : j' < rest.length := by simpa using hj
        obtain ⟨p, hp1, hp2, hp3⟩ := hspec1 j' hj'
        exact ⟨p, by simpa using hp1, hp2, by simpa using hp3⟩

theorem renumber_symfree_sem (env : Nat → Int) (st : NormState) (om : AffineMap)
    (otherDims : List Val) (hns : om.numSymbols = 0)
    (harity : om.numDims = otherDims.length) (hb : om.inBounds = true) :
    (∃ ext, (renumber st om otherDims []).2.reorderedDims =
      st.reorderedDims ++ ext) ∧
    (renumber st om otherDims []).2.concatenatedSymbols =
      st.concatenatedSymbols ∧
    (renumber st om otherDims []).1.results.length = om.results.length ∧
    (∀ e ∈ (renumber st om otherDims []).1.results,
      e.inBounds (renumber st om otherDims []).2.reorderedDims.length 0 = true) ∧
    (∀ j < om.results.length, ∀ s : Nat → Int,
      ((renumber st om otherDims []).1.results.getD j (.const 0)).eval
        (fun k => (evalValList env
          (renumber st om otherDims []).2.reorderedDims).getD k 0) s =
      (om.evalAt (evalValList env otherDims)).getD j 0) := by
  obtain ⟨⟨ext, hre⟩, hco, hlen, hspec⟩ := renumberDims_spec st otherDims
  have h1 : (renumber st om otherDims []).1 =
      om.replaceDimsAndSymbols (renumberDims st otherDims).1 []
        (renumberDims st otherDims).1.length 0 := by
    simp [renumber]
  have h2 : (renumber st om otherDims []).2.reorderedDims =
      (renumberDims st otherDims).2.reorderedDims := by
    simp [renumber]
  have h2c : (renumber st om otherDims []).2.concatenatedSymbols =
      (renumberDims st otherDims).2.concatenatedSymbols := by
    simp [renumber]
  have hres : (renumber st om otherDims []).1.results =
      om.results.map (AffineExpr.replaceDimsAndSymbols
        (renumberDims st otherDims).1 []) := by
    rw [h1]
    rfl
  refine ⟨⟨ext, by rw [h2, hre]⟩, by rw [h2c, hco], by rw [hres]; simp, ?_, ?_⟩
  · intro e he
    rw [hres] at he
    obtain ⟨e0, he0, rfl⟩ := List.mem_map.mp he
    rw [h2]
    apply AffineExpr.inBounds_replace
    · rw [hlen, ← harity]
      show e0.inBounds om.numDims 0 = true
      rw [← hns]
      exact List.all_eq_true.mp hb e0 he0
    · intro x hx
      obtain ⟨i, hi, rfl⟩ := List.mem_iff_getElem.mp hx
      have hi' : i < otherDims.length := by rwa [hlen] at hi
      obtain ⟨p, hp1, hp2, hp3⟩ := hspec i hi'
      rw [← List.getD_eq_getElem _ (.const 0) hi, hp1]
      simpa [AffineExpr.inBounds] using hp2
    · intro x hx
      exact absurd hx (List.not_mem_nil x)
  · intro j hj s
    rw [hres, h2]
    have hjm : j < (om.results.map (AffineExpr.replaceDimsAndSymbols
        (renumberDims st otherDims).1 [])).length := by
      simpa using hj
    rw [List.getD_eq_getElem _ _ hjm, List.getElem_map]
    rw [AffineExpr.eval_replace]
    rw [evalAt_getD om _ j hj, List.getD_eq_getElem _ _ hj]
    have hbj : (om.results[j]).inBounds otherDims.length 0 = true := by
      rw [← harity, ← hns]
      exact List.all_eq_true.mp hb _ (List.getElem_mem hj)
    apply AffineExpr.eval_congr _ hbj
    · intro i hi
      obtain ⟨p, hp1, hp2, hp3⟩ := hspec i hi
      rw [getD_default_irrel _ i (by rwa [hlen]) _ (.const 0), hp1]
      show (evalValList env (renumberDims st otherDims).2.reorderedDims).getD p 0 =
        (evalValList env otherDims).getD i 0
      rw [evalValList_getD _ _ p hp2, hp3, evalValList_getD _ _ i hi]
    · intro jj hjj
      exact absurd hjj (Nat.not_lt_zero jj)

theorem headD_getD {α : Type} (l : List α) (d : α) : l.headD d = l.getD 0 d := by
  cases l <;> rfl

theorem composeLoopTrue_sem (env : Nat → Int) (d ndB mnd : Nat) (hd : 1 ≤ d)
    (ops : List Val) (hwf : wfSymFreeList ops = true) (i0 : Nat)
    (aux : List AffineExpr) (st : NormState) (vals : List Int)
    (hinv : auxInv env st aux vals) :
    (∃ ext, (composeLoop d ndB mnd true i0 ops aux st).2.reorderedDims =
      st.reorderedDims ++ ext) ∧
    (dispatchAux (fun i t => t.isApplyRes || decide (i < ndB)) i0 ops = [] →
      (composeLoop d ndB mnd true i0 ops aux st).2.reorderedDims =
        st.reorderedDims) ∧
    (composeLoop d ndB mnd true i0 ops aux st).2.concatenatedSymbols =
      st.concatenatedSymbols ++
        dispatchAux (fun i t => !(t.isApplyRes || decide (i < ndB))) i0 ops ∧
    auxInv env (composeLoop d ndB mnd true i0 ops aux st).2
      (composeLoop d ndB mnd true i0 ops aux st).1
      (vals ++ evalValList env
        (dispatchAux (fun i t => t.isApplyRes || decide (i < ndB)) i0 ops)) := by
  induction ops generalizing i0 aux st vals with
  | nil =>
    rw [composeLoop_nil]
    refine ⟨⟨[], by simp⟩, fun _ => rfl, by simp [dispatchAux], ?_⟩
    simpa [dispatchAux, evalValList] using hinv
  | cons t rest ih =>
    have hwt : t.wfSymFree = true ∧ wfSymFreeList rest = true := by
      simpa [wfSymFreeList] using hwf
    by_cases ha : t.isApplyRes = true
    · cases t with
      | applyRes vi vx vt m subOps =>
        have hwa := hwt.1
        simp only [Val.wfSymFree, Bool.and_eq_true, decide_eq_true_eq] at hwa
        obtain ⟨⟨⟨hns, harity⟩, hinb⟩, hwsub⟩ := hwa
        obtain ⟨hdco, hdnd, hdns, hdib, hdlen, hdev⟩ :=
          normalize_deep_sem env (d + 1) (by omega) m subOps harity hns hinb
        have hrw : renumber st (normalize (d + 1) m subOps).1
            (normalize (d + 1) m subOps).2.reorderedDims
            (normalize (d + 1) m subOps).2.concatenatedSymbols =
          renumber st (normalize (d + 1) m subOps).1
            (normalize (d + 1) m subOps).2.reorderedDims [] := by
          rw [hdco]
        obtain ⟨⟨extr, hrre⟩, hrco, hrlen, hrbnd, hrev⟩ :=
          renumber_symfree_sem env st (normalize (d + 1) m subOps).1
            (normalize (d + 1) m subOps).2.reorderedDims hdns hdnd hdib
        rw [composeLoop_cons_true_apply, hrw]
        set r := renumber st (normalize (d + 1) m subOps).1
          (normalize (d + 1) m subOps).2.reorderedDims [] with hrdef
        set e := r.1.results.headD (.const 0) with hedef
        set w := evalVal env (Val.applyRes vi vx vt m subOps) with hwdef
        have hweq : w = (m.evalAt (evalValList env subOps)).headD 0 := rfl
        have hbound : e.inBounds r.2.reorderedDims.length 0 = true := by
          by_cases hres0 : r.1.results.length = 0
          · have : r.1.results = [] := List.eq_nil_of_length_eq_zero hres0
            rw [hedef, this]
            simp [AffineExpr.inBounds]
          · have hpos : 0 < r.1.results.length := Nat.pos_of_ne_zero hres0
            rw [hedef, headD_getD, List.getD_eq_getElem _ _ hpos]
            exact hrbnd _ (List.getElem_mem hpos)
        have heval : ∀ s : Nat → Int,
            e.eval (fun k => (evalValList env r.2.reorderedDims).getD k 0) s = w := by
          intro s
          by_cases hres0 : (normalize (d + 1) m subOps).1.results.length = 0
          · have hr0 : r.1.results = [] := by
              apply List.eq_nil_of_length_eq_zero
              rw [hrlen, hres0]
            have hm0 : m.results = [] := by
              apply List.eq_nil_of_length_eq_zero
              omega
            rw [hedef, hr0, hweq]
            show (AffineExpr.const 0).eval _ s = _
            rw [AffineMap.evalAt, hm0]
            simp [AffineExpr.eval]
          · have hpos : 0 < (normalize (d + 1) m subOps).1.results.length :=
              Nat.pos_of_ne_zero hres0
            rw [hedef, headD_getD]
            rw [hrev 0 hpos s, hdev, hweq, headD_getD]
        have hinv1 : auxInv env r.2 (aux ++ [e]) (vals ++ [w]) := by
          exact auxInv_push (auxInv_extend hinv extr hrre) e w hbound heval
        obtain ⟨⟨ext2, hre2⟩, _, hco2, hinv2⟩ :=
          ih hwt.2 (i0 + 1) (aux ++ [e]) r.2 (vals ++ [w]) hinv1
        refine ⟨⟨extr ++ ext2, by rw [hre2, hrre, List.append_assoc]⟩, ?_, ?_, ?_⟩
        · intro h
          exact absurd h (by simp [dispatchAux, Val.isApplyRes])
        · have hds : dispatchAux
              (fun i t => !(t.isApplyRes || decide (i < ndB))) i0
              (Val.applyRes vi vx vt m subOps :: rest) =
            dispatchAux (fun i t => !(t.isApplyRes || decide (i < ndB)))
              (i0 + 1) rest := by
            simp [dispatchAux, Val.isApplyRes]
          rw [hds, hco2, hrco]
        · have hda : dispatchAux
              (fun i t => t.isApplyRes || decide (i < ndB)) i0
              (Val.applyRes vi vx vt m subOps :: rest) =
            Val.applyRes vi vx vt m subOps ::
              dispatchAux (fun i t => t.isApplyRes || decide (i < ndB))
                (i0 + 1) rest := by
            simp [dispatchAux, Val.isApplyRes]
          rw [hda]
          have hv : vals ++ evalValList env (Val.applyRes vi vx vt m subOps ::
              dispatchAux (fun i t => t.isApplyRes || decide (i < ndB))
                (i0 + 1) rest) =
              (vals ++ [w]) ++ evalValList env
                (dispatchAux (fun i t => t.isApplyRes || decide (i < ndB))
                  (i0 + 1) rest) := by
            simp [evalValList, hwdef]
          rw [hv]
          exact hinv2
      | blockArg a b c => simp [Val.isApplyRes] at ha
      | constantRes a b c => simp [Val.isApplyRes] at ha
      | dimRes a b c dd => simp [Val.isApplyRes] at ha
      | otherRes a b c => simp [Val.isApplyRes] at ha
    · have ha' : t.isApplyRes = false := by simpa using ha
      rw [composeLoop_cons_true_nonapply _ _ _ _ _ _ _ _ ha']
      by_cases hi : i0 < ndB
      · rw [if_pos hi]
        obtain ⟨p, ext1, he1, hre1, hco1, hp1, hg1⟩ := renumberOneDim_spec st t
        have hinv1 : auxInv env (renumberOneDim st t).2
            (aux ++ [(renumberOneDim st t).1]) (vals ++ [evalVal env t]) := by
          rw [he1]
          apply auxInv_push (auxInv_extend hinv ext1 hre1)
          · simp only [AffineExpr.inBounds, decide_eq_true_eq]
            exact hp1
          · intro s
            show (evalValList env (renumberOneDim st t).2.reorderedDims).getD p 0 = _
            rw [evalValList_getD env _ p hp1, hg1]
        obtain ⟨⟨ext2, hre2⟩, _, hco2, hinv2⟩ := ih hwt.2 (i0 + 1)
          (aux ++ [(renumberOneDim st t).1]) (renumberOneDim st t).2
          (vals ++ [evalVal env t]) hinv1
        have hcondA : (fun i t => t.isApplyRes || decide (i < ndB)) i0 t = true := by
          simp [ha', hi]
        refine ⟨⟨ext1 ++ ext2, by rw [hre2, hre1, List.append_assoc]⟩, ?_, ?_, ?_⟩
        · intro h
          rw [dispatchAux, if_pos hcondA] at h
          exact absurd h (by simp)
        · rw [dispatchAux]
          have : (fun i t => !(t.isApplyRes || decide (i < ndB))) i0 t = false := by
            simp [ha', hi]
          rw [if_neg (by simp [this])]
          rw [hco2, hco1]
        · rw [dispatchAux, if_pos hcondA]
          have hv : vals ++ evalValList env (t ::
              dispatchAux (fun i t => t.isApplyRes || decide (i < ndB))
                (i0 + 1) rest) =
              (vals ++ [evalVal env t]) ++ evalValList env
                (dispatchAux (fun i t => t.isApplyRes || decide (i < ndB))
                  (i0 + 1) rest) := by
            simp [evalValList]
          rw [hv]
          exact hinv2
      · rw [if_neg hi]
        have hinv1 : auxInv env
            { st with concatenatedSymbols := st.concatenatedSymbols ++ [t] }
            aux vals := auxInv_extend hinv [] (by simp)
        obtain ⟨⟨ext2, hre2⟩, hemp2, hco2, hinv2⟩ := ih hwt.2 (i0 + 1) aux
          { st with concatenatedSymbols := st.concatenatedSymbols ++ [t] }
          vals hinv1
        have hcondA : (fun i t => t.isApplyRes || decide (i < ndB)) i0 t = false := by
          simp [ha', hi]
        have hda : dispatchAux (fun i t => t.isApplyRes || decide (i < ndB)) i0
            (t :: rest) =
            dispatchAux (fun i t => t.isApplyRes || decide (i < ndB))
              (i0 + 1) rest := by
          rw [dispatchAux, if_neg (by simp [hcondA])]
        refine ⟨⟨ext2, by simpa using hre2⟩, ?_, ?_, ?_⟩
        · intro h
          rw [hda] at h
          simpa using hemp2 h
        · rw [dispatchAux]
          rw [if_pos (by simp [ha', hi])]
          rw [hco2]
          simp
        · rw [hda]
          exact hinv2

theorem countP_take_le (p : Val → Bool) (l : List Val) (i : Nat) :
    (l.take i).countP p ≤ l.countP p :=
  (List.take_sublist i l).countP_le p

theorem countP_take_lt (p : Val → Bool) (l : List Val) (i : Nat)
    (hi : i < l.length) (hp : p (l.getD i default) = true) :
    (l.take i).countP p < l.countP p := by
  have hsucc : l.take (i + 1) = l.take i ++ [l.getD i default] := by
    rw [List.take_succ, List.getD_eq_getElem _ _ hi]
    simp [List.getElem?_eq_getElem hi]
  have h1 : (l.take (i + 1)).countP p = (l.take i).countP p + 1 := by
    rw [hsucc, List.countP_append]
    have hone : ([l.getD i default].countP p) = 1 := by
      rw [List.countP_cons, List.countP_nil, hp]
      simp
    rw [hone]
  have h2 : (l.take (i + 1)).countP p ≤ l.countP p := countP_take_le p l (i + 1)
  omega

theorem filter_getD_count (p : Val → Bool) (l : List Val) (i : Nat)
    (hi : i < l.length) (hp : p (l.getD i default) = true) :
    (l.filter p).getD ((l.take i).countP p) default = l.getD i default := by
  induction l generalizing i with
  | nil => simp at hi
  | cons v rest ih =>
    cases i with
    | zero =>
      have hv : p v = true := by simpa using hp
      rw [List.filter_cons_of_pos hv]
      simp
    | succ i' =>
      have hi' : i' < rest.length := by simpa using hi
      have hp' : p (rest.getD i' default) = true := by simpa using hp
      have hgd : (v :: rest).getD (i' + 1) default = rest.getD i' default := by simp
      rw [hgd]
      have htake : (v :: rest).take (i' + 1) = v :: rest.take i' := by simp
      rw [htake, List.countP_cons]
      by_cases hv : p v = true
      · rw [List.filter_cons_of_pos hv]
        simp only [hv, if_pos]
        have : (rest.take i').countP p + 1 = (rest.take i').countP p + 1 := rfl
        show (v :: rest.filter p).getD ((rest.take i').countP p + 1) default = _
        rw [List.getD_cons_succ]
        exact ih i' hi' hp'
      · rw [List.filter_cons_of_neg (by simpa using hv)]
        simp only [hv]
        show (rest.filter p).getD ((rest.take i').countP p + 0) default = _
        rw [Nat.add_zero]
        exact ih i' hi' hp'

theorem AffineExpr.inBounds_replace_used {nd ns nd' ns' : Nat}
    (dr sr : List AffineExpr) (e : AffineExpr) (hb : e.inBounds nd ns = true)
    (hdr : ∀ i < nd, (dr.getD i (.dim i)).inBounds nd' ns' = true)
    (hsr : ∀ j < ns, (sr.getD j (.sym j)).inBounds nd' ns' = true) :
    (e.replaceDimsAndSymbols dr sr).inBounds nd' ns' = true := by
  induction e with
  | dim i =>
    simp only [AffineExpr.inBounds, decide_eq_true_eq] at hb
    exact hdr i hb
  | sym j =>
    simp only [AffineExpr.inBounds, decide_eq_true_eq] at hb
    exact hsr j hb
  | const c => simp [AffineExpr.replaceDimsAndSymbols, AffineExpr.inBounds]
  | add a b iha ihb =>
    simp only [AffineExpr.inBounds, Bool.and_eq_true] at hb
    simp [AffineExpr.replaceDimsAndSymbols, AffineExpr.inBounds, iha hb.1, ihb hb.2]
  | mul a b iha ihb =>
    simp only [AffineExpr.inBounds, Bool.and_eq_true] at hb
    simp [AffineExpr.replaceDimsAndSymbols, AffineExpr.inBounds, iha hb.1, ihb hb.2]
  | floordiv a b iha ihb =>
    simp only [AffineExpr.inBounds, Bool.and_eq_true] at hb
    simp [AffineExpr.replaceDimsAndSymbols, AffineExpr.inBounds, iha hb.1, ihb hb.2]
  | ceildiv a b iha ihb =>
    simp only [AffineExpr.inBounds, Bool.and_eq_true] at hb
    simp [AffineExpr.replaceDimsAndSymbols, AffineExpr.inBounds, iha hb.1, ihb hb.2]
  | mod a b iha ihb =>
    simp only [AffineExpr.inBounds, Bool.and_eq_true] at hb
    simp [AffineExpr.replaceDimsAndSymbols, AffineExpr.inBounds, iha hb.1, ihb hb.2]

theorem promoteRepl_spec (nd0 : Nat) (l : List Val) : ∀ a b : Nat,
    (promoteRepl nd0 l a b).1.length = l.length ∧
    (promoteRepl nd0 l a b).2.1 = a + l.countP Val.isApplyRes ∧
    (promoteRepl nd0 l a b).2.2 = b + l.countP (fun v => !v.isApplyRes) ∧
    ∀ i < l.length,
      (promoteRepl nd0 l a b).1.getD i (.const 0) =
        if (l.getD i default).isApplyRes then
          .dim (nd0 + a + (l.take i).countP Val.isApplyRes)
        else .sym (b + (l.take i).countP (fun v => !v.isApplyRes)) := by
  induction l with
  | nil =>
    intro a b
    exact ⟨rfl, by simp [promoteRepl], by simp [promoteRepl],
      by intro i hi; simp at hi⟩
  | cons v rest ih =>
    intro a b
    by_cases hv : v.isApplyRes = true
    · have hunf : promoteRepl nd0 (v :: rest) a b =
          (AffineExpr.dim (nd0 + a) :: (promoteRepl nd0 rest (a + 1) b).1,
            (promoteRepl nd0 rest (a + 1) b).2) := by
        simp [promoteRepl, hv]
      obtain ⟨ihl, iha, ihb, ihs⟩ := ih (a + 1) b
      rw [hunf]
      refine ⟨by simp [ihl], ?_, ?_, ?_⟩
      · show (promoteRepl nd0 rest (a + 1) b).2.1 = _
        rw [iha, List.countP_cons]
        simp [hv]
        omega
      · show (promoteRepl nd0 rest (a + 1) b).2.2 = _
        rw [ihb, List.countP_cons]
        simp [hv]
      · intro i hi
        cases i with
        | zero => simp [hv]
        | succ i' =>
          have hi' : i' < rest.length := by simpa using hi
          have := ihs i' hi'
          simp only [List.getD_cons_succ, List.take_succ_cons, List.countP_cons, hv]
          rw [this]
          by_cases hri : (rest.getD i' default).isApplyRes = true
          · rw [if_pos hri, if_pos hri]
            simp
            omega
          · rw [if_neg hri, if_neg hri]
            simp [hv]
    · have hv' : v.isApplyRes = false := by simpa using hv
      have hunf : promoteRepl nd0 (v :: rest) a b =
          (AffineExpr.sym b :: (promoteRepl nd0 rest a (b + 1)).1,
            (promoteRepl nd0 rest a (b + 1)).2) := by
        simp [promoteRepl, hv']
      obtain ⟨ihl, iha, ihb, ihs⟩ := ih a (b + 1)
      rw [hunf]
      refine ⟨by simp [ihl], ?_, ?_, ?_⟩
      · show (promoteRepl nd0 rest a (b + 1)).2.1 = _
        rw [iha, List.countP_cons]
        simp [hv']
      · show (promoteRepl nd0 rest a (b + 1)).2.2 = _
        rw [ihb, List.countP_cons]
        simp [hv']
        omega
      · intro i hi
        cases i with
        | zero => simp [hv']
        | succ i' =>
          have hi' : i' < rest.length := by simpa using hi
          have := ihs i' hi'
          simp only [List.getD_cons_succ, List.take_succ_cons, List.countP_cons, hv']
          rw [this]
          by_cases hri : (rest.getD i' default).isApplyRes = true
          · rw [if_pos hri, if_pos hri]
            simp [hv']
          · rw [if_neg hri, if_neg hri]
            simp
            omega

theorem promote_sem (env : Nat → Int) (map0 : AffineMap) (syms : List Val)
    (hb : map0.inBounds = true) (hlen : map0.numSymbols = syms.length) :
    (promoteComposedSymbolsAsDims map0 syms).numDims =
      map0.numDims + syms.countP Val.isApplyRes ∧
    (promoteComposedSymbolsAsDims map0 syms).numSymbols =
      syms.countP (fun v => !v.isApplyRes) ∧
    (promoteComposedSymbolsAsDims map0 syms).results.length =
      map0.results.length ∧
    (promoteComposedSymbolsAsDims map0 syms).inBounds = true ∧
    ∀ dimVals : List Int, dimVals.length = map0.numDims →
      (promoteComposedSymbolsAsDims map0 syms).evalAt
        (dimVals ++ evalValList env (syms.filter Val.isApplyRes) ++
          evalValList env (syms.filter (fun v => !v.isApplyRes))) =
      map0.evalAt (dimVals ++ evalValList env syms) := by
  by_cases hemp : syms.isEmpty
  · have hnil : syms = [] := List.isEmpty_iff.mp hemp
    subst hnil
    have hpm : promoteComposedSymbolsAsDims map0 [] = map0 := by
      simp [promoteComposedSymbolsAsDims]
    rw [hpm]
    refine ⟨by simp, by simpa using hlen, rfl, hb, ?_⟩
    intro dimVals _
    simp [evalValList]
  · by_cases hany : syms.any Val.isApplyRes = true
    · have hpm : promoteComposedSymbolsAsDims map0 syms =
          map0.replaceDimsAndSymbols [] (promoteRepl map0.numDims syms 0 0).1
            (map0.numDims + (promoteRepl map0.numDims syms 0 0).2.1)
            (promoteRepl map0.numDims syms 0 0).2.2 := by
        rw [promoteComposedSymbolsAsDims, if_neg (by simp [hemp]), if_pos hany]
      obtain ⟨hql, hqa, hqb, hqs⟩ := promoteRepl_spec map0.numDims syms 0 0
      have hA : (promoteRepl map0.numDims syms 0 0).2.1 =
          syms.countP Val.isApplyRes := by omega
      have hB : (promoteRepl map0.numDims syms 0 0).2.2 =
          syms.countP (fun v => !v.isApplyRes) := by omega
      have hXlen : (evalValList env (syms.filter Val.isApplyRes)).length =
          syms.countP Val.isApplyRes := by
        rw [evalValList_length, ← List.countP_eq_length_filter]
      have hYlen : (evalValList env
          (syms.filter (fun v => !v.isApplyRes))).length =
          syms.countP (fun v => !v.isApplyRes) := by
        rw [evalValList_length, ← List.countP_eq_length_filter]
      have hbnd : ∀ j < syms.length,
          ((promoteRepl map0.numDims syms 0 0).1.getD j (.sym j)).inBounds
            (map0.numDims + syms.countP Val.isApplyRes)
            (syms.countP (fun v => !v.isApplyRes)) = true := by
        intro j hj
        rw [getD_default_irrel _ j (by omega) _ (.const 0), hqs j hj]
        by_cases hja : (syms.getD j default).isApplyRes = true
        · rw [if_pos hja]
          simp only [AffineExpr.inBounds, decide_eq_true_eq]
          have := countP_take_lt Val.isApplyRes syms j hj hja
          omega
        · rw [if_neg hja]
          simp only [AffineExpr.inBounds, decide_eq_true_eq]
          have hja2 : (syms.getD j default).isApplyRes = false := by
            simpa using hja
          have := countP_take_lt (fun v => !v.isApplyRes) syms j hj
            (by show (!(syms.getD j default).isApplyRes) = true; rw [hja2]; rfl)
          omega
      refine ⟨?_, ?_, ?_, ?_, ?_⟩
      · rw [hpm]
        show map0.numDims + _ = _
        omega
      · rw [hpm]
        show (promoteRepl map0.numDims syms 0 0).2.2 = _
        omega
      · rw [hpm]
        show (map0.results.map _).length = _
        simp
      · rw [hpm]
        show (map0.results.map _).all _ = true
        rw [List.all_eq_true]
        intro e' he'
        obtain ⟨e0, he0, rfl⟩ := List.mem_map.mp he'
        show (e0.replaceDimsAndSymbols _ _).inBounds
          (map0.numDims + (promoteRepl map0.numDims syms 0 0).2.1)
          (promoteRepl map0.numDims syms 0 0).2.2 = true
        rw [hA, hB]
        apply AffineExpr.inBounds_replace_used _ _ e0
          (List.all_eq_true.mp hb e0 he0)
        · intro i hi
          simp only [List.getD_nil]
          simp only [AffineExpr.inBounds, decide_eq_true_eq]
          omega
        · intro j hj
          apply hbnd
          omega
      · intro dimVals hdv
        rw [hpm]
        show List.map _ (List.map _ map0.results) = List.map _ map0.results
        rw [List.map_map]
        apply List.map_congr_left
        intro e0 he0
        show ((e0.replaceDimsAndSymbols _ _).eval _ _) = _
        rw [AffineExpr.eval_replace]
        apply AffineExpr.eval_congr _ (List.all_eq_true.mp hb e0 he0)
        · intro i hi
          simp only [List.getD_nil]
          show AffineExpr.eval _ _ (.dim i) = _
          simp only [AffineExpr.eval]
          have h1 : ((dimVals ++ evalValList env (syms.filter Val.isApplyRes)) ++
              evalValList env (syms.filter (fun v => !v.isApplyRes))).getD i 0 =
              dimVals.getD i 0 := by
            rw [List.getD_append _ _ _ _ (by simp; omega),
              List.getD_append _ _ _ _ (by omega)]
          have h2 : (dimVals ++ evalValList env syms).getD i 0 =
              dimVals.getD i 0 := by
            rw [List.getD_append _ _ _ _ (by omega)]
          rw [h1, h2]
        · intro j hj
          have hj' : j < syms.length := by omega
          rw [getD_default_irrel _ j (by omega) _ (.const 0), hqs j hj']
          have hRHS : (dimVals ++ evalValList env syms).getD
              (map0.numDims + j) 0 = evalVal env (syms.getD j default) := by
            rw [← hdv, ← getD_drop, List.drop_left, evalValList_getD _ _ j hj']
          by_cases hja : (syms.getD j default).isApplyRes = true
          · rw [if_pos hja]
            show AffineExpr.eval _ _ (.dim _) = _
            simp only [AffineExpr.eval]
            set c := (syms.take j).countP Val.isApplyRes with hc
            have hcA : c < syms.countP Val.isApplyRes :=
              countP_take_lt Val.isApplyRes syms j hj' hja
            have hstep : ((dimVals ++ evalValList env
                (syms.filter Val.isApplyRes)) ++
                evalValList env (syms.filter (fun v => !v.isApplyRes))).getD
                (map0.numDims + 0 + c) 0 =
                (evalValList env (syms.filter Val.isApplyRes)).getD c 0 := by
              rw [List.getD_append _ _ _ _ (by simp [hXlen]; omega)]
              have : map0.numDims + 0 + c = dimVals.length + c := by omega
              rw [this, ← getD_drop, List.drop_left]
            rw [hstep, evalValList_getD _ _ c (by
              rw [← List.countP_eq_length_filter]
              exact hcA)]
            rw [filter_getD_count Val.isApplyRes syms j hj' hja, hRHS]
          · rw [if_neg hja]
            show AffineExpr.eval _ _ (.sym _) = _
            simp only [AffineExpr.eval]
            have hja2 : (syms.getD j default).isApplyRes = false := by
              simpa using hja
            set c := (syms.take j).countP (fun v => !v.isApplyRes) with hc
            have hcB : c < syms.countP (fun v => !v.isApplyRes) :=
              countP_take_lt (fun v => !v.isApplyRes) syms j hj' (by show (!(syms.getD j default).isApplyRes) = true; rw [hja2]; rfl)
            have hstep : ((dimVals ++ evalValList env
                (syms.filter Val.isApplyRes)) ++
                evalValList env (syms.filter (fun v => !v.isApplyRes))).getD
                (map0.numDims + (promoteRepl map0.numDims syms 0 0).2.1 +
                  (0 + c)) 0 =
                (evalValList env
                  (syms.filter (fun v => !v.isApplyRes))).getD c 0 := by
              have hix : map0.numDims + (promoteRepl map0.numDims syms 0 0).2.1 +
                  (0 + c) =
                  ((dimVals ++ evalValList env
                    (syms.filter Val.isApplyRes))).length + c := by
                simp [hXlen]
                omega
              rw [hix, ← getD_drop, List.drop_left]
            have hnd : (map0.replaceDimsAndSymbols []
                (promoteRepl map0.numDims syms 0 0).1
                (map0.numDims + (promoteRepl map0.numDims syms 0 0).2.1)
                (promoteRepl map0.numDims syms 0 0).2.2).numDims =
                map0.numDims + (promoteRepl map0.numDims syms 0 0).2.1 := rfl
            rw [hnd, hstep, evalValList_getD _ _ c (by
              rw [← List.countP_eq_length_filter]
              exact hcB)]
            rw [filter_getD_count (fun v => !v.isApplyRes) syms j hj'
              (by show (!(syms.getD j default).isApplyRes) = true; rw [hja2]; rfl), hRHS]
    · have hany' : syms.any Val.isApplyRes = false := by simpa using hany
      have hpm : promoteComposedSymbolsAsDims map0 syms = map0 := by
        rw [promoteComposedSymbolsAsDims, if_neg (by simp [hemp]), if_neg (by simp [hany'])]
      have hnone : ∀ v ∈ syms, ¬(v.isApplyRes = true) := by
        simpa [List.any_eq_false] using hany'
      have hA0 : syms.countP Val.isApplyRes = 0 :=
        List.countP_eq_zero.mpr hnone
      have hBall : syms.countP (fun v => !v.isApplyRes) = syms.length := by
        apply List.countP_eq_length.mpr
        intro v hv
        simp [hnone v hv]
      have hfa : syms.filter Val.isApplyRes = [] := by
        rw [List.filter_eq_nil_iff]
        exact hnone
      have hfb : syms.filter (fun v => !v.isApplyRes) = syms := by
        apply List.filter_eq_self.mpr
        intro v hv
        simp [hnone v hv]
      rw [hpm]
      refine ⟨by omega, by omega, rfl, hb, ?_⟩
      intro dimVals _
      rw [hfa, hfb]
      simp [evalValList]

theorem dispatchAux_append (cond : Nat → Val → Bool) (l1 : List Val) :
    ∀ (i0 : Nat) (l2 : List Val),
    dispatchAux cond i0 (l1 ++ l2) =
      dispatchAux cond i0 l1 ++ dispatchAux cond (i0 + l1.length) l2 := by
  induction l1 with
  | nil => intro i0 l2; simp [dispatchAux]
  | cons v rest ih =>
    intro i0 l2
    have hidx : i0 + (v :: rest).length = (i0 + 1) + rest.length := by
      simp
      omega
    rw [hidx, List.cons_append, dispatchAux, dispatchAux, ih (i0 + 1) l2]
    by_cases hc : cond i0 v = true
    · rw [if_pos hc, if_pos hc]
      simp
    · rw [if_neg hc, if_neg hc]

theorem dispatchA_low (ndB : Nat) (l : List Val) : ∀ i0, i0 + l.length ≤ ndB →
    dispatchAux (fun i t => t.isApplyRes || decide (i < ndB)) i0 l = l := by
  induction l with
  | nil => intro i0 _; rfl
  | cons v rest ih =>
    intro i0 h
    simp only [List.length_cons] at h
    rw [dispatchAux, if_pos (by
      simp only [Bool.or_eq_true, decide_eq_true_eq]
      exact Or.inr (by omega))]
    rw [ih (i0 + 1) (by omega)]

theorem dispatchS_low (ndB : Nat) (l : List Val) : ∀ i0, i0 + l.length ≤ ndB →
    dispatchAux (fun i t => !(t.isApplyRes || decide (i < ndB))) i0 l = [] := by
  induction l with
  | nil => intro i0 _; rfl
  | cons v rest ih =>
    intro i0 h
    simp only [List.length_cons] at h
    rw [dispatchAux, if_neg (by
      have hlt : i0 < ndB := by omega
      simp [hlt])]
    exact ih (i0 + 1) (by omega)

theorem dispatchA_high (ndB : Nat) (l : List Val) : ∀ i0, ndB ≤ i0 →
    dispatchAux (fun i t => t.isApplyRes || decide (i < ndB)) i0 l =
      l.filter Val.isApplyRes := by
  induction l with
  | nil => intro i0 _; rfl
  | cons v rest ih =>
    intro i0 h
    have hdec : decide (i0 < ndB) = false := by
      simp only [decide_eq_false_iff_not]
      omega
    by_cases hv : v.isApplyRes = true
    · rw [dispatchAux, if_pos (by simp [hv]), List.filter_cons_of_pos hv,
        ih (i0 + 1) (by omega)]
    · have hv' : v.isApplyRes = false := by simpa using hv
      rw [dispatchAux, if_neg (by simp [hv', hdec]),
        List.filter_cons_of_neg (by simp [hv']), ih (i0 + 1) (by omega)]

theorem dispatchS_high (ndB : Nat) (l : List Val) : ∀ i0, ndB ≤ i0 →
    dispatchAux (fun i t => !(t.isApplyRes || decide (i < ndB))) i0 l =
      l.filter (fun t => !t.isApplyRes) := by
  induction l with
  | nil => intro i0 _; rfl
  | cons v rest ih =>
    intro i0 h
    have hdec : decide (i0 < ndB) = false := by
      simp only [decide_eq_false_iff_not]
      omega
    by_cases hv : v.isApplyRes = true
    · rw [dispatchAux, if_neg (by simp [hv]),
        List.filter_cons_of_neg (by simp [hv]), ih (i0 + 1) (by omega)]
    · have hv' : v.isApplyRes = false := by simpa using hv
      rw [dispatchAux, if_pos (by simp [hv', hdec]),
        List.filter_cons_of_pos (by simp [hv']), ih (i0 + 1) (by omega)]

theorem evalValList_append (env : Nat → Int) (l1 l2 : List Val) :
    evalValList env (l1 ++ l2) = evalValList env l1 ++ evalValList env l2 := by
  rw [evalValList_eq_map, evalValList_eq_map, evalValList_eq_map, List.map_append]

theorem normalize_top_sem (env : Nat → Int) (map0 : AffineMap)
    (operands : List Val) (harity : map0.numInputs = operands.length)
    (hb : map0.inBounds = true) (hwf : wfSymFreeList operands = true) :
    (normalize 1 map0 operands).1.numDims =
      (normalize 1 map0 operands).2.reorderedDims.length ∧
    (normalize 1 map0 operands).1.numSymbols =
      (normalize 1 map0 operands).2.concatenatedSymbols.length ∧
    (normalize 1 map0 operands).1.inBounds = true ∧
    (normalize 1 map0 operands).1.results.length = map0.results.length ∧
    (normalize 1 map0 operands).1.evalAt
      (evalValList env ((normalize 1 map0 operands).2.reorderedDims ++
        (normalize 1 map0 operands).2.concatenatedSymbols)) =
      map0.evalAt (evalValList env operands) := by
  have hni : map0.numDims + map0.numSymbols = operands.length := harity
  have hnd0le : map0.numDims ≤ operands.length := by omega
  have hl2len : (operands.drop map0.numDims).length = map0.numSymbols := by
    rw [List.length_drop]
    omega
  have hl1len : (operands.take map0.numDims).length = map0.numDims := by
    rw [List.length_take]
    omega
  obtain ⟨hpnd, hpns, hplen, hpib, hpev⟩ :=
    promote_sem env map0 (operands.drop map0.numDims) hb hl2len.symm
  have hfur : decide (1 ≤ kMaxAffineApplyDepth) = true := by
    simp [kMaxAffineApplyDepth]
  have hnorm : normalize 1 map0 operands =
      if (composeLoop 1 map0.numDims
          (promoteComposedSymbolsAsDims map0 (operands.drop map0.numDims)).numDims
          true 0 operands [] ⟨[], []⟩).1.isEmpty
      then (promoteComposedSymbolsAsDims map0 (operands.drop map0.numDims),
        (composeLoop 1 map0.numDims
          (promoteComposedSymbolsAsDims map0 (operands.drop map0.numDims)).numDims
          true 0 operands [] ⟨[], []⟩).2)
      else (simplifyAffineMap ((promoteComposedSymbolsAsDims map0
          (operands.drop map0.numDims)).compose
        ⟨(composeLoop 1 map0.numDims (promoteComposedSymbolsAsDims map0
            (operands.drop map0.numDims)).numDims true 0 operands []
            ⟨[], []⟩).2.reorderedDims.length,
          (composeLoop 1 map0.numDims (promoteComposedSymbolsAsDims map0
            (operands.drop map0.numDims)).numDims true 0 operands []
            ⟨[], []⟩).2.concatenatedSymbols.length -
            (promoteComposedSymbolsAsDims map0
              (operands.drop map0.numDims)).numSymbols,
          (composeLoop 1 map0.numDims (promoteComposedSymbolsAsDims map0
            (operands.drop map0.numDims)).numDims true 0 operands []
            ⟨[], []⟩).1⟩),
        (composeLoop 1 map0.numDims (promoteComposedSymbolsAsDims map0
          (operands.drop map0.numDims)).numDims true 0 operands [] ⟨[], []⟩).2) := by
    unfold normalize
    simp only [hfur]
  obtain ⟨⟨ext, hre⟩, hempimp, hco, hinv⟩ :=
    composeLoopTrue_sem env 1 map0.numDims
      (promoteComposedSymbolsAsDims map0 (operands.drop map0.numDims)).numDims
      (le_refl 1) operands hwf 0 [] ⟨[], []⟩ [] (auxInv_nil env ⟨[], []⟩)
  obtain ⟨hilen, hibnd, hiev⟩ := hinv
  have hnilst : (⟨[], []⟩ : NormState).concatenatedSymbols = [] := rfl
  have hnilre : (⟨[], []⟩ : NormState).reorderedDims = [] := rfl
  rw [hnilre] at hre
  rw [hnilst] at hco
  simp only [List.nil_append] at hilen hibnd hiev hre hco hempimp
  have hsplit := List.take_append_drop map0.numDims operands
  have hDA : dispatchAux
      (fun i t => t.isApplyRes || decide (i < map0.numDims)) 0 operands =
      operands.take map0.numDims ++
        (operands.drop map0.numDims).filter Val.isApplyRes := by
    conv_lhs => rw [← hsplit]
    rw [dispatchAux_append]
    rw [dispatchA_low map0.numDims _ 0 (by rw [hl1len]; omega)]
    rw [dispatchA_high map0.numDims _ _ (by rw [hl1len]; omega)]
  have hDS : dispatchAux
      (fun i t => !(t.isApplyRes || decide (i < map0.numDims))) 0 operands =
      (operands.drop map0.numDims).filter (fun t => !t.isApplyRes) := by
    conv_lhs => rw [← hsplit]
    rw [dispatchAux_append]
    rw [dispatchS_low map0.numDims _ 0 (by rw [hl1len]; omega)]
    rw [dispatchS_high map0.numDims _ _ (by rw [hl1len]; omega)]
    simp
  rw [hDA] at hilen hiev hempimp
  rw [hDS] at hco
  have hfiltA : ((operands.drop map0.numDims).filter Val.isApplyRes).length =
      (operands.drop map0.numDims).countP Val.isApplyRes :=
    (List.countP_eq_length_filter _ _).symm
  have hfiltS : ((operands.drop map0.numDims).filter
      (fun t => !t.isApplyRes)).length =
      (operands.drop map0.numDims).countP (fun t => !t.isApplyRes) :=
    (List.countP_eq_length_filter _ _).symm
  have hq1len : (composeLoop 1 map0.numDims
      (promoteComposedSymbolsAsDims map0 (operands.drop map0.numDims)).numDims
      true 0 operands [] ⟨[], []⟩).1.length =
      map0.numDims +
        ((operands.drop map0.numDims).filter Val.isApplyRes).length := by
    rw [hilen, evalValList_length, List.length_append, hl1len]
  rw [hnorm]
  by_cases hemp : (composeLoop 1 map0.numDims
      (promoteComposedSymbolsAsDims map0 (operands.drop map0.numDims)).numDims
      true 0 operands [] ⟨[], []⟩).1.isEmpty
  · rw [if_pos hemp]
    have hz : map0.numDims +
        ((operands.drop map0.numDims).filter Val.isApplyRes).length = 0 := by
      rw [← hq1len]
      exact List.isEmpty_iff_length_eq_zero.mp hemp
    have hnd0 : map0.numDims = 0 := by omega
    have hfA : (operands.drop map0.numDims).filter Val.isApplyRes = [] :=
      List.eq_nil_of_length_eq_zero (by omega)
    have hl1nil : operands.take map0.numDims = [] := by
      apply List.eq_nil_of_length_eq_zero
      rw [hl1len, hnd0]
    have hreord : (composeLoop 1 map0.numDims
        (promoteComposedSymbolsAsDims map0 (operands.drop map0.numDims)).numDims
        true 0 operands [] ⟨[], []⟩).2.reorderedDims = [] := by
      apply hempimp
      rw [hl1nil, hfA]
      rfl
    have hnoapp : ∀ v ∈ operands.drop map0.numDims, ¬(v.isApplyRes = true) :=
      List.filter_eq_nil_iff.mp hfA
    have hfS : (operands.drop map0.numDims).filter (fun t => !t.isApplyRes) =
        operands.drop map0.numDims := by
      apply List.filter_eq_self.mpr
      intro v hv
      simp [hnoapp v hv]
    have hallops : operands.drop map0.numDims = operands := by
      rw [hnd0]
      rfl
    refine ⟨?_, ?_, hpib, hplen, ?_⟩
    · rw [hreord, hpnd]
      simp only [List.length_nil]
      omega
    · rw [hco, hfS, hpns, hfiltS.symm, hfS]
    · rw [hreord, hco, hfS, List.nil_append]
      have := hpev [] (by rw [hnd0]; rfl)
      rw [hfA, hfS] at this
      simpa [evalValList, hallops] using this
  · rw [if_neg hemp]
    have hconc : (composeLoop 1 map0.numDims
        (promoteComposedSymbolsAsDims map0 (operands.drop map0.numDims)).numDims
        true 0 operands [] ⟨[], []⟩).2.concatenatedSymbols =
        (operands.drop map0.numDims).filter (fun t => !t.isApplyRes) := hco
    have hgns : (composeLoop 1 map0.numDims
        (promoteComposedSymbolsAsDims map0 (operands.drop map0.numDims)).numDims
        true 0 operands [] ⟨[], []⟩).2.concatenatedSymbols.length -
        (promoteComposedSymbolsAsDims map0
          (operands.drop map0.numDims)).numSymbols = 0 := by
      rw [hconc, hpns, hfiltS]
      omega
    have hgeq : (⟨(composeLoop 1 map0.numDims
          (promoteComposedSymbolsAsDims map0 (operands.drop map0.numDims)).numDims
          true 0 operands [] ⟨[], []⟩).2.reorderedDims.length,
        (composeLoop 1 map0.numDims
          (promoteComposedSymbolsAsDims map0 (operands.drop map0.numDims)).numDims
          true 0 operands [] ⟨[], []⟩).2.concatenatedSymbols.length -
          (promoteComposedSymbolsAsDims map0
            (operands.drop map0.numDims)).numSymbols,
        (composeLoop 1 map0.numDims
          (promoteComposedSymbolsAsDims map0 (operands.drop map0.numDims)).numDims
          true 0 operands [] ⟨[], []⟩).1⟩ : AffineMap) =
        ⟨(composeLoop 1 map0.numDims
          (promoteComposedSymbolsAsDims map0 (operands.drop map0.numDims)).numDims
          true 0 operands [] ⟨[], []⟩).2.reorderedDims.length, 0,
        (composeLoop 1 map0.numDims
          (promoteComposedSymbolsAsDims map0 (operands.drop map0.numDims)).numDims
          true 0 operands [] ⟨[], []⟩).1⟩ := by
      rw [hgns]
    rw [hgeq]
    set q := composeLoop 1 map0.numDims
      (promoteComposedSymbolsAsDims map0 (operands.drop map0.numDims)).numDims
      true 0 operands [] ⟨[], []⟩ with hqdef
    set pm := promoteComposedSymbolsAsDims map0 (operands.drop map0.numDims)
      with hpmdef
    set g : AffineMap := ⟨q.2.reorderedDims.length, 0, q.1⟩ with hgdef
    have hginb : g.inBounds = true := by
      unfold AffineMap.inBounds
      rw [List.all_eq_true]
      intro e he
      obtain ⟨j, hj, rfl⟩ := List.mem_iff_getElem.mp he
      have := hibnd j hj
      rw [List.getD_eq_getElem _ _ hj] at this
      exact this
    have hfd : pm.numDims = g.results.length := by
      show pm.numDims = q.1.length
      rw [hq1len, hpnd, hfiltA]
    refine ⟨?_, ?_, ?_, ?_, ?_⟩
    · show (simplifyAffineMap _).numDims = _
      rw [simplifyAffineMap_numDims]
      rfl
    · show (simplifyAffineMap _).numSymbols = _
      rw [simplifyAffineMap_numSymbols]
      show pm.numSymbols + 0 = _
      rw [hconc, hpns, hfiltS]
      omega
    · exact simplifyAffineMap_inBounds _
        (compose_inBounds pm g hpib hginb (le_of_eq hfd))
    · rw [simplifyAffineMap_results_length, compose_results_length]
      exact hplen
    · rw [simplifyAffineMap_evalAt]
      rw [compose_evalAt_symfree pm g _ hpib hginb rfl hfd]
      rw [evalValList_append]
      have hdrop : (evalValList env q.2.reorderedDims ++
          evalValList env q.2.concatenatedSymbols).drop g.numDims =
          evalValList env q.2.concatenatedSymbols := by
        show (evalValList env q.2.reorderedDims ++
          evalValList env q.2.concatenatedSymbols).drop
            q.2.reorderedDims.length = _
        rw [← evalValList_length env q.2.reorderedDims]
        exact List.drop_left _ _
      rw [hdrop]
      have hgev : g.evalAt (evalValList env q.2.reorderedDims ++
          evalValList env q.2.concatenatedSymbols) =
          evalValList env (operands.take map0.numDims ++
            (operands.drop map0.numDims).filter Val.isApplyRes) := by
        apply list_eq_of_getD
        · rw [evalValList_length]
          show (g.results.map _).length = _
          rw [List.length_map]
          show q.1.length = _
          rw [hq1len]
          simp [hl1len]
        · intro i hi
          have hi' : i < g.results.length := by
            simpa [AffineMap.evalAt] using hi
          rw [evalAt_getD g _ i hi']
          have hconv : AffineExpr.eval
              (fun k => (evalValList env q.2.reorderedDims ++
                evalValList env q.2.concatenatedSymbols).getD k 0)
              (fun k => (evalValList env q.2.reorderedDims ++
                evalValList env q.2.concatenatedSymbols).getD (g.numDims + k) 0)
              (g.results.getD i (.const 0)) =
              AffineExpr.eval
                (fun k => (evalValList env q.2.reorderedDims).getD k 0)
                (fun k => (evalValList env q.2.reorderedDims ++
                  evalValList env q.2.concatenatedSymbols).getD
                    (g.numDims + k) 0)
                (g.results.getD i (.const 0)) := by
            apply AffineExpr.eval_congr _ (hibnd i hi')
            · intro k hk
              rw [List.getD_append _ _ _ _ (by
                rw [evalValList_length]
                exact hk)]
            · intro k hk
              exact absurd hk (Nat.not_lt_zero k)
          rw [hconv]
          exact hiev i hi' _
      rw [hgev, hconc]
      rw [evalValList_append]
      have := hpev (evalValList env (operands.take map0.numDims)) (by
        rw [evalValList_length, hl1len])
      rw [this]
      conv_rhs => rw [← hsplit]
      rw [evalValList_append]

theorem getD_take {α : Type} (l : List α) : ∀ (n i : Nat) (d : α), i < n →
    (l.take n).getD i d = l.getD i d := by
  induction l with
  | nil => intro n i d _; simp
  | cons v rest ih =>
    intro n i d h
    cases n with
    | zero => omega
    | succ n' =>
      cases i with
      | zero => simp
      | succ i' =>
        simp only [List.take_succ_cons, List.getD_cons_succ]
        exact ih n' i' d (by omega)

theorem getD_drop_gen {α : Type} (l : List α) : ∀ (n k : Nat) (d : α),
    (l.drop n).getD k d = l.getD (n + k) d := by
  induction l with
  | nil => intro n k d; simp
  | cons v rest ih =>
    intro n k d
    cases n with
    | zero => simp
    | succ m =>
      simp only [List.drop_succ_cons]
      rw [ih m]
      have h : m + 1 + k = (m + k) + 1 := by omega
      rw [h]
      simp

theorem usesDim_lt {nd ns : Nat} {e : AffineExpr} {i : Nat}
    (hb : e.inBounds nd ns = true) (hu : e.usesDim i = true) : i < nd := by
  induction e with
  | dim j =>
    simp only [AffineExpr.usesDim, decide_eq_true_eq] at hu
    simp only [AffineExpr.inBounds, decide_eq_true_eq] at hb
    omega
  | sym j => simp [AffineExpr.usesDim] at hu
  | const c => simp [AffineExpr.usesDim] at hu
  | add a b iha ihb =>
    simp only [AffineExpr.inBounds, Bool.and_eq_true] at hb
    simp only [AffineExpr.usesDim, Bool.or_eq_true] at hu
    rcases hu with h | h
    · exact iha hb.1 h
    · exact ihb hb.2 h
  | mul a b iha ihb =>
    simp only [AffineExpr.inBounds, Bool.and_eq_true] at hb
    simp only [AffineExpr.usesDim, Bool.or_eq_true] at hu
    rcases hu with h | h
    · exact iha hb.1 h
    · exact ihb hb.2 h
  | floordiv a b iha ihb =>
    simp only [AffineExpr.inBounds, Bool.and_eq_true] at hb
    simp only [AffineExpr.usesDim, Bool.or_eq_true] at hu
    rcases hu with h | h
    · exact iha hb.1 h
    · exact ihb hb.2 h
  | ceildiv a b iha ihb =>
    simp only [AffineExpr.inBounds, Bool.and_eq_true] at hb
    simp only [AffineExpr.usesDim, Bool.or_eq_true] at hu
    rcases hu with h | h
    · exact iha hb.1 h
    · exact ihb hb.2 h
  | mod a b iha ihb =>
    simp only [AffineExpr.inBounds, Bool.and_eq_true] at hb
    simp only [AffineExpr.usesDim, Bool.or_eq_true] at hu
    rcases hu with h | h
    · exact iha hb.1 h
    · exact ihb hb.2 h

theorem usesSym_lt {nd ns : Nat} {e : AffineExpr} {i : Nat}
    (hb : e.inBounds nd ns = true) (hu : e.usesSym i = true) : i < ns := by
  induction e with
  | dim j => simp [AffineExpr.usesSym] at hu
  | sym j =>
    simp only [AffineExpr.usesSym, decide_eq_true_eq] at hu
    simp only [AffineExpr.inBounds, decide_eq_true_eq] at hb
    omega
  | const c => simp [AffineExpr.usesSym] at hu
  | add a b iha ihb =>
    simp only [AffineExpr.inBounds, Bool.and_eq_true] at hb
    simp only [AffineExpr.usesSym, Bool.or_eq_true] at hu
    rcases hu with h | h
    · exact iha hb.1 h
    · exact ihb hb.2 h
  | mul a b iha ihb =>
    simp only [AffineExpr.inBounds, Bool.and_eq_true] at hb
    simp only [AffineExpr.usesSym, Bool.or_eq_true] at hu
    rcases hu with h | h
    · exact iha hb.1 h
    · exact ihb hb.2 h
  | floordiv a b iha ihb =>
    simp only [AffineExpr.inBounds, Bool.and_eq_true] at hb
    simp only [AffineExpr.usesSym, Bool.or_eq_true] at hu
    rcases hu with h | h
    · exact iha hb.1 h
    · exact ihb hb.2 h
  | ceildiv a b iha ihb =>
    simp only [AffineExpr.inBounds, Bool.and_eq_true] at hb
    simp only [AffineExpr.usesSym, Bool.or_eq_true] at hu
    rcases hu with h | h
    · exact iha hb.1 h
    · exact ihb hb.2 h
  | mod a b iha ihb =>
    simp only [AffineExpr.inBounds, Bool.and_eq_true] at hb
    simp only [AffineExpr.usesSym, Bool.or_eq_true] at hu
    rcases hu with h | h
    · exact iha hb.1 h
    · exact ihb hb.2 h

theorem AffineExpr.inBounds_replace_uses {nd' ns' : Nat}
    (dr sr : List AffineExpr) (e : AffineExpr)
    (hdr : ∀ i, e.usesDim i = true → (dr.getD i (.dim i)).inBounds nd' ns' = true)
    (hsr : ∀ j, e.usesSym j = true → (sr.getD j (.sym j)).inBounds nd' ns' = true) :
    (e.replaceDimsAndSymbols dr sr).inBounds nd' ns' = true := by
  induction e with
  | dim i => exact hdr i (by simp [AffineExpr.usesDim])
  | sym j => exact hsr j (by simp [AffineExpr.usesSym])
  | const c => simp [AffineExpr.replaceDimsAndSymbols, AffineExpr.inBounds]
  | add a b iha ihb =>
    simp only [AffineExpr.replaceDimsAndSymbols, AffineExpr.inBounds,
      Bool.and_eq_true]
    exact ⟨iha (fun i h => hdr i (by simp [AffineExpr.usesDim, h]))
        (fun j h => hsr j (by simp [AffineExpr.usesSym, h])),
      ihb (fun i h => hdr i (by simp [AffineExpr.usesDim, h]))
        (fun j h => hsr j (by simp [AffineExpr.usesSym, h]))⟩
  | mul a b iha ihb =>
    simp only [AffineExpr.replaceDimsAndSymbols, AffineExpr.inBounds,
      Bool.and_eq_true]
    exact ⟨iha (fun i h => hdr i (by simp [AffineExpr.usesDim, h]))
        (fun j h => hsr j (by simp [AffineExpr.usesSym, h])),
      ihb (fun i h => hdr i (by simp [AffineExpr.usesDim, h]))
        (fun j h => hsr j (by simp [AffineExpr.usesSym, h]))⟩
  | floordiv a b iha ihb =>
    simp only [AffineExpr.replaceDimsAndSymbols, AffineExpr.inBounds,
      Bool.and_eq_true]
    exact ⟨iha (fun i h => hdr i (by simp [AffineExpr.usesDim, h]))
        (fun j h => hsr j (by simp [AffineExpr.usesSym, h])),
      ihb (fun i h => hdr i (by simp [AffineExpr.usesDim, h]))
        (fun j h => hsr j (by simp [AffineExpr.usesSym, h]))⟩
  | ceildiv a b iha ihb =>
    simp only [AffineExpr.replaceDimsAndSymbols, AffineExpr.inBounds,
      Bool.and_eq_true]
    exact ⟨iha (fun i h => hdr i (by simp [AffineExpr.usesDim, h]))
        (fun j h => hsr j (by simp [AffineExpr.usesSym, h])),
      ihb (fun i h => hdr i (by simp [AffineExpr.usesDim, h]))
        (fun j h => hsr j (by simp [AffineExpr.usesSym, h]))⟩
  | mod a b iha ihb =>
    simp only [AffineExpr.replaceDimsAndSymbols, AffineExpr.inBounds,
      Bool.and_eq_true]
    exact ⟨iha (fun i h => hdr i (by simp [AffineExpr.usesDim, h]))
        (fun j h => hsr j (by simp [AffineExpr.usesSym, h])),
      ihb (fun i h => hdr i (by simp [AffineExpr.usesDim, h]))
        (fun j h => hsr j (by simp [AffineExpr.usesSym, h]))⟩

theorem canonPromoteLoop_spec (oldS : Nat) (l : List Val) :
    ∀ nd0 ns0 : Nat,
    (canonPromoteLoop oldS l nd0 ns0).1.length = l.length ∧
    (canonPromoteLoop oldS l nd0 ns0).2.1 =
      l.filter (fun v => !isValidSymbol v) ∧
    (canonPromoteLoop oldS l nd0 ns0).2.2.1 =
      l.filter (fun v => isValidSymbol v) ∧
    (canonPromoteLoop oldS l nd0 ns0).2.2.2.1 =
      nd0 + l.countP (fun v => !isValidSymbol v) ∧
    (canonPromoteLoop oldS l nd0 ns0).2.2.2.2 =
      ns0 + l.countP (fun v => isValidSymbol v) ∧
    ∀ i < l.length,
      (canonPromoteLoop oldS l nd0 ns0).1.getD i (.const 0) =
        if isValidSymbol (l.getD i default) then
          .sym (oldS + ns0 + (l.take i).countP (fun v => isValidSymbol v))
        else .dim (nd0 + (l.take i).countP (fun v => !isValidSymbol v)) := by
  induction l with
  | nil =>
    intro nd0 ns0
    exact ⟨rfl, rfl, rfl, by simp [canonPromoteLoop], by simp [canonPromoteLoop],
      by intro i hi; simp at hi⟩
  | cons v rest ih =>
    intro nd0 ns0
    by_cases hv : isValidSymbol v = true
    · have hunf : canonPromoteLoop oldS (v :: rest) nd0 ns0 =
          (AffineExpr.sym (oldS + ns0) ::
            (canonPromoteLoop oldS rest nd0 (ns0 + 1)).1,
            (canonPromoteLoop oldS rest nd0 (ns0 + 1)).2.1,
            v :: (canonPromoteLoop oldS rest nd0 (ns0 + 1)).2.2.1,
            (canonPromoteLoop oldS rest nd0 (ns0 + 1)).2.2.2) := by
        simp [canonPromoteLoop, hv]
      obtain ⟨ihl, ihk, ihp, ihd, ihs, ihspec⟩ := ih nd0 (ns0 + 1)
      rw [hunf]
      refine ⟨by simp [ihl], ?_, ?_, ?_, ?_, ?_⟩
      · show (canonPromoteLoop oldS rest nd0 (ns0 + 1)).2.1 = _
        rw [ihk, List.filter_cons_of_neg (by simp [hv])]
      · show v :: (canonPromoteLoop oldS rest nd0 (ns0 + 1)).2.2.1 = _
        rw [ihp, List.filter_cons_of_pos (by simp [hv])]
      · show (canonPromoteLoop oldS rest nd0 (ns0 + 1)).2.2.2.1 = _
        rw [ihd, List.countP_cons]
        simp [hv]
      · show (canonPromoteLoop oldS rest nd0 (ns0 + 1)).2.2.2.2 = _
        rw [ihs, List.countP_cons]
        simp [hv]
        omega
      · intro i hi
        cases i with
        | zero => simp [hv]
        | succ i' =>
          have hi' : i' < rest.length := by simpa using hi
          have := ihspec i' hi'
          simp only [List.getD_cons_succ, List.take_succ_cons, List.countP_cons]
          rw [this]
          by_cases hri : isValidSymbol (rest.getD i' default) = true
          · rw [if_pos hri, if_pos hri]
            simp [hv]
            omega
          · rw [if_neg hri, if_neg hri]
            simp [hv]
    · have hv' : isValidSymbol v = false := by simpa using hv
      have hunf : canonPromoteLoop oldS (v :: rest) nd0 ns0 =
          (AffineExpr.dim nd0 :: (canonPromoteLoop oldS rest (nd0 + 1) ns0).1,
            v :: (canonPromoteLoop oldS rest (nd0 + 1) ns0).2.1,
            (canonPromoteLoop oldS rest (nd0 + 1) ns0).2.2.1,
            (canonPromoteLoop oldS rest (nd0 + 1) ns0).2.2.2) := by
        simp [canonPromoteLoop, hv']
      obtain ⟨ihl, ihk, ihp, ihd, ihs, ihspec⟩ := ih (nd0 + 1) ns0
      rw [hunf]
      refine ⟨by simp [ihl], ?_, ?_, ?_, ?_, ?_⟩
      · show v :: (canonPromoteLoop oldS rest (nd0 + 1) ns0).2.1 = _
        rw [ihk, List.filter_cons_of_pos (by simp [hv'])]
      · show (canonPromoteLoop oldS rest (nd0 + 1) ns0).2.2.1 = _
        rw [ihp, List.filter_cons_of_neg (by simp [hv'])]
      · show (canonPromoteLoop oldS rest (nd0 + 1) ns0).2.2.2.1 = _
        rw [ihd, List.countP_cons]
        simp [hv']
        omega
      · show (canonPromoteLoop oldS rest (nd0 + 1) ns0).2.2.2.2 = _
        rw [ihs, List.countP_cons]
        simp [hv']
      · intro i hi
        cases i with
        | zero => simp [hv']
        | succ i' =>
          have hi' : i' < rest.length := by simpa using hi
          have := ihspec i' hi'
          simp only [List.getD_cons_succ, List.take_succ_cons, List.countP_cons]
          rw [this]
          by_cases hri : isValidSymbol (rest.getD i' default) = true
          · rw [if_pos hri, if_pos hri]
            simp [hv']
          · rw [if_neg hri, if_neg hri]
            simp [hv']
            omega

theorem getD_append_right_gen {α : Type} (A B : List α) (j : Nat) (d : α) :
    (A ++ B).getD (A.length + j) d = B.getD j d := by
  rw [← getD_drop_gen, List.drop_left]

theorem canonicalizePromotedSymbols_sem (env : Nat → Int) (map1 : AffineMap)
    (ops1 : List Val) (hlen : ops1.length = map1.numInputs)
    (hib : map1.inBounds = true) :
    (canonicalizePromotedSymbols map1 ops1).2.length =
      (canonicalizePromotedSymbols map1 ops1).1.numInputs ∧
    (canonicalizePromotedSymbols map1 ops1).1.inBounds = true ∧
    (canonicalizePromotedSymbols map1 ops1).1.results.length =
      map1.results.length ∧
    (canonicalizePromotedSymbols map1 ops1).1.evalAt
        (evalValList env (canonicalizePromotedSymbols map1 ops1).2) =
      map1.evalAt (evalValList env ops1) := by
  have hni : map1.numDims + map1.numSymbols = ops1.length := hlen.symm
  by_cases hemp : ops1.isEmpty
  · have hunf : canonicalizePromotedSymbols map1 ops1 = (map1, ops1) := by
      rw [canonicalizePromotedSymbols, if_pos hemp]
    rw [hunf]
    exact ⟨hlen, hib, rfl, rfl⟩
  · have hunf : canonicalizePromotedSymbols map1 ops1 =
        (map1.replaceDimsAndSymbols
          (canonPromoteLoop map1.numSymbols (ops1.take map1.numDims) 0 0).1 []
          (canonPromoteLoop map1.numSymbols (ops1.take map1.numDims) 0 0).2.2.2.1
          (map1.numSymbols +
            (canonPromoteLoop map1.numSymbols
              (ops1.take map1.numDims) 0 0).2.2.2.2),
         (canonPromoteLoop map1.numSymbols (ops1.take map1.numDims) 0 0).2.1 ++
           ops1.drop map1.numDims ++
           (canonPromoteLoop map1.numSymbols
             (ops1.take map1.numDims) 0 0).2.2.1) := by
      rw [canonicalizePromotedSymbols, if_neg (by simp [hemp])]
    rw [hunf]
    obtain ⟨hql, hqk, hqp, hqd, hqs, hqspec⟩ :=
      canonPromoteLoop_spec map1.numSymbols (ops1.take map1.numDims) 0 0
    set q0 := canonPromoteLoop map1.numSymbols (ops1.take map1.numDims) 0 0
      with hq0def
    have hdlen : (ops1.take map1.numDims).length = map1.numDims := by
      rw [List.length_take]
      omega
    have hslen : (ops1.drop map1.numDims).length = map1.numSymbols := by
      rw [List.length_drop]
      omega
    have hKDlen : q0.2.1.length =
        (ops1.take map1.numDims).countP (fun v => !isValidSymbol v) := by
      rw [hqk]
      exact (List.countP_eq_length_filter _ _).symm
    have hPVlen : q0.2.2.1.length =
        (ops1.take map1.numDims).countP (fun v => isValidSymbol v) := by
      rw [hqp]
      exact (List.countP_eq_length_filter _ _).symm
    refine ⟨?_, ?_, ?_, ?_⟩
    · show (q0.2.1 ++ ops1.drop map1.numDims ++ q0.2.2.1).length =
        q0.2.2.2.1 + (map1.numSymbols + q0.2.2.2.2)
      simp only [List.length_append]
      omega
    · show (map1.results.map _).all _ = true
      rw [List.all_eq_true]
      intro e' he'
      obtain ⟨e0, he0, rfl⟩ := List.mem_map.mp he'
      have hsA : (map1.replaceDimsAndSymbols q0.1 [] q0.2.2.2.1
          (map1.numSymbols + q0.2.2.2.2)).numSymbols =
          map1.numSymbols + q0.2.2.2.2 := rfl
      have hsB : (map1.replaceDimsAndSymbols q0.1 [] q0.2.2.2.1
          (map1.numSymbols + q0.2.2.2.2)).numDims = q0.2.2.2.1 := rfl
      apply AffineExpr.inBounds_replace_used _ _ e0
        (List.all_eq_true.mp hib e0 he0)
      · intro i hi
        have hi' : i < (ops1.take map1.numDims).length := by omega
        rw [getD_default_irrel _ i (by omega) _ (.const 0), hqspec i hi']
        by_cases hvi : isValidSymbol ((ops1.take map1.numDims).getD i default) = true
        · rw [if_pos hvi]
          simp only [AffineExpr.inBounds, decide_eq_true_eq]
          have := countP_take_lt (fun v => isValidSymbol v)
            (ops1.take map1.numDims) i hi' (by exact hvi)
          omega
        · rw [if_neg hvi]
          simp only [AffineExpr.inBounds, decide_eq_true_eq]
          have hvi2 : isValidSymbol ((ops1.take map1.numDims).getD i default) =
              false := by simpa using hvi
          have := countP_take_lt (fun v => !isValidSymbol v)
            (ops1.take map1.numDims) i hi'
            (by show (!isValidSymbol
                  ((ops1.take map1.numDims).getD i default)) = true
                rw [hvi2]
                rfl)
          omega
      · intro j hj
        simp only [List.getD_nil]
        simp only [AffineExpr.inBounds, decide_eq_true_eq]
        omega
    · show (map1.results.map _).length = _
      simp
    · show List.map _ (List.map _ map1.results) = List.map _ map1.results
      rw [List.map_map]
      apply List.map_congr_left
      intro e0 he0
      show ((e0.replaceDimsAndSymbols _ _).eval _ _) = _
      rw [AffineExpr.eval_replace]
      apply AffineExpr.eval_congr _ (List.all_eq_true.mp hib e0 he0)
      · intro i hi
        have hi' : i < (ops1.take map1.numDims).length := by omega
        have hRHS : (evalValList env ops1).getD i 0 =
            evalVal env ((ops1.take map1.numDims).getD i default) := by
          rw [evalValList_getD _ _ i (by omega), getD_take ops1 map1.numDims i default hi]
        rw [getD_default_irrel _ i (by omega) _ (.const 0), hqspec i hi',
          hRHS]
        by_cases hvi : isValidSymbol ((ops1.take map1.numDims).getD i default) = true
        · rw [if_pos hvi]
          show AffineExpr.eval _ _ (.sym _) = _
          simp only [AffineExpr.eval]
          have hc := countP_take_lt (fun v => isValidSymbol v)
            (ops1.take map1.numDims) i hi' (by exact hvi)
          rw [evalValList_append, evalValList_append]
          have hnd' : (map1.replaceDimsAndSymbols q0.1 [] q0.2.2.2.1
              (map1.numSymbols + q0.2.2.2.2)).numDims = q0.2.2.2.1 := rfl
          rw [hnd']
          have hix : q0.2.2.2.1 + (map1.numSymbols + 0 +
              ((ops1.take map1.numDims).take i).countP
                (fun v => isValidSymbol v)) =
              (evalValList env q0.2.1 ++
                evalValList env (ops1.drop map1.numDims)).length +
              ((ops1.take map1.numDims).take i).countP
                (fun v => isValidSymbol v) := by
            simp only [List.length_append, evalValList_length]
            omega
          rw [hix, getD_append_right_gen]
          rw [evalValList_getD _ _ _ (by rw [hPVlen] at *; omega)]
          rw [hqp, filter_getD_count (fun v => isValidSymbol v)
            (ops1.take map1.numDims) i hi' (by exact hvi)]
        · rw [if_neg hvi]
          show AffineExpr.eval _ _ (.dim _) = _
          simp only [AffineExpr.eval, Nat.zero_add]
          have hvi2 : isValidSymbol ((ops1.take map1.numDims).getD i default) =
              false := by simpa using hvi
          have hc := countP_take_lt (fun v => !isValidSymbol v)
            (ops1.take map1.numDims) i hi'
            (by show (!isValidSymbol
                  ((ops1.take map1.numDims).getD i default)) = true
                rw [hvi2]
                rfl)
          rw [evalValList_append, evalValList_append]
          rw [List.getD_append _ _ _ _ (by
            simp only [List.length_append, evalValList_length]
            omega)]
          rw [List.getD_append _ _ _ _ (by
            rw [evalValList_length]
            omega)]
          rw [evalValList_getD _ _ _ (by omega)]
          rw [hqk, filter_getD_count (fun v => !isValidSymbol v)
            (ops1.take map1.numDims) i hi'
            (by show (!isValidSymbol
                  ((ops1.take map1.numDims).getD i default)) = true
                rw [hvi2]
                rfl)]
      · intro j hj
        simp only [List.getD_nil]
        show AffineExpr.eval _ _ (.sym j) = _
        simp only [AffineExpr.eval]
        have hnd' : (map1.replaceDimsAndSymbols q0.1 [] q0.2.2.2.1
            (map1.numSymbols + q0.2.2.2.2)).numDims = q0.2.2.2.1 := rfl
        rw [hnd']
        rw [evalValList_append, evalValList_append]
        have hix : q0.2.2.2.1 + j = (evalValList env q0.2.1).length + j := by
          rw [evalValList_length]
          omega
        rw [hix]
        rw [List.getD_append _ _ _ _ (by
          simp only [List.length_append, evalValList_length]
          omega)]
        rw [getD_append_right_gen]
        rw [evalValList_getD _ _ _ (by omega)]
        rw [getD_drop_gen]
        rw [evalValList_getD _ _ _ (by omega)]

theorem assocLookup_mem (v : Val) (e : AffineExpr) :
    ∀ seen : List (Val × AffineExpr),
    assocLookup seen v = some e → (v, e) ∈ seen := by
  intro seen
  induction seen with
  | nil => intro h; simp [assocLookup] at h
  | cons we rest ih =>
    intro h
    match we with
    | (w, e') =>
      by_cases hw : w = v
      · rw [assocLookup, if_pos hw] at h
        simp only [Option.some.injEq] at h
        subst h
        subst hw
        exact List.mem_cons_self _ _
      · rw [assocLookup, if_neg hw] at h
        exact List.mem_cons_of_mem _ (ih h)

theorem canonRemapLoop_sem (usedF : Nat → Bool) (mk : Nat → AffineExpr)
    (l : List Val) :
    ∀ (i0 : Nat) (K : List Val) (seen : List (Val × AffineExpr)),
    (∀ ve ∈ seen, ∃ p, p < K.length ∧ ve.2 = mk p ∧ K.getD p default = ve.1) →
    (canonRemapLoop usedF mk l i0 K.length seen).2.2 =
      K.length + (canonRemapLoop usedF mk l i0 K.length seen).2.1.length ∧
    (canonRemapLoop usedF mk l i0 K.length seen).1.length = l.length ∧
    (∀ j < l.length, usedF (i0 + j) = true →
      ∃ p, p < (K ++ (canonRemapLoop usedF mk l i0 K.length seen).2.1).length ∧
        (canonRemapLoop usedF mk l i0 K.length seen).1.getD j (.const 0) = mk p ∧
        (K ++ (canonRemapLoop usedF mk l i0 K.length seen).2.1).getD p default =
          l.getD j default) := by
  induction l with
  | nil =>
    intro i0 K seen _
    refine ⟨by simp [canonRemapLoop], by simp [canonRemapLoop], ?_⟩
    intro j hj
    simp at hj
  | cons v rest ih =>
    intro i0 K seen hseen
    by_cases hu : usedF i0 = true
    · cases hfind : assocLookup seen v with
      | some e =>
        have hunf : canonRemapLoop usedF mk (v :: rest) i0 K.length seen =
            (e :: (canonRemapLoop usedF mk rest (i0 + 1) K.length seen).1,
              (canonRemapLoop usedF mk rest (i0 + 1) K.length seen).2) := by
          rw [canonRemapLoop, hfind, if_pos hu]
        obtain ⟨ihc, ihl, ihs⟩ := ih (i0 + 1) K seen hseen
        rw [hunf]
        obtain ⟨p0, hp0, he0, hg0⟩ := hseen (v, e) (assocLookup_mem v e seen hfind)
        refine ⟨ihc, by simp [ihl], ?_⟩
        intro j hj huj
        cases j with
        | zero =>
          refine ⟨p0, by simp; omega, by simpa using he0, ?_⟩
          rw [List.getD_append _ _ _ _ hp0]
          simpa using hg0
        | succ j' =>
          have hj' : j' < rest.length := by simpa using hj
          have huj' : usedF (i0 + 1 + j') = true := by
            have : i0 + 1 + j' = i0 + (j' + 1) := by omega
            rw [this]
            exact huj
          obtain ⟨p, hp1, hp2, hp3⟩ := ihs j' hj' huj'
          exact ⟨p, hp1, by simpa using hp2, by simpa using hp3⟩
      | none =>
        have hunf : canonRemapLoop usedF mk (v :: rest) i0 K.length seen =
            (mk K.length ::
              (canonRemapLoop usedF mk rest (i0 + 1) (K.length + 1)
                ((v, mk K.length) :: seen)).1,
              v :: (canonRemapLoop usedF mk rest (i0 + 1) (K.length + 1)
                ((v, mk K.length) :: seen)).2.1,
              (canonRemapLoop usedF mk rest (i0 + 1) (K.length + 1)
                ((v, mk K.length) :: seen)).2.2) := by
          rw [canonRemapLoop, hfind, if_pos hu]
        have hseen' : ∀ ve ∈ ((v, mk K.length) :: seen), ∃ p,
            p < (K ++ [v]).length ∧ ve.2 = mk p ∧
            (K ++ [v]).getD p default = ve.1 := by
          intro ve hve
          rcases List.mem_cons.mp hve with h | h
          · subst h
            exact ⟨K.length, by simp, rfl, getD_append_len K v default⟩
          · obtain ⟨p, hp1, hp2, hp3⟩ := hseen ve h
            exact ⟨p, by simp; omega, hp2,
              by rw [List.getD_append _ _ _ _ hp1]; exact hp3⟩
        have hKl : (K ++ [v]).length = K.length + 1 := by simp
        obtain ⟨ihc, ihl, ihs⟩ := ih (i0 + 1) (K ++ [v])
          ((v, mk K.length) :: seen) hseen'
        rw [hKl] at ihc ihl ihs
        rw [hunf]
        refine ⟨?_, by simp [ihl], ?_⟩
        · show (canonRemapLoop usedF mk rest (i0 + 1) (K.length + 1)
              ((v, mk K.length) :: seen)).2.2 = _
          rw [ihc]
          simp
          omega
        · intro j hj huj
          have hsplit : K ++ v :: (canonRemapLoop usedF mk rest (i0 + 1)
              (K.length + 1) ((v, mk K.length) :: seen)).2.1 =
              (K ++ [v]) ++ (canonRemapLoop usedF mk rest (i0 + 1)
                (K.length + 1) ((v, mk K.length) :: seen)).2.1 := by
            rw [List.append_cons]
          cases j with
          | zero =>
            refine ⟨K.length, by simp, rfl, ?_⟩
            rw [hsplit, List.getD_append _ _ _ _ (by simp)]
            rw [getD_append_len]
            rfl
          | succ j' =>
            have hj' : j' < rest.length := by simpa using hj
            have huj' : usedF (i0 + 1 + j') = true := by
              have : i0 + 1 + j' = i0 + (j' + 1) := by omega
              rw [this]
              exact huj
            obtain ⟨p, hp1, hp2, hp3⟩ := ihs j' hj' huj'
            refine ⟨p, ?_, by simpa using hp2, ?_⟩
            · rw [hsplit]
              simpa using hp1
            · rw [hsplit]
              simpa using hp3
    · have hu' : usedF i0 = false := by simpa using hu
      have hunf : canonRemapLoop usedF mk (v :: rest) i0 K.length seen =
          (AffineExpr.sym 999999 ::
            (canonRemapLoop usedF mk rest (i0 + 1) K.length seen).1,
            (canonRemapLoop usedF mk rest (i0 + 1) K.length seen).2) := by
        rw [canonRemapLoop, if_neg (by simp [hu'])]
      obtain ⟨ihc, ihl, ihs⟩ := ih (i0 + 1) K seen hseen
      rw [hunf]
      refine ⟨ihc, by simp [ihl], ?_⟩
      intro j hj huj
      cases j with
      | zero => exact absurd (by simpa using huj) (by simp [hu'])
      | succ j' =>
        have hj' : j' < rest.length := by simpa using hj
        have huj' : usedF (i0 + 1 + j') = true := by
          have : i0 + 1 + j' = i0 + (j' + 1) := by omega
          rw [this]
          exact huj
        obtain ⟨p, hp1, hp2, hp3⟩ := ihs j' hj' huj'
        exact ⟨p, hp1, by simpa using hp2, by simpa using hp3⟩

theorem canonicalizeMapAndOperands_sem (env : Nat → Int) (map : AffineMap)
    (ops : List Val) (hlen : ops.length = map.numInputs)
    (hib : map.inBounds = true) :
    (canonicalizeMapAndOperands map ops).2.length =
      (canonicalizeMapAndOperands map ops).1.numInputs ∧
    (canonicalizeMapAndOperands map ops).1.inBounds = true ∧
    (canonicalizeMapAndOperands map ops).1.results.length =
      map.results.length ∧
    (canonicalizeMapAndOperands map ops).1.evalAt
        (evalValList env (canonicalizeMapAndOperands map ops).2) =
      map.evalAt (evalValList env ops) := by
  by_cases hemp : ops.isEmpty
  · have hunf : canonicalizeMapAndOperands map ops = (map, ops) := by
      rw [canonicalizeMapAndOperands, if_pos hemp]
    rw [hunf]
    exact ⟨hlen, hib, rfl, rfl⟩
  · have hunf : canonicalizeMapAndOperands map ops =
        ((canonicalizePromotedSymbols map ops).1.replaceDimsAndSymbols
          (canonRemapLoop
            (fun i => (canonicalizePromotedSymbols map ops).1.results.any
              (fun e => e.usesDim i)) AffineExpr.dim
            ((canonicalizePromotedSymbols map ops).2.take
              (canonicalizePromotedSymbols map ops).1.numDims) 0 0 []).1
          (canonRemapLoop
            (fun j => (canonicalizePromotedSymbols map ops).1.results.any
              (fun e => e.usesSym j)) AffineExpr.sym
            ((canonicalizePromotedSymbols map ops).2.drop
              (canonicalizePromotedSymbols map ops).1.numDims) 0 0 []).1
          (canonRemapLoop
            (fun i => (canonicalizePromotedSymbols map ops).1.results.any
              (fun e => e.usesDim i)) AffineExpr.dim
            ((canonicalizePromotedSymbols map ops).2.take
              (canonicalizePromotedSymbols map ops).1.numDims) 0 0 []).2.2
          (canonRemapLoop
            (fun j => (canonicalizePromotedSymbols map ops).1.results.any
              (fun e => e.usesSym j)) AffineExpr.sym
            ((canonicalizePromotedSymbols map ops).2.drop
              (canonicalizePromotedSymbols map ops).1.numDims) 0 0 []).2.2,
         (canonRemapLoop
            (fun i => (canonicalizePromotedSymbols map ops).1.results.any
              (fun e => e.usesDim i)) AffineExpr.dim
            ((canonicalizePromotedSymbols map ops).2.take
              (canonicalizePromotedSymbols map ops).1.numDims) 0 0 []).2.1 ++
         (canonRemapLoop
            (fun j => (canonicalizePromotedSymbols map ops).1.results.any
              (fun e => e.usesSym j)) AffineExpr.sym
            ((canonicalizePromotedSymbols map ops).2.drop
              (canonicalizePromotedSymbols map ops).1.numDims) 0 0 []).2.1) := by
      rw [canonicalizeMapAndOperands, if_neg (by simp [hemp])]
    obtain ⟨hplen, hpib, hpres, hpev⟩ :=
      canonicalizePromotedSymbols_sem env map ops hlen hib
    rw [hunf]
    set p1 := canonicalizePromotedSymbols map ops with hp1def
    have hni1 : p1.1.numDims + p1.1.numSymbols = p1.2.length := hplen.symm
    have hd1 : (p1.2.take p1.1.numDims).length = p1.1.numDims := by
      rw [List.length_take]
      omega
    have hs1 : (p1.2.drop p1.1.numDims).length = p1.1.numSymbols := by
      rw [List.length_drop]
      omega
    have hremd := canonRemapLoop_sem
      (fun i => p1.1.results.any (fun e => e.usesDim i)) AffineExpr.dim
      (p1.2.take p1.1.numDims) 0 [] [] (by intro ve hve; simp at hve)
    have hrems := canonRemapLoop_sem
      (fun j => p1.1.results.any (fun e => e.usesSym j)) AffineExpr.sym
      (p1.2.drop p1.1.numDims) 0 [] [] (by intro ve hve; simp at hve)
    simp only [List.length_nil, List.nil_append] at hremd hrems
    obtain ⟨hdc, hdl, hdspec⟩ := hremd
    obtain ⟨hsc, hsl, hsspec⟩ := hrems
    simp only [Nat.zero_add] at hdc hsc hdspec hsspec
    set qd := canonRemapLoop
      (fun i => p1.1.results.any (fun e => e.usesDim i)) AffineExpr.dim
      (p1.2.take p1.1.numDims) 0 0 [] with hqddef
    set qs := canonRemapLoop
      (fun j => p1.1.results.any (fun e => e.usesSym j)) AffineExpr.sym
      (p1.2.drop p1.1.numDims) 0 0 [] with hqsdef
    have hndout : (p1.1.replaceDimsAndSymbols qd.1 qs.1 qd.2.2 qs.2.2).numDims =
        qd.2.2 := rfl
    have hnsout : (p1.1.replaceDimsAndSymbols qd.1 qs.1 qd.2.2 qs.2.2).numSymbols =
        qs.2.2 := rfl
    refine ⟨?_, ?_, ?_, ?_⟩
    · show (qd.2.1 ++ qs.2.1).length = qd.2.2 + qs.2.2
      simp only [List.length_append]
      omega
    · show (p1.1.results.map _).all _ = true
      rw [List.all_eq_true]
      intro e' he'
      obtain ⟨e0, he0, rfl⟩ := List.mem_map.mp he'
      apply AffineExpr.inBounds_replace_uses _ _ e0
      · intro i hui
        have hi1 : i < p1.1.numDims :=
          usesDim_lt (List.all_eq_true.mp hpib e0 he0) hui
        have hused : (fun i => p1.1.results.any (fun e => e.usesDim i)) i = true := by
          show p1.1.results.any _ = true
          rw [List.any_eq_true]
          exact ⟨e0, he0, hui⟩
        obtain ⟨p, hp1, hp2, hp3⟩ := hdspec i (by omega) hused
        rw [getD_default_irrel _ i (by omega) _ (.const 0), hp2]
        simp only [AffineExpr.inBounds, decide_eq_true_eq]
        rw [hndout]
        omega
      · intro j huj
        have hj1 : j < p1.1.numSymbols :=
          usesSym_lt (List.all_eq_true.mp hpib e0 he0) huj
        have hused : (fun j => p1.1.results.any (fun e => e.usesSym j)) j = true := by
          show p1.1.results.any _ = true
          rw [List.any_eq_true]
          exact ⟨e0, he0, huj⟩
        obtain ⟨p, hp1, hp2, hp3⟩ := hsspec j (by omega) hused
        rw [getD_default_irrel _ j (by omega) _ (.const 0), hp2]
        simp only [AffineExpr.inBounds, decide_eq_true_eq]
        rw [hnsout]
        omega
    · show (p1.1.results.map _).length = _
      rw [List.length_map]
      exact hpres
    · have hstep : (p1.1.replaceDimsAndSymbols qd.1 qs.1 qd.2.2 qs.2.2).evalAt
          (evalValList env (qd.2.1 ++ qs.2.1)) =
          p1.1.evalAt (evalValList env p1.2) := by
        show List.map _ (List.map _ p1.1.results) = List.map _ p1.1.results
        rw [List.map_map]
        apply List.map_congr_left
        intro e0 he0
        show ((e0.replaceDimsAndSymbols _ _).eval _ _) = _
        rw [AffineExpr.eval_replace]
        apply AffineExpr.eval_congr_used e0
        · intro i hui
          have hi1 : i < p1.1.numDims :=
            usesDim_lt (List.all_eq_true.mp hpib e0 he0) hui
          have hused : (fun i => p1.1.results.any (fun e => e.usesDim i)) i =
              true := by
            show p1.1.results.any _ = true
            rw [List.any_eq_true]
            exact ⟨e0, he0, hui⟩
          obtain ⟨p, hp1, hp2, hp3⟩ := hdspec i (by omega) hused
          rw [getD_default_irrel _ i (by omega) _ (.const 0), hp2]
          show AffineExpr.eval _ _ (.dim p) = _
          simp only [AffineExpr.eval]
          rw [evalValList_append]
          rw [List.getD_append _ _ _ _ (by rw [evalValList_length]; exact hp1)]
          rw [evalValList_getD _ _ _ hp1, hp3]
          rw [getD_take p1.2 p1.1.numDims i default hi1]
          rw [evalValList_getD _ _ i (by omega)]
        · intro j huj
          have hj1 : j < p1.1.numSymbols :=
            usesSym_lt (List.all_eq_true.mp hpib e0 he0) huj
          have hused : (fun j => p1.1.results.any (fun e => e.usesSym j)) j =
              true := by
            show p1.1.results.any _ = true
            rw [List.any_eq_true]
            exact ⟨e0, he0, huj⟩
          obtain ⟨p, hp1, hp2, hp3⟩ := hsspec j (by omega) hused
          rw [getD_default_irrel _ j (by omega) _ (.const 0), hp2]
          show AffineExpr.eval _ _ (.sym p) = _
          simp only [AffineExpr.eval]
          rw [hndout, evalValList_append]
          have hix : qd.2.2 + p = (evalValList env qd.2.1).length + p := by
            rw [evalValList_length]
            omega
          rw [hix, getD_append_right_gen]
          rw [evalValList_getD _ _ _ hp1, hp3]
          rw [getD_drop_gen]
          rw [evalValList_getD _ _ _ (by omega)]
      rw [hstep, hpev]

theorem wfSymFree_of_mem {ops : List Val} (hwf : wfSymFreeList ops = true)
    {x : Val} (hx : x ∈ ops) : x.wfSymFree = true := by
  induction ops with
  | nil => simp at hx
  | cons v rest ih =>
    have h : v.wfSymFree = true ∧ wfSymFreeList rest = true := by
      simpa [wfSymFreeList] using hwf
    rcases List.mem_cons.mp hx with rfl | hx'
    · exact h.1
    · exact ih h.2 hx'

theorem wfSymFree_fromOneLevel {ops : List Val} (hwf : wfSymFreeList ops = true)
    {x : Val} (hx : fromOneLevel ops x) : x.wfSymFree = true := by
  rcases hx with ⟨hmem, _⟩ | ⟨a, ha, i, ix, tl, m, subOps, rfl, hxs⟩
  · exact wfSymFree_of_mem hwf hmem
  · have ha' := wfSymFree_of_mem hwf ha
    simp only [Val.wfSymFree, Bool.and_eq_true] at ha'
    exact wfSymFree_of_mem ha'.2 hxs

theorem wfSymFreeList_of_forall {ops : List Val}
    (h : ∀ x ∈ ops, x.wfSymFree = true) : wfSymFreeList ops = true := by
  induction ops with
  | nil => rfl
  | cons v rest ih =>
    simp only [wfSymFreeList, Bool.and_eq_true]
    exact ⟨h v (by simp), ih (fun x hx => h x (by simp [hx]))⟩

theorem composeAffineMapAndOperands_sem (env : Nat → Int) (map : AffineMap)
    (ops : List Val) (harity : map.numInputs = ops.length)
    (hib : map.inBounds = true) (hwf : wfSymFreeList ops = true) :
    (composeAffineMapAndOperands map ops).2.length =
      (composeAffineMapAndOperands map ops).1.numInputs ∧
    (composeAffineMapAndOperands map ops).1.inBounds = true ∧
    (composeAffineMapAndOperands map ops).1.results.length =
      map.results.length ∧
    wfSymFreeList (composeAffineMapAndOperands map ops).2 = true ∧
    (composeAffineMapAndOperands map ops).1.evalAt
        (evalValList env (composeAffineMapAndOperands map ops).2) =
      map.evalAt (evalValList env ops) := by
  obtain ⟨hnd, hns, hnib, hnres, hnev⟩ := normalize_top_sem env map ops harity hib hwf
  have hlen1 : ((normalize 1 map ops).2.reorderedDims ++
      (normalize 1 map ops).2.concatenatedSymbols).length =
      (normalize 1 map ops).1.numInputs := by
    rw [List.length_append]
    unfold AffineMap.numInputs
    omega
  obtain ⟨hc1, hc2, hc3, hc4⟩ := canonicalizeMapAndOperands_sem env
    (normalize 1 map ops).1 ((normalize 1 map ops).2.reorderedDims ++
      (normalize 1 map ops).2.concatenatedSymbols) hlen1 hnib
  have hunf : composeAffineMapAndOperands map ops =
      canonicalizeMapAndOperands (normalize 1 map ops).1
        ((normalize 1 map ops).2.reorderedDims ++
          (normalize 1 map ops).2.concatenatedSymbols) := rfl
  rw [hunf]
  refine ⟨hc1, hc2, by rw [hc3, hnres], ?_, by rw [hc4, hnev]⟩
  apply wfSymFreeList_of_forall
  intro x hx
  exact wfSymFree_fromOneLevel hwf (composeAffineMapAndOperands_mem map ops x hx)

theorem fullyComposeAux_sem (env : Nat → Int) (fuel : Nat) :
    ∀ (map : AffineMap) (ops : List Val), map.numInputs = ops.length →
    map.inBounds = true → wfSymFreeList ops = true →
    (fullyComposeAux fuel map ops).1.evalAt
        (evalValList env (fullyComposeAux fuel map ops).2) =
      map.evalAt (evalValList env ops) := by
  induction fuel with
  | zero => intro map ops _ _ _; rfl
  | succ f ih =>
    intro map ops h1 h2 h3
    by_cases hany : ops.any Val.isApplyRes = true
    · have hunf : fullyComposeAux (f + 1) map ops =
          fullyComposeAux f (composeAffineMapAndOperands map ops).1
            (composeAffineMapAndOperands map ops).2 := by
        rw [fullyComposeAux, if_pos hany]
      obtain ⟨hc1, hc2, hc3, hc4, hc5⟩ :=
        composeAffineMapAndOperands_sem env map ops h1 h2 h3
      rw [hunf, ih _ _ hc1.symm hc2 hc4, hc5]
    · have hunf : fullyComposeAux (f + 1) map ops = (map, ops) := by
        rw [fullyComposeAux, if_neg hany]
      rw [hunf]

/-- Claim C1 (counterexample): composing the map `(d0)[s0] -> (d0 + s0*2)`
with an affine-apply operand `apply (d0)[s0] -> (d0 + s0)` (carrying one
symbol) and a top-level symbol operand yields a composed map whose value at
the leaf assignment `x1 = 1, others = 0` is `2`, while the original nested
chain evaluates to `1`: the renumbering of sub-map symbols into
`concatenatedSymbols` uses absolute positions while `AffineMap::compose`
shifts the auxiliary map's symbols past the outer map's, so the sub-map's
symbol is mis-bound.  The claimed preconditions (matching arity, in-range
positions) hold at this input. -/
theorem claim_C1_counterexample :
    (⟨1, 1, [.add (.dim 0) (.mul (.sym 0) (.const 2))]⟩ : AffineMap).numInputs =
      [Val.applyRes 10 true false ⟨1, 1, [.add (.dim 0) (.sym 0)]⟩
          [Val.blockArg 0 true false, Val.blockArg 1 true true],
        Val.blockArg 2 true true].length ∧
    (⟨1, 1, [.add (.dim 0) (.mul (.sym 0) (.const 2))]⟩ : AffineMap).inBounds =
      true ∧
    (composeAffineMapAndOperands
        ⟨1, 1, [.add (.dim 0) (.mul (.sym 0) (.const 2))]⟩
        [Val.applyRes 10 true false ⟨1, 1, [.add (.dim 0) (.sym 0)]⟩
            [Val.blockArg 0 true false, Val.blockArg 1 true true],
          Val.blockArg 2 true true]).1.evalAt
      (evalValList (fun i => if i = 1 then 1 else 0)
        (composeAffineMapAndOperands
          ⟨1, 1, [.add (.dim 0) (.mul (.sym 0) (.const 2))]⟩
          [Val.applyRes 10 true false ⟨1, 1, [.add (.dim 0) (.sym 0)]⟩
              [Val.blockArg 0 true false, Val.blockArg 1 true true],
            Val.blockArg 2 true true]).2) = [2] ∧
    (⟨1, 1, [.add (.dim 0) (.mul (.sym 0) (.const 2))]⟩ : AffineMap).evalAt
      (evalValList (fun i => if i = 1 then 1 else 0)
        [Val.applyRes 10 true false ⟨1, 1, [.add (.dim 0) (.sym 0)]⟩
            [Val.blockArg 0 true false, Val.blockArg 1 true true],
          Val.blockArg 2 true true]) = [1] := by
  refine ⟨rfl, rfl, ?_, ?_⟩
  · simp [composeAffineMapAndOperands, normalize, composeLoop, renumberOneDim,
      renumber, renumberDims, promoteComposedSymbolsAsDims, promoteRepl,
      canonicalizeMapAndOperands, canonicalizePromotedSymbols, canonPromoteLoop,
      canonRemapLoop, kMaxAffineApplyDepth, simplifyAffineMap, simplifyAffineExpr,
      AffineExpr.linearize, AffineMap.compose, AffineMap.replaceDimsAndSymbols,
      AffineExpr.replaceDimsAndSymbols, zeroVec, addVec, scaleVec, sumExprs,
      coeffTerms, linearTerm, isValidSymbol, isValidDim, isTopLevelSymbol,
      Val.isApplyRes, posOf, assocLookup, AffineMap.numInputs, AffineExpr.usesDim,
      AffineExpr.usesSym, AffineMap.evalAt, AffineExpr.eval, evalVal, evalValList,
      allValidSymbol]
  · simp [AffineMap.evalAt, AffineExpr.eval, evalVal, evalValList]

/-- Claim C1 (amended): when the outer map binds exactly its declared inputs
with in-range positions and every map attached to a nested affine-apply
operand is symbol-free (well-formed arity and bounds throughout the chain),
both `composeAffineMapAndOperands` and `fullyComposeAffineMapAndOperands`
produce a map/operand pair that evaluates, on every assignment of concrete
integers to the leaf operands, to exactly the results of the original nested
map-application chain. -/
theorem claim_C1_amended (map : AffineMap) (operands : List Val)
    (env : Nat → Int) (harity : map.numInputs = operands.length)
    (hb : map.inBounds = true) (hwf : wfSymFreeList operands = true) :
    (composeAffineMapAndOperands map operands).1.evalAt
        (evalValList env (composeAffineMapAndOperands map operands).2) =
      map.evalAt (evalValList env operands) ∧
    (fullyComposeAffineMapAndOperands map operands).1.evalAt
        (evalValList env (fullyComposeAffineMapAndOperands map operands).2) =
      map.evalAt (evalValList env operands) := by
  refine ⟨(composeAffineMapAndOperands_sem env map operands harity hb hwf).2.2.2.2, ?_⟩
  exact fullyComposeAux_sem env (depthList operands) map operands harity hb hwf

/-- Witness for claim C1 at the map `(d0)[s0] -> (d0 + s0)` applied to a
symbol-free affine-apply operand and a top-level symbol, under the leaf
assignment `x_i = i`. -/
theorem claim_C1_witness :
    (⟨1, 1, [.add (.dim 0) (.sym 0)]⟩ : AffineMap).numInputs =
      [Val.applyRes 5 true false ⟨2, 0, [.add (.dim 0) (.dim 1)]⟩
          [Val.blockArg 0 true false, Val.blockArg 1 true false],
        Val.blockArg 2 true true].length ∧
    (⟨1, 1, [.add (.dim 0) (.sym 0)]⟩ : AffineMap).inBounds = true ∧
    wfSymFreeList
      [Val.applyRes 5 true false ⟨2, 0, [.add (.dim 0) (.dim 1)]⟩
          [Val.blockArg 0 true false, Val.blockArg 1 true false],
        Val.blockArg 2 true true] = true ∧
    ((composeAffineMapAndOperands ⟨1, 1, [.add (.dim 0) (.sym 0)]⟩
        [Val.applyRes 5 true false ⟨2, 0, [.add (.dim 0) (.dim 1)]⟩
            [Val.blockArg 0 true false, Val.blockArg 1 true false],
          Val.blockArg 2 true true]).1.evalAt
        (evalValList (fun i => (i : Int))
          (composeAffineMapAndOperands ⟨1, 1, [.add (.dim 0) (.sym 0)]⟩
            [Val.applyRes 5 true false ⟨2, 0, [.add (.dim 0) (.dim 1)]⟩
                [Val.blockArg 0 true false, Val.blockArg 1 true false],
              Val.blockArg 2 true true]).2) =
      AffineMap.evalAt ⟨1, 1, [.add (.dim 0) (.sym 0)]⟩
        (evalValList (fun i => (i : Int))
          [Val.applyRes 5 true false ⟨2, 0, [.add (.dim 0) (.dim 1)]⟩
              [Val.blockArg 0 true false, Val.blockArg 1 true false],
            Val.blockArg 2 true true]) ∧
    (fullyComposeAffineMapAndOperands ⟨1, 1, [.add (.dim 0) (.sym 0)]⟩
        [Val.applyRes 5 true false ⟨2, 0, [.add (.dim 0) (.dim 1)]⟩
            [Val.blockArg 0 true false, Val.blockArg 1 true false],
          Val.blockArg 2 true true]).1.evalAt
        (evalValList (fun i => (i : Int))
          (fullyComposeAffineMapAndOperands ⟨1, 1, [.add (.dim 0) (.sym 0)]⟩
            [Val.applyRes 5 true false ⟨2, 0, [.add (.dim 0) (.dim 1)]⟩
                [Val.blockArg 0 true false, Val.blockArg 1 true false],
              Val.blockArg 2 true true]).2) =
      AffineMap.evalAt ⟨1, 1, [.add (.dim 0) (.sym 0)]⟩
        (evalValList (fun i => (i : Int))
          [Val.applyRes 5 true false ⟨2, 0, [.add (.dim 0) (.dim 1)]⟩
              [Val.blockArg 0 true false, Val.blockArg 1 true false],
            Val.blockArg 2 true true])) :=
  ⟨rfl, rfl, rfl,
    claim_C1_amended ⟨1, 1, [.add (.dim 0) (.sym 0)]⟩
      [Val.applyRes 5 true false ⟨2, 0, [.add (.dim 0) (.dim 1)]⟩
          [Val.blockArg 0 true false, Val.blockArg 1 true false],
        Val.blockArg 2 true true] (fun i => (i : Int)) rfl rfl rfl⟩

theorem AffineExpr.replace_id_of (dr sr : List AffineExpr)
    (hdr : ∀ i, dr.getD i (.dim i) = .dim i)
    (hsr : ∀ j, sr.getD j (.sym j) = .sym j) :
    ∀ e : AffineExpr, e.replaceDimsAndSymbols dr sr = e := by
  intro e
  induction e with
  | dim i => exact hdr i
  | sym j => exact hsr j
  | const c => rfl
  | add a b iha ihb => simp [AffineExpr.replaceDimsAndSymbols, iha, ihb]
  | mul a b iha ihb => simp [AffineExpr.replaceDimsAndSymbols, iha, ihb]
  | floordiv a b iha ihb => simp [AffineExpr.replaceDimsAndSymbols, iha, ihb]
  | ceildiv a b iha ihb => simp [AffineExpr.replaceDimsAndSymbols, iha, ihb]
  | mod a b iha ihb => simp [AffineExpr.replaceDimsAndSymbols, iha, ihb]

theorem rangeMap_dim_getD (n i : Nat) :
    ((List.range n).map AffineExpr.dim).getD i (.dim i) = .dim i := by
  by_cases h : i < n
  · rw [List.getD_eq_getElem _ _ (by simpa using h)]
    simp
  · rw [List.getD_eq_default _ _ (by simpa using h)]

theorem rangeMap_sym_getD (n j : Nat) :
    ((List.range n).map AffineExpr.sym).getD j (.sym j) = .sym j := by
  by_cases h : j < n
  · rw [List.getD_eq_getElem _ _ (by simpa using h)]
    simp
  · rw [List.getD_eq_default _ _ (by simpa using h)]

theorem posOf_append_none {R : List Val} {v : Val} (w : Val)
    (h : posOf R v = none) (hw : w ≠ v) : posOf (R ++ [w]) v = none := by
  induction R with
  | nil =>
    show posOf [w] v = none
    rw [posOf, if_neg hw]
    rfl
  | cons a R' ih =>
    rw [posOf] at h
    by_cases ha : a = v
    · rw [if_pos ha] at h
      exact absurd h (by simp)
    · rw [if_neg ha] at h
      have h' : posOf R' v = none := by
        cases hp : posOf R' v with
        | none => rfl
        | some k => rw [hp] at h; simp at h
      show posOf (a :: (R' ++ [w])) v = none
      rw [posOf, if_neg ha, ih h']
      rfl

theorem composeLoopTrue_noapply (d ndB mnd : Nat) (ops : List Val) :
    ∀ (i0 : Nat) (aux : List AffineExpr) (st : NormState),
    (∀ x ∈ ops, x.isApplyRes = false) →
    ndB ≤ i0 + ops.length →
    (∀ j, j < ops.length → i0 + j < ndB →
      posOf st.reorderedDims (ops.getD j default) = none ∧
      ∀ j' < j, ops.getD j' default ≠ ops.getD j default) →
    composeLoop d ndB mnd true i0 ops aux st =
      (aux ++ (List.range (ndB - i0)).map
        (fun k => AffineExpr.dim (st.reorderedDims.length + k)),
       ⟨st.reorderedDims ++ ops.take (ndB - i0),
        st.concatenatedSymbols ++ ops.drop (ndB - i0)⟩) := by
  induction ops with
  | nil =>
    intro i0 aux st _ hle _
    rw [composeLoop_nil]
    have h0 : ndB - i0 = 0 := by simp at hle; omega
    rw [h0]
    simp
  | cons t rest ih =>
    intro i0 aux st hna hle hfresh
    have hta : t.isApplyRes = false := hna t (by simp)
    rw [composeLoop_cons_true_nonapply _ _ _ _ _ _ _ _ hta]
    by_cases hi : i0 < ndB
    · rw [if_pos hi]
      have hf0 := hfresh 0 (by simp) (by omega)
      have hpos : posOf st.reorderedDims t = none := by simpa using hf0.1
      have hren : renumberOneDim st t =
          (.dim st.reorderedDims.length,
            { st with reorderedDims := st.reorderedDims ++ [t] }) := by
        unfold renumberOneDim
        rw [hpos]
      rw [hren]
      have hrec := ih (i0 + 1)
        (aux ++ [AffineExpr.dim st.reorderedDims.length])
        { st with reorderedDims := st.reorderedDims ++ [t] }
        (fun x hx => hna x (by simp [hx]))
        (by simp at hle ⊢; omega)
        (by
          intro j hj hjb
          have hf := hfresh (j + 1) (by simpa using hj) (by omega)
          constructor
          · have hne : t ≠ rest.getD j default := by
              have h2 := hf.2 0 (by omega)
              simpa using h2
            have hpn : posOf st.reorderedDims (rest.getD j default) = none := by
              have h1 := hf.1
              simpa using h1
            exact posOf_append_none t hpn hne
          · intro j' hj'
            have := hf.2 (j' + 1) (by omega)
            simpa using this)
      rw [hrec]
      have hm : ndB - i0 = (ndB - (i0 + 1)) + 1 := by omega
      apply Prod.ext
      · show aux ++ [AffineExpr.dim st.reorderedDims.length] ++ _ = aux ++ _
        rw [List.append_assoc]
        congr 1
        rw [hm, List.range_succ_eq_map]
        simp only [List.map_cons, List.map_map, List.singleton_append,
          Nat.add_zero]
        congr 1
        apply List.map_congr_left
        intro k _
        show AffineExpr.dim ((st.reorderedDims ++ [t]).length + k) =
          AffineExpr.dim (st.reorderedDims.length + (k + 1))
        simp only [List.length_append, List.length_singleton]
        congr 1
        omega
      · show (⟨(st.reorderedDims ++ [t]) ++ rest.take (ndB - (i0 + 1)),
            st.concatenatedSymbols ++ rest.drop (ndB - (i0 + 1))⟩ : NormState) = _
        rw [hm]
        simp only [List.take_succ_cons, List.drop_succ_cons]
        rw [List.append_assoc]
        rfl
      -- done
    · rw [if_neg hi]
      have hrec := ih (i0 + 1) aux
        { st with concatenatedSymbols := st.concatenatedSymbols ++ [t] }
        (fun x hx => hna x (by simp [hx]))
        (by simp at hle ⊢; omega)
        (by intro j hj hjb; omega)
      rw [hrec]
      have h0 : ndB - i0 = 0 := by omega
      have h0' : ndB - (i0 + 1) = 0 := by omega
      rw [h0, h0']
      simp

theorem nodup_getD_ne {l : List Val} (h : l.Nodup) :
    ∀ {j' j : Nat}, j' < j → j < l.length →
    l.getD j' default ≠ l.getD j default := by
  induction l with
  | nil => intro j' j _ hj; simp at hj
  | cons a rest ih =>
    intro j' j hj' hj
    rcases List.nodup_cons.mp h with ⟨hna, hrest⟩
    cases j with
    | zero => omega
    | succ j2 =>
      cases j' with
      | zero =>
        have hj2 : j2 < rest.length := by simpa using hj
        show a ≠ rest.getD j2 default
        intro heq
        apply hna
        rw [heq, List.getD_eq_getElem _ _ hj2]
        exact List.getElem_mem hj2
      | succ j1 =>
        have := ih hrest (by omega : j1 < j2) (by simpa using hj)
        simpa using this

theorem canonRemapLoop_id (usedF : Nat → Bool) (mk : Nat → AffineExpr)
    (l : List Val) :
    ∀ (i0 : Nat) (n0 : Nat) (seen : List (Val × AffineExpr)),
    (∀ k < l.length, usedF (i0 + k) = true) →
    l.Nodup →
    (∀ x ∈ l, assocLookup seen x = none) →
    canonRemapLoop usedF mk l i0 n0 seen =
      ((List.range l.length).map (fun k => mk (n0 + k)), l, n0 + l.length) := by
  induction l with
  | nil => intro i0 n0 seen _ _ _; simp [canonRemapLoop]
  | cons v rest ih =>
    intro i0 n0 seen hused hnd hal
    have hu : usedF i0 = true := by simpa using hused 0 (by simp)
    have hv : assocLookup seen v = none := hal v (by simp)
    rcases List.nodup_cons.mp hnd with ⟨hvm, hrest⟩
    rw [canonRemapLoop, hv, if_pos hu]
    have hrec := ih (i0 + 1) (n0 + 1) ((v, mk n0) :: seen)
      (by intro k hk
          have := hused (k + 1) (by simpa using hk)
          have h2 : i0 + (k + 1) = i0 + 1 + k := by omega
          rw [h2] at this
          exact this)
      hrest
      (by intro x hx
          show assocLookup ((v, mk n0) :: seen) x = none
          rw [assocLookup, if_neg (by
            intro heq
            exact hvm (heq ▸ hx))]
          exact hal x (by simp [hx]))
    rw [hrec]
    apply Prod.ext
    · show mk n0 :: _ = _
      simp only [List.length_cons, List.range_succ_eq_map, List.map_cons,
        List.map_map, Nat.add_zero]
      congr 1
      apply List.map_congr_left
      intro k _
      show mk (n0 + 1 + k) = mk (n0 + (k + 1))
      congr 1
      omega
    · apply Prod.ext
      · rfl
      · show n0 + 1 + rest.length = n0 + (rest.length + 1)
        omega

theorem map_id_of {α : Type} (l : List α) (f : α → α)
    (h : ∀ x ∈ l, f x = x) : l.map f = l := by
  induction l with
  | nil => rfl
  | cons a t ih =>
    simp only [List.map_cons, h a (by simp)]
    rw [ih (fun x hx => h x (by simp [hx]))]

theorem rangeMap_dim_zero_getD (n i : Nat) :
    ((List.range n).map (fun k => AffineExpr.dim (0 + k))).getD i (.dim i) =
      .dim i := by
  have h : (List.range n).map (fun k => AffineExpr.dim (0 + k)) =
      (List.range n).map AffineExpr.dim := by
    apply List.map_congr_left
    intro k _
    simp
  rw [h]
  exact rangeMap_dim_getD n i

theorem rangeMap_sym_zero_getD (n j : Nat) :
    ((List.range n).map (fun k => AffineExpr.sym (0 + k))).getD j (.sym j) =
      .sym j := by
  have h : (List.range n).map (fun k => AffineExpr.sym (0 + k)) =
      (List.range n).map AffineExpr.sym := by
    apply List.map_congr_left
    intro k _
    simp
  rw [h]
  exact rangeMap_sym_getD n j

theorem normalize_id (map : AffineMap) (O : List Val)
    (harity : map.numInputs = O.length)
    (hna : ∀ x ∈ O, x.isApplyRes = false)
    (hnd : O.Nodup)
    (hsimp : simplifyAffineMap map = map) :
    normalize 1 map O =
      (map, ⟨O.take map.numDims, O.drop map.numDims⟩) := by
  have hni : map.numDims + map.numSymbols = O.length := harity
  have hpro : promoteComposedSymbolsAsDims map (O.drop map.numDims) = map := by
    rw [promoteComposedSymbolsAsDims]
    by_cases hemp : (O.drop map.numDims).isEmpty
    · rw [if_pos hemp]
    · rw [if_neg (by simp [hemp])]
      rw [if_neg (by
        simp only [List.any_eq_true, not_exists, not_and]
        intro x hx h
        have := hna x (List.mem_of_mem_drop hx)
        simp [this] at h)]
  have hfur : decide (1 ≤ kMaxAffineApplyDepth) = true := by
    simp [kMaxAffineApplyDepth]
  have htlen : (O.take map.numDims).length = map.numDims := by
    rw [List.length_take]
    omega
  have hloop := composeLoopTrue_noapply 1 map.numDims
    (promoteComposedSymbolsAsDims map (O.drop map.numDims)).numDims O 0
    [] ⟨[], []⟩ hna (by omega)
    (by
      intro j hj hjb
      refine ⟨rfl, ?_⟩
      intro j' hj'
      exact nodup_getD_ne hnd hj' hj)
  have hnorm : normalize 1 map O =
      if (composeLoop 1 map.numDims
          (promoteComposedSymbolsAsDims map (O.drop map.numDims)).numDims
          true 0 O [] ⟨[], []⟩).1.isEmpty
      then (promoteComposedSymbolsAsDims map (O.drop map.numDims),
        (composeLoop 1 map.numDims
          (promoteComposedSymbolsAsDims map (O.drop map.numDims)).numDims
          true 0 O [] ⟨[], []⟩).2)
      else (simplifyAffineMap ((promoteComposedSymbolsAsDims map
          (O.drop map.numDims)).compose
        ⟨(composeLoop 1 map.numDims (promoteComposedSymbolsAsDims map
            (O.drop map.numDims)).numDims true 0 O []
            ⟨[], []⟩).2.reorderedDims.length,
          (composeLoop 1 map.numDims (promoteComposedSymbolsAsDims map
            (O.drop map.numDims)).numDims true 0 O []
            ⟨[], []⟩).2.concatenatedSymbols.length -
            (promoteComposedSymbolsAsDims map (O.drop map.numDims)).numSymbols,
          (composeLoop 1 map.numDims (promoteComposedSymbolsAsDims map
            (O.drop map.numDims)).numDims true 0 O [] ⟨[], []⟩).1⟩),
        (composeLoop 1 map.numDims (promoteComposedSymbolsAsDims map
          (O.drop map.numDims)).numDims true 0 O [] ⟨[], []⟩).2) := by
    unfold normalize
    simp only [hfur]
  rw [hnorm, hloop]
  simp only [Nat.sub_zero, List.nil_append]
  by_cases hnd0 : map.numDims = 0
  · have hempty : ((List.range map.numDims).map
        (fun k => AffineExpr.dim (([] : List Val).length + k))).isEmpty = true := by
      rw [hnd0]
      rfl
    rw [if_pos hempty, hpro]
  · have hnempty : ¬((List.range map.numDims).map
        (fun k => AffineExpr.dim (([] : List Val).length + k))).isEmpty = true := by
      simp only [List.isEmpty_iff, List.map_eq_nil_iff, List.range_eq_nil]
      exact hnd0
    rw [if_neg hnempty, hpro]
    apply Prod.ext
    · show simplifyAffineMap (map.compose
        ⟨([] ++ O.take map.numDims).length,
          ([] ++ O.drop map.numDims).length - map.numSymbols,
          (List.range map.numDims).map
            (fun k => AffineExpr.dim (([] : List Val).length + k))⟩) = map
      have hg : (⟨([] ++ O.take map.numDims).length,
          ([] ++ O.drop map.numDims).length - map.numSymbols,
          (List.range map.numDims).map
            (fun k => AffineExpr.dim (([] : List Val).length + k))⟩ : AffineMap) =
          ⟨map.numDims, 0,
            (List.range map.numDims).map (fun k => AffineExpr.dim (0 + k))⟩ := by
        have e1 : ([] ++ O.take map.numDims).length = map.numDims := by
          simpa using htlen
        have e2 : ([] ++ O.drop map.numDims).length - map.numSymbols = 0 := by
          simp only [List.nil_append, List.length_drop]
          omega
        rw [e1, e2]
        rfl
      rw [hg]
      have hcomp : map.compose
          ⟨map.numDims, 0,
            (List.range map.numDims).map (fun k => AffineExpr.dim (0 + k))⟩ =
          map := by
        unfold AffineMap.compose
        have hshift : ((List.range map.numDims).map
            (fun k => AffineExpr.dim (0 + k))).map
            (AffineExpr.replaceDimsAndSymbols
              ((List.range map.numDims).map AffineExpr.dim)
              ((List.range 0).map (fun i => AffineExpr.sym (map.numSymbols + i)))) =
            (List.range map.numDims).map (fun k => AffineExpr.dim (0 + k)) :=
          map_id_of _ _ (fun e _ => AffineExpr.replace_id_of _ _
            (rangeMap_dim_getD map.numDims) (fun j => by simp) e)
        show AffineMap.mk _ _ _ = map
        rw [hshift]
        have hres : map.results.map (AffineExpr.replaceDimsAndSymbols
            ((List.range map.numDims).map (fun k => AffineExpr.dim (0 + k)))
            ((List.range map.numSymbols).map AffineExpr.sym)) = map.results :=
          map_id_of _ _ (fun e _ => AffineExpr.replace_id_of _ _
            (rangeMap_dim_zero_getD map.numDims)
            (rangeMap_sym_getD map.numSymbols) e)
        rw [hres]
        show AffineMap.mk map.numDims (map.numSymbols + 0) map.results = map
        rw [Nat.add_zero]
      rw [hcomp, hsimp]
    · show (⟨[] ++ O.take map.numDims, [] ++ O.drop map.numDims⟩ : NormState) = _
      simp

theorem canonicalizePromotedSymbols_id (map : AffineMap) (O : List Val)
    (harity : map.numInputs = O.length)
    (hnov : ∀ v ∈ O.take map.numDims, isValidSymbol v = false) :
    canonicalizePromotedSymbols map O = (map, O) := by
  by_cases hemp : O.isEmpty
  · rw [canonicalizePromotedSymbols, if_pos hemp]
  · rw [canonicalizePromotedSymbols, if_neg (by simp [hemp])]
    have hni : map.numDims + map.numSymbols = O.length := harity
    have htlen : (O.take map.numDims).length = map.numDims := by
      rw [List.length_take]
      omega
    obtain ⟨hql, hqk, hqp, hqd, hqs, hqspec⟩ :=
      canonPromoteLoop_spec map.numSymbols (O.take map.numDims) 0 0
    have hcall : (O.take map.numDims).countP (fun v => !isValidSymbol v) =
        (O.take map.numDims).length := by
      apply List.countP_eq_length.mpr
      intro v hv
      show (!isValidSymbol v) = true
      rw [hnov v hv]
      rfl
    have hcz : (O.take map.numDims).countP (fun v => isValidSymbol v) = 0 := by
      apply List.countP_eq_zero.mpr
      intro v hv
      show ¬((fun v => isValidSymbol v) v = true)
      simp [hnov v hv]
    have hkeep : (canonPromoteLoop map.numSymbols (O.take map.numDims) 0 0).2.1 =
        O.take map.numDims := by
      rw [hqk]
      apply List.filter_eq_self.mpr
      intro v hv
      show (!isValidSymbol v) = true
      rw [hnov v hv]
      rfl
    have hprom : (canonPromoteLoop map.numSymbols (O.take map.numDims) 0 0).2.2.1 =
        [] := by
      rw [hqp]
      apply List.filter_eq_nil_iff.mpr
      intro v hv
      show ¬((fun v => isValidSymbol v) v = true)
      simp [hnov v hv]
    apply Prod.ext
    · show map.replaceDimsAndSymbols _ [] _ _ = map
      have hres : map.results.map (AffineExpr.replaceDimsAndSymbols
          (canonPromoteLoop map.numSymbols (O.take map.numDims) 0 0).1 []) =
          map.results := by
        apply map_id_of
        intro e _
        apply AffineExpr.replace_id_of
        · intro i
          by_cases hi : i < (O.take map.numDims).length
          · rw [getD_default_irrel _ i (by omega) _ (.const 0), hqspec i hi]
            rw [if_neg (by
              rw [hnov ((O.take map.numDims).getD i default) (by
                rw [List.getD_eq_getElem _ _ hi]
                exact List.getElem_mem hi)]
              simp)]
            have hts : ((O.take map.numDims).take i).countP
                (fun v => !isValidSymbol v) = i := by
              have h1 : ((O.take map.numDims).take i).countP
                  (fun v => !isValidSymbol v) =
                  ((O.take map.numDims).take i).length := by
                apply List.countP_eq_length.mpr
                intro v hv
                show (!isValidSymbol v) = true
                rw [hnov v (List.mem_of_mem_take hv)]
                rfl
              rw [h1, List.length_take]
              omega
            rw [hts]
            simp
          · rw [List.getD_eq_default _ _ (by omega)]
        · intro j
          rfl
      show AffineMap.mk _ _ _ = map
      rw [hres]
      have e1 : (canonPromoteLoop map.numSymbols (O.take map.numDims) 0 0).2.2.2.1 =
          map.numDims := by
        rw [hqd, hcall, htlen]
        omega
      have e2 : map.numSymbols +
          (canonPromoteLoop map.numSymbols (O.take map.numDims) 0 0).2.2.2.2 =
          map.numSymbols := by
        rw [hqs, hcz]
        omega
      rw [e1, e2]
    · show (canonPromoteLoop map.numSymbols (O.take map.numDims) 0 0).2.1 ++
        O.drop map.numDims ++
        (canonPromoteLoop map.numSymbols (O.take map.numDims) 0 0).2.2.1 = O
      rw [hkeep, hprom, List.append_nil, List.take_append_drop]
theorem canonicalizeMapAndOperands_id (map : AffineMap) (O : List Val)
    (harity : map.numInputs = O.length) (hnd : O.Nodup)
    (husedD : ∀ i < map.numDims, map.results.any (fun e => e.usesDim i) = true)
    (husedS : ∀ j < map.numSymbols, map.results.any (fun e => e.usesSym j) = true)
    (hnov : ∀ v ∈ O.take map.numDims, isValidSymbol v = false) :
    canonicalizeMapAndOperands map O = (map, O) := by
  by_cases hemp : O.isEmpty
  · rw [canonicalizeMapAndOperands, if_pos hemp]
  · have hps := canonicalizePromotedSymbols_id map O harity hnov
    have hni : map.numDims + map.numSymbols = O.length := harity
    have htlen : (O.take map.numDims).length = map.numDims := by
      rw [List.length_take]
      omega
    have hslen : (O.drop map.numDims).length = map.numSymbols := by
      rw [List.length_drop]
      omega
    have hunf : canonicalizeMapAndOperands map O =
        (map.replaceDimsAndSymbols
          (canonRemapLoop (fun i => map.results.any (fun e => e.usesDim i))
            AffineExpr.dim (O.take map.numDims) 0 0 []).1
          (canonRemapLoop (fun j => map.results.any (fun e => e.usesSym j))
            AffineExpr.sym (O.drop map.numDims) 0 0 []).1
          (canonRemapLoop (fun i => map.results.any (fun e => e.usesDim i))
            AffineExpr.dim (O.take map.numDims) 0 0 []).2.2
          (canonRemapLoop (fun j => map.results.any (fun e => e.usesSym j))
            AffineExpr.sym (O.drop map.numDims) 0 0 []).2.2,
         (canonRemapLoop (fun i => map.results.any (fun e => e.usesDim i))
            AffineExpr.dim (O.take map.numDims) 0 0 []).2.1 ++
         (canonRemapLoop (fun j => map.results.any (fun e => e.usesSym j))
            AffineExpr.sym (O.drop map.numDims) 0 0 []).2.1) := by
      rw [canonicalizeMapAndOperands, if_neg (by simp [hemp]), hps]
    rw [hunf]
    have hqd := canonRemapLoop_id
      (fun i => map.results.any (fun e => e.usesDim i)) AffineExpr.dim
      (O.take map.numDims) 0 0 []
      (by intro k hk
          have hk' : k < map.numDims := by omega
          have := husedD k hk'
          show map.results.any _ = true
          simpa using this)
      (hnd.sublist (List.take_sublist _ _))
      (fun x _ => rfl)
    have hqs := canonRemapLoop_id
      (fun j => map.results.any (fun e => e.usesSym j)) AffineExpr.sym
      (O.drop map.numDims) 0 0 []
      (by intro k hk
          have hk' : k < map.numSymbols := by omega
          have := husedS k hk'
          show map.results.any _ = true
          simpa using this)
      (hnd.sublist (List.drop_sublist _ _))
      (fun x _ => rfl)
    rw [hqd, hqs]
    apply Prod.ext
    · show map.replaceDimsAndSymbols _ _ _ _ = map
      have hres : map.results.map (AffineExpr.replaceDimsAndSymbols
          ((List.range (O.take map.numDims).length).map
            (fun k => AffineExpr.dim (0 + k)))
          ((List.range (O.drop map.numDims).length).map
            (fun k => AffineExpr.sym (0 + k)))) = map.results := by
        apply map_id_of
        intro e _
        exact AffineExpr.replace_id_of _ _
          (rangeMap_dim_zero_getD (O.take map.numDims).length)
          (rangeMap_sym_zero_getD (O.drop map.numDims).length) e
      show AffineMap.mk _ _ _ = map
      rw [hres]
      have e1 : 0 + (O.take map.numDims).length = map.numDims := by omega
      have e2 : 0 + (O.drop map.numDims).length = map.numSymbols := by omega
      rw [e1, e2]
    · show O.take map.numDims ++ O.drop map.numDims = O
      exact List.take_append_drop _ _

/-- Claim C3 (counterexample): the map `(d0) -> (d0)` with the single
operand list holding one top-level index value is in the claimed canonical
form (no operand is an apply result, the one dimension is used, no
duplicates), yet composing and canonicalizing promotes the operand to a
symbol and returns `()[s0] -> (s0)`, not the original map. -/
theorem claim_C3_counterexample :
    (∀ x ∈ [Val.blockArg 0 true true], x.isApplyRes = false) ∧
    [Val.blockArg 0 true true].Nodup ∧
    (∀ i < (⟨1, 0, [.dim 0]⟩ : AffineMap).numDims,
      (⟨1, 0, [.dim 0]⟩ : AffineMap).results.any (fun e => e.usesDim i) = true) ∧
    (∀ j < (⟨1, 0, [.dim 0]⟩ : AffineMap).numSymbols,
      (⟨1, 0, [.dim 0]⟩ : AffineMap).results.any (fun e => e.usesSym j) = true) ∧
    composeAffineMapAndOperands ⟨1, 0, [.dim 0]⟩ [Val.blockArg 0 true true] =
      (⟨0, 1, [.sym 0]⟩, [Val.blockArg 0 true true]) ∧
    (⟨0, 1, [.sym 0]⟩ : AffineMap) ≠ ⟨1, 0, [.dim 0]⟩ := by
  refine ⟨by decide, by decide, by decide, by decide, ?_, by decide⟩
  simp [composeAffineMapAndOperands, normalize, composeLoop, renumberOneDim,
    renumber, renumberDims, promoteComposedSymbolsAsDims, promoteRepl,
    canonicalizeMapAndOperands, canonicalizePromotedSymbols, canonPromoteLoop,
    canonRemapLoop, kMaxAffineApplyDepth, simplifyAffineMap, simplifyAffineExpr,
    AffineExpr.linearize, AffineMap.compose, AffineMap.replaceDimsAndSymbols,
    AffineExpr.replaceDimsAndSymbols, zeroVec, addVec, scaleVec, sumExprs,
    coeffTerms, linearTerm, isValidSymbol, isValidDim, isTopLevelSymbol,
    Val.isApplyRes, posOf, assocLookup, AffineMap.numInputs, AffineExpr.usesDim,
    AffineExpr.usesSym, allValidSymbol]

/-- Claim C3 (amended): composition followed by canonicalization is the
identity on a map/operand pair that binds exactly its declared inputs and is
canonical in the code's sense: no operand is an apply result, the operands
are pairwise distinct, every dimension and symbol position is referenced by
some result, no dimension operand qualifies as a valid symbol (otherwise it
is promoted), and the map is a fixed point of the simplifier. -/
theorem claim_C3_amended (map : AffineMap) (O : List Val)
    (harity : map.numInputs = O.length)
    (hna : ∀ x ∈ O, x.isApplyRes = false) (hnd : O.Nodup)
    (husedD : ∀ i < map.numDims, map.results.any (fun e => e.usesDim i) = true)
    (husedS : ∀ j < map.numSymbols, map.results.any (fun e => e.usesSym j) = true)
    (hnov : ∀ v ∈ O.take map.numDims, isValidSymbol v = false)
    (hsimp : simplifyAffineMap map = map) :
    composeAffineMapAndOperands map O = (map, O) := by
  have hn := normalize_id map O harity hna hnd hsimp
  have hunf : composeAffineMapAndOperands map O =
      canonicalizeMapAndOperands (normalize 1 map O).1
        ((normalize 1 map O).2.reorderedDims ++
          (normalize 1 map O).2.concatenatedSymbols) := rfl
  rw [hunf, hn]
  show canonicalizeMapAndOperands map
    (O.take map.numDims ++ O.drop map.numDims) = (map, O)
  rw [List.take_append_drop]
  exact canonicalizeMapAndOperands_id map O harity hnd husedD husedS hnov

/-- Witness for claim C3 at the map `(d0) -> (d0)` applied to a single loop
induction variable (a block argument that is not a valid symbol). -/
theorem claim_C3_witness :
    (⟨1, 0, [.dim 0]⟩ : AffineMap).numInputs =
      [Val.blockArg 0 true false].length ∧
    (∀ x ∈ [Val.blockArg 0 true false], x.isApplyRes = false) ∧
    [Val.blockArg 0 true false].Nodup ∧
    (∀ v ∈ [Val.blockArg 0 true false].take
        (⟨1, 0, [.dim 0]⟩ : AffineMap).numDims, isValidSymbol v = false) ∧
    simplifyAffineMap ⟨1, 0, [.dim 0]⟩ = ⟨1, 0, [.dim 0]⟩ ∧
    composeAffineMapAndOperands ⟨1, 0, [.dim 0]⟩ [Val.blockArg 0 true false] =
      (⟨1, 0, [.dim 0]⟩, [Val.blockArg 0 true false]) :=
  ⟨rfl, by decide, by decide, by decide, by decide,
    claim_C3_amended ⟨1, 0, [.dim 0]⟩ [Val.blockArg 0 true false] rfl
      (by decide) (by decide) (by decide) (by decide) (by decide) (by decide)⟩
theorem assocLookup_none_not_mem {v : Val} :
    ∀ {seen : List (Val × AffineExpr)},
    assocLookup seen v = none → v ∉ seen.map Prod.fst := by
  intro seen
  induction seen with
  | nil => intro _ h; simp at h
  | cons we rest ih =>
    intro h
    match we with
    | (w, e) =>
      by_cases hw : w = v
      · rw [assocLookup, if_pos hw] at h
        simp at h
      · rw [assocLookup, if_neg hw] at h
        simp only [List.map_cons, List.mem_cons]
        rintro (h1 | h1)
        · exact hw h1.symm
        · exact ih h h1

theorem assocLookup_some_of_mem {v : Val} :
    ∀ {seen : List (Val × AffineExpr)},
    v ∈ seen.map Prod.fst → ∃ e, assocLookup seen v = some e := by
  intro seen
  induction seen with
  | nil => intro h; simp at h
  | cons we rest ih =>
    intro h
    match we with
    | (w, e) =>
      by_cases hw : w = v
      · exact ⟨e, by rw [assocLookup, if_pos hw]⟩
      · simp only [List.map_cons, List.mem_cons] at h
        rcases h with h1 | h1
        · exact absurd h1.symm hw
        · obtain ⟨e', he'⟩ := ih h1
          exact ⟨e', by rw [assocLookup, if_neg hw]; exact he'⟩

theorem canonRemapLoop_kept (usedF : Nat → Bool) (mk : Nat → AffineExpr)
    (l : List Val) : ∀ (i0 next : Nat) (seen : List (Val × AffineExpr)),
    (canonRemapLoop usedF mk l i0 next seen).2.1 =
      keptSpec usedF l i0 (seen.map Prod.fst) := by
  induction l with
  | nil => intro i0 next seen; simp [canonRemapLoop, keptSpec]
  | cons v rest ih =>
    intro i0 next seen
    by_cases hu : usedF i0 = true
    · cases hfind : assocLookup seen v with
      | some e =>
        have hunf : canonRemapLoop usedF mk (v :: rest) i0 next seen =
            (e :: (canonRemapLoop usedF mk rest (i0 + 1) next seen).1,
              (canonRemapLoop usedF mk rest (i0 + 1) next seen).2) := by
          rw [canonRemapLoop, hfind, if_pos hu]
        have hmem : v ∈ seen.map Prod.fst :=
          List.mem_map.mpr ⟨(v, e), assocLookup_mem v e seen hfind, rfl⟩
        rw [hunf]
        show (canonRemapLoop usedF mk rest (i0 + 1) next seen).2.1 = _
        rw [keptSpec, if_pos hu, if_pos hmem]
        exact ih (i0 + 1) next seen
      | none =>
        have hunf : canonRemapLoop usedF mk (v :: rest) i0 next seen =
            (mk next ::
              (canonRemapLoop usedF mk rest (i0 + 1) (next + 1)
                ((v, mk next) :: seen)).1,
              v :: (canonRemapLoop usedF mk rest (i0 + 1) (next + 1)
                ((v, mk next) :: seen)).2.1,
              (canonRemapLoop usedF mk rest (i0 + 1) (next + 1)
                ((v, mk next) :: seen)).2.2) := by
          rw [canonRemapLoop, hfind, if_pos hu]
        have hnm : v ∉ seen.map Prod.fst := assocLookup_none_not_mem hfind
        rw [hunf]
        show v :: _ = _
        rw [keptSpec, if_pos hu, if_neg hnm]
        have := ih (i0 + 1) (next + 1) ((v, mk next) :: seen)
        simp only [List.map_cons] at this
        rw [this]
    · have hu' : usedF i0 = false := by simpa using hu
      have hunf : canonRemapLoop usedF mk (v :: rest) i0 next seen =
          (AffineExpr.sym 999999 ::
            (canonRemapLoop usedF mk rest (i0 + 1) next seen).1,
            (canonRemapLoop usedF mk rest (i0 + 1) next seen).2) := by
        rw [canonRemapLoop, if_neg (by simp [hu'])]
      rw [hunf]
      show (canonRemapLoop usedF mk rest (i0 + 1) next seen).2.1 = _
      rw [keptSpec, if_neg (by simp [hu'])]
      exact ih (i0 + 1) next seen

theorem canonRemapLoop_count (usedF : Nat → Bool) (mk : Nat → AffineExpr)
    (l : List Val) : ∀ (i0 next : Nat) (seen : List (Val × AffineExpr)),
    (canonRemapLoop usedF mk l i0 next seen).2.2 =
      next + (canonRemapLoop usedF mk l i0 next seen).2.1.length := by
  induction l with
  | nil => intro i0 next seen; simp [canonRemapLoop]
  | cons v rest ih =>
    intro i0 next seen
    by_cases hu : usedF i0 = true
    · cases hfind : assocLookup seen v with
      | some e =>
        have hunf : canonRemapLoop usedF mk (v :: rest) i0 next seen =
            (e :: (canonRemapLoop usedF mk rest (i0 + 1) next seen).1,
              (canonRemapLoop usedF mk rest (i0 + 1) next seen).2) := by
          rw [canonRemapLoop, hfind, if_pos hu]
        rw [hunf]
        exact ih (i0 + 1) next seen
      | none =>
        have hunf : canonRemapLoop usedF mk (v :: rest) i0 next seen =
            (mk next ::
              (canonRemapLoop usedF mk rest (i0 + 1) (next + 1)
                ((v, mk next) :: seen)).1,
              v :: (canonRemapLoop usedF mk rest (i0 + 1) (next + 1)
                ((v, mk next) :: seen)).2.1,
              (canonRemapLoop usedF mk rest (i0 + 1) (next + 1)
                ((v, mk next) :: seen)).2.2) := by
          rw [canonRemapLoop, hfind, if_pos hu]
        rw [hunf]
        show (canonRemapLoop usedF mk rest (i0 + 1) (next + 1)
            ((v, mk next) :: seen)).2.2 = _
        rw [ih (i0 + 1) (next + 1) ((v, mk next) :: seen)]
        simp only [List.length_cons]
        omega
    · have hu' : usedF i0 = false := by simpa using hu
      have hunf : canonRemapLoop usedF mk (v :: rest) i0 next seen =
          (AffineExpr.sym 999999 ::
            (canonRemapLoop usedF mk rest (i0 + 1) next seen).1,
            (canonRemapLoop usedF mk rest (i0 + 1) next seen).2) := by
        rw [canonRemapLoop, if_neg (by simp [hu'])]
      rw [hunf]
      exact ih (i0 + 1) next seen

/-- Claim C4 (counterexample): canonicalizing the map `(d0)[s0] -> (d0 + s0)`
with the same loop-induction-variable value bound to both the dimension and
the symbol position returns the pair unchanged: both positions are used, so
nothing is dropped, but the duplicate operands are NOT merged (the dimension
and symbol deduplication maps are separate), the output operand list still
holds the value twice, and the output dimension-plus-symbol count is 2
although only one distinct value is used. -/
theorem claim_C4_counterexample :
    [Val.blockArg 0 true false, Val.blockArg 0 true false].length =
      (⟨1, 1, [.add (.dim 0) (.sym 0)]⟩ : AffineMap).numInputs ∧
    canonicalizeMapAndOperands ⟨1, 1, [.add (.dim 0) (.sym 0)]⟩
        [Val.blockArg 0 true false, Val.blockArg 0 true false] =
      (⟨1, 1, [.add (.dim 0) (.sym 0)]⟩,
        [Val.blockArg 0 true false, Val.blockArg 0 true false]) ∧
    ¬([Val.blockArg 0 true false, Val.blockArg 0 true false].Nodup) ∧
    (⟨1, 1, [.add (.dim 0) (.sym 0)]⟩ : AffineMap).numDims +
      (⟨1, 1, [.add (.dim 0) (.sym 0)]⟩ : AffineMap).numSymbols = 2 ∧
    (∀ y ∈ [Val.blockArg 0 true false, Val.blockArg 0 true false],
      y = Val.blockArg 0 true false) := by
  refine ⟨rfl, ?_, by decide, rfl, by decide⟩
  simp [canonicalizeMapAndOperands, canonicalizePromotedSymbols,
    canonPromoteLoop, canonRemapLoop, isValidSymbol, assocLookup,
    AffineMap.replaceDimsAndSymbols, AffineExpr.replaceDimsAndSymbols,
    AffineExpr.usesDim, AffineExpr.usesSym, AffineMap.numInputs]
/-- Claim C4 (amended): after folding promoted symbols back, the
canonicalized operand list is exactly the per-class first-occurrence
deduplication of the used positions — the used dimension operands with later
duplicates removed, followed by the used symbol operands with later
duplicates removed (deduplication does not cross the two classes) — and the
output map's dimension and symbol counts are the lengths of these two
deduplicated lists, i.e. the numbers of distinct used dimension operands and
distinct used symbol operands respectively. -/
theorem claim_C4_amended (map : AffineMap) (ops : List Val)
    (harity : ops.length = map.numInputs) :
    (canonicalizeMapAndOperands map ops).2 =
      keptSpec (fun i => (canonicalizePromotedSymbols map ops).1.results.any
          (fun e => e.usesDim i))
        ((canonicalizePromotedSymbols map ops).2.take
          (canonicalizePromotedSymbols map ops).1.numDims) 0 [] ++
      keptSpec (fun j => (canonicalizePromotedSymbols map ops).1.results.any
          (fun e => e.usesSym j))
        ((canonicalizePromotedSymbols map ops).2.drop
          (canonicalizePromotedSymbols map ops).1.numDims) 0 [] ∧
    (canonicalizeMapAndOperands map ops).1.numDims =
      (keptSpec (fun i => (canonicalizePromotedSymbols map ops).1.results.any
          (fun e => e.usesDim i))
        ((canonicalizePromotedSymbols map ops).2.take
          (canonicalizePromotedSymbols map ops).1.numDims) 0 []).length ∧
    (canonicalizeMapAndOperands map ops).1.numSymbols =
      (keptSpec (fun j => (canonicalizePromotedSymbols map ops).1.results.any
          (fun e => e.usesSym j))
        ((canonicalizePromotedSymbols map ops).2.drop
          (canonicalizePromotedSymbols map ops).1.numDims) 0 []).length := by
  by_cases hemp : ops.isEmpty
  · have hnil : ops = [] := List.isEmpty_iff.mp hemp
    subst hnil
    have hps : canonicalizePromotedSymbols map [] = (map, []) := by
      rw [canonicalizePromotedSymbols]
      rfl
    have hc : canonicalizeMapAndOperands map [] = (map, []) := by
      rw [canonicalizeMapAndOperands]
      rfl
    rw [hps, hc]
    have hnd0 : map.numDims = 0 := by
      have : (0 : Nat) = map.numDims + map.numSymbols := harity
      omega
    have hns0 : map.numSymbols = 0 := by
      have : (0 : Nat) = map.numDims + map.numSymbols := harity
      omega
    refine ⟨by simp [keptSpec], ?_, ?_⟩
    · show map.numDims = (keptSpec _ (([] : List Val).take map.numDims) 0 []).length
      simp [keptSpec, hnd0]
    · show map.numSymbols = (keptSpec _ (([] : List Val).drop map.numDims) 0 []).length
      simp [keptSpec, hns0]
  · have hunf : canonicalizeMapAndOperands map ops =
        ((canonicalizePromotedSymbols map ops).1.replaceDimsAndSymbols
          (canonRemapLoop
            (fun i => (canonicalizePromotedSymbols map ops).1.results.any
              (fun e => e.usesDim i)) AffineExpr.dim
            ((canonicalizePromotedSymbols map ops).2.take
              (canonicalizePromotedSymbols map ops).1.numDims) 0 0 []).1
          (canonRemapLoop
            (fun j => (canonicalizePromotedSymbols map ops).1.results.any
              (fun e => e.usesSym j)) AffineExpr.sym
            ((canonicalizePromotedSymbols map ops).2.drop
              (canonicalizePromotedSymbols map ops).1.numDims) 0 0 []).1
          (canonRemapLoop
            (fun i => (canonicalizePromotedSymbols map ops).1.results.any
              (fun e => e.usesDim i)) AffineExpr.dim
            ((canonicalizePromotedSymbols map ops).2.take
              (canonicalizePromotedSymbols map ops).1.numDims) 0 0 []).2.2
          (canonRemapLoop
            (fun j => (canonicalizePromotedSymbols map ops).1.results.any
              (fun e => e.usesSym j)) AffineExpr.sym
            ((canonicalizePromotedSymbols map ops).2.drop
              (canonicalizePromotedSymbols map ops).1.numDims) 0 0 []).2.2,
         (canonRemapLoop
            (fun i => (canonicalizePromotedSymbols map ops).1.results.any
              (fun e => e.usesDim i)) AffineExpr.dim
            ((canonicalizePromotedSymbols map ops).2.take
              (canonicalizePromotedSymbols map ops).1.numDims) 0 0 []).2.1 ++
         (canonRemapLoop
            (fun j => (canonicalizePromotedSymbols map ops).1.results.any
              (fun e => e.usesSym j)) AffineExpr.sym
            ((canonicalizePromotedSymbols map ops).2.drop
              (canonicalizePromotedSymbols map ops).1.numDims) 0 0 []).2.1) := by
      rw [canonicalizeMapAndOperands, if_neg (by simp [hemp])]
    rw [hunf]
    have hkd := canonRemapLoop_kept
      (fun i => (canonicalizePromotedSymbols map ops).1.results.any
        (fun e => e.usesDim i)) AffineExpr.dim
      ((canonicalizePromotedSymbols map ops).2.take
        (canonicalizePromotedSymbols map ops).1.numDims) 0 0 []
    have hks := canonRemapLoop_kept
      (fun j => (canonicalizePromotedSymbols map ops).1.results.any
        (fun e => e.usesSym j)) AffineExpr.sym
      ((canonicalizePromotedSymbols map ops).2.drop
        (canonicalizePromotedSymbols map ops).1.numDims) 0 0 []
    have hcd := canonRemapLoop_count
      (fun i => (canonicalizePromotedSymbols map ops).1.results.any
        (fun e => e.usesDim i)) AffineExpr.dim
      ((canonicalizePromotedSymbols map ops).2.take
        (canonicalizePromotedSymbols map ops).1.numDims) 0 0 []
    have hcs := canonRemapLoop_count
      (fun j => (canonicalizePromotedSymbols map ops).1.results.any
        (fun e => e.usesSym j)) AffineExpr.sym
      ((canonicalizePromotedSymbols map ops).2.drop
        (canonicalizePromotedSymbols map ops).1.numDims) 0 0 []
    simp only [List.map_nil] at hkd hks
    refine ⟨by rw [hkd, hks], ?_, ?_⟩
    · show (canonRemapLoop _ _ _ 0 0 []).2.2 = _
      rw [hcd, hkd]
      omega
    · show (canonRemapLoop _ _ _ 0 0 []).2.2 = _
      rw [hcs, hks]
      omega

/-- Witness for claim C4 at the map `(d0, d1) -> (d1)` with two distinct
operands: the unused dimension is dropped and one operand kept. -/
theorem claim_C4_witness :
    [Val.blockArg 0 true false, Val.blockArg 1 true false].length =
      (⟨2, 0, [.dim 1]⟩ : AffineMap).numInputs ∧
    ((canonicalizeMapAndOperands ⟨2, 0, [.dim 1]⟩
        [Val.blockArg 0 true false, Val.blockArg 1 true false]).2 =
      keptSpec (fun i => (canonicalizePromotedSymbols ⟨2, 0, [.dim 1]⟩
          [Val.blockArg 0 true false, Val.blockArg 1 true false]).1.results.any
          (fun e => e.usesDim i))
        ((canonicalizePromotedSymbols ⟨2, 0, [.dim 1]⟩
          [Val.blockArg 0 true false, Val.blockArg 1 true false]).2.take
          (canonicalizePromotedSymbols ⟨2, 0, [.dim 1]⟩
            [Val.blockArg 0 true false, Val.blockArg 1 true false]).1.numDims)
        0 [] ++
      keptSpec (fun j => (canonicalizePromotedSymbols ⟨2, 0, [.dim 1]⟩
          [Val.blockArg 0 true false, Val.blockArg 1 true false]).1.results.any
          (fun e => e.usesSym j))
        ((canonicalizePromotedSymbols ⟨2, 0, [.dim 1]⟩
          [Val.blockArg 0 true false, Val.blockArg 1 true false]).2.drop
          (canonicalizePromotedSymbols ⟨2, 0, [.dim 1]⟩
            [Val.blockArg 0 true false, Val.blockArg 1 true false]).1.numDims)
        0 [] ∧
    (canonicalizeMapAndOperands ⟨2, 0, [.dim 1]⟩
        [Val.blockArg 0 true false, Val.blockArg 1 true false]).1.numDims =
      (keptSpec (fun i => (canonicalizePromotedSymbols ⟨2, 0, [.dim 1]⟩
          [Val.blockArg 0 true false, Val.blockArg 1 true false]).1.results.any
          (fun e => e.usesDim i))
        ((canonicalizePromotedSymbols ⟨2, 0, [.dim 1]⟩
          [Val.blockArg 0 true false, Val.blockArg 1 true false]).2.take
          (canonicalizePromotedSymbols ⟨2, 0, [.dim 1]⟩
            [Val.blockArg 0 true false, Val.blockArg 1 true false]).1.numDims)
        0 []).length ∧
    (canonicalizeMapAndOperands ⟨2, 0, [.dim 1]⟩
        [Val.blockArg 0 true false, Val.blockArg 1 true false]).1.numSymbols =
      (keptSpec (fun j => (canonicalizePromotedSymbols ⟨2, 0, [.dim 1]⟩
          [Val.blockArg 0 true false, Val.blockArg 1 true false]).1.results.any
          (fun e => e.usesSym j))
        ((canonicalizePromotedSymbols ⟨2, 0, [.dim 1]⟩
          [Val.blockArg 0 true false, Val.blockArg 1 true false]).2.drop
          (canonicalizePromotedSymbols ⟨2, 0, [.dim 1]⟩
            [Val.blockArg 0 true false, Val.blockArg 1 true false]).1.numDims)
        0 []).length) :=
  ⟨rfl, claim_C4_amended ⟨2, 0, [.dim 1]⟩
    [Val.blockArg 0 true false, Val.blockArg 1 true false] rfl⟩

end MLIR
